import Mathlib

/-!
Shallow embedding of `src/tomasulo.c` (a cycle-accurate Tomasulo-style
out-of-order scheduling simulator) and proofs about it.

Modelling conventions:
* An instruction is identified by its (1-based) trace index, a `Nat`; the C
  code's `instruction_t*` pointers are these indices (distinct trace entries
  are distinct pointers, and `instr->index` equals the trace position).
* The static part of an instruction (opcode classification flags and register
  operands) is given by a total function `trace : Nat → InstrStatic`
  (`get_instr`).  The mutable per-instruction scheduling metadata
  (`tom_*_cycle` fields and the await-slots `Q[0..2]`), which the external
  trace provider zero-initialises, lives in the simulator state, keyed by
  instruction index.
* Machine integers are modelled as `Nat`; no quantity in reach of overflow is
  subtracted below zero anywhere in the C code paths modelled here.
* `assert(false)` paths (unrecognized instruction classes) are modelled by
  returning `none`.
* The `do { ... } while` loop in `fetch` has no intrinsic termination bound in
  the C code (it scans for the next non-trap entry), so it is modelled with
  explicit fuel; the driver passes fuel `N + 1`, which is exhausted only on
  traces the C code itself would read out of bounds (see the C8 analysis).
* As a ghost instrument for claim C8, the state records the list of indices
  passed to `get_instr`; no simulator decision reads this field.
-/

namespace Tomasulo

/-- Opcode classification consumed through the `MD_OP_FLAGS` macros of
`tomasulo.c`.  Each field is the value of the corresponding macro
(`IS_UNCOND_CTRL`, `IS_COND_CTRL`, `IS_FCOMP`, `IS_ICOMP`, `IS_LOAD`,
`IS_STORE`, `IS_TRAP`) on this opcode. -/
structure Op where
  isUncondCtrl : Bool
  isCondCtrl : Bool
  isFcomp : Bool
  isIcomp : Bool
  isLoad : Bool
  isStore : Bool
  isTrap : Bool
deriving DecidableEq, Repr

/-- `USES_INT_FU(op) = (IS_ICOMP(op) || IS_LOAD(op) || IS_STORE(op))`. -/
def USES_INT_FU (op : Op) : Bool := op.isIcomp || op.isLoad || op.isStore

/-- `USES_FP_FU(op) = IS_FCOMP(op)`. -/
def USES_FP_FU (op : Op) : Bool := op.isFcomp

/-- `WRITES_CDB(op) = (IS_ICOMP(op) || IS_LOAD(op) || IS_FCOMP(op))`. -/
def WRITES_CDB (op : Op) : Bool := op.isIcomp || op.isLoad || op.isFcomp

/-- `FU_INT_LATENCY` in `tomasulo.c`. -/
def FU_INT_LATENCY : Nat := 4

/-- `FU_FP_LATENCY` in `tomasulo.c`. -/
def FU_FP_LATENCY : Nat := 9

/-- The `DNA` ("depends on nothing") register sentinel of the external
simplescalar headers: register id 0, a valid index of `map_table`. -/
def DNA : Nat := 0

/-- Static data of one trace instruction: opcode flags, three source register
ids `r_in[0..2]` and two destination register ids `r_out[0..1]` (`DNA` marks
an absent operand). -/
structure InstrStatic where
  op : Op
  rIn : Fin 3 → Nat
  rOut : Fin 2 → Nat

/-- The mutable simulator state: the global variables of `tomasulo.c` plus the
per-instruction mutable metadata (owned by the external trace provider in C,
zero-initialised) and one ghost field.

Queue capacity `INSTR_QUEUE_SIZE = 10`, reservation stations
`RESERV_INT_SIZE = 4`, `RESERV_FP_SIZE = 2`, functional units
`FU_INT_SIZE = 2`, `FU_FP_SIZE = 1` appear as the literal sizes of the `Fin`
index types. -/
structure State where
  doneCount : Nat
  instr_queue : Fin 10 → Option Nat
  instr_queue_size : Nat
  ifq_head : Fin 10
  ifq_tail : Fin 10
  reservINT : Fin 4 → Option Nat
  reservFP : Fin 2 → Option Nat
  fuINT : Fin 2 → Option Nat
  fuFP : Fin 1 → Option Nat
  commonDataBus : Option Nat
  map_table : Nat → Option Nat
  fetch_index : Nat
  tom_dispatch_cycle : Nat → Nat
  tom_issue_cycle : Nat → Nat
  tom_execute_cycle : Nat → Nat
  tom_cdb_cycle : Nat → Nat
  Q : Nat → Fin 3 → Option Nat
  requested : List Nat

/-- The all-zero initial state: what `runTomasulo`'s initialisation loops plus
the zero-initialised globals and instruction metadata produce. -/
def initState : State where
  doneCount := 0
  instr_queue := fun _ => none
  instr_queue_size := 0
  ifq_head := 0
  ifq_tail := 0
  reservINT := fun _ => none
  reservFP := fun _ => none
  fuINT := fun _ => none
  fuFP := fun _ => none
  commonDataBus := none
  map_table := fun _ => none
  fetch_index := 0
  tom_dispatch_cycle := fun _ => 0
  tom_issue_cycle := fun _ => 0
  tom_execute_cycle := fun _ => 0
  tom_cdb_cycle := fun _ => 0
  Q := fun _ _ => none
  requested := []

/-- `is_simulation_done`: `doneCount == sim_insn`. -/
def is_simulation_done (N : Nat) (s : State) : Bool := s.doneCount == N

/-- Write await-slot `j` of instruction `k` (`k->Q[j] = v`). -/
def setQ (Qm : Nat → Fin 3 → Option Nat) (k : Nat) (j : Fin 3) (v : Option Nat) :
    Nat → Fin 3 → Option Nat :=
  fun k2 => if k2 = k then Function.update (Qm k) j v else Qm k2

/-- One iteration of the inner loop of `CDB_To_retire` over a reservation
station slot holding `occ`: if the slot is occupied by `m` and `m->Q[j]`
equals the bus occupant `b`, clear it.  (The C test
`Q[j] != NULL && Q[j] == commonDataBus` collapses to `Q[j] = some b`.) -/
def clearQIfBus (b : Nat) (occ : Option Nat) (j : Fin 3)
    (Qm : Nat → Fin 3 → Option Nat) : Nat → Fin 3 → Option Nat :=
  match occ with
  | none => Qm
  | some m => if Qm m j = some b then setQ Qm m j none else Qm

/-- The `j = 0, 1, 2` inner loop of `CDB_To_retire` for one slot. -/
def clearQSlot (b : Nat) (occ : Option Nat) (Qm : Nat → Fin 3 → Option Nat) :
    Nat → Fin 3 → Option Nat :=
  clearQIfBus b occ 2 (clearQIfBus b occ 1 (clearQIfBus b occ 0 Qm))

/-- One iteration of the map-clearing loop of `CDB_To_retire`:
`if (map_table[r] == b) map_table[r] = NULL`. -/
def clearMapFor (b r : Nat) (mt : Nat → Option Nat) : Nat → Option Nat :=
  if mt r = some b then Function.update mt r none else mt

/-- `CDB_To_retire` (the `current_cycle` argument is unused in its body): if
the bus is occupied by `b`, clear the two `map_table[b->r_out[i]]` entries
still naming `b`, clear every await-slot of every occupied reservation
station entry that names `b`, empty the bus and increment `doneCount`. -/
def CDB_To_retire (trace : Nat → InstrStatic) (s : State) : State :=
  match s.commonDataBus with
  | none => s
  | some b =>
    let mt := clearMapFor b ((trace b).rOut 1) (clearMapFor b ((trace b).rOut 0) s.map_table)
    let q1 := clearQSlot b (s.reservINT 0) s.Q
    let q2 := clearQSlot b (s.reservINT 1) q1
    let q3 := clearQSlot b (s.reservINT 2) q2
    let q4 := clearQSlot b (s.reservINT 3) q3
    let q5 := clearQSlot b (s.reservFP 0) q4
    let q6 := clearQSlot b (s.reservFP 1) q5
    { s with map_table := mt, Q := q6, commonDataBus := none, doneCount := s.doneCount + 1 }

/-- Null the first slot of `slots` (scanned in the order of the given index
list) holding `m`, then stop — the `break` in the loops of `free_stations`. -/
def freeFirst {n : Nat} (slots : Fin n → Option Nat) (m : Nat) :
    List (Fin n) → (Fin n → Option Nat)
  | [] => slots
  | i :: rest => if slots i = some m then Function.update slots i none else freeFirst slots m rest

/-- `free_stations(instr)`: free the first functional-unit slot and the first
reservation-station slot of `m`'s class that hold `m`; `assert(false)` (here
`none`) if the op class is unrecognized. -/
def free_stations (trace : Nat → InstrStatic) (m : Nat) (s : State) : Option State :=
  if USES_INT_FU (trace m).op then
    some { s with fuINT := freeFirst s.fuINT m [0, 1],
                  reservINT := freeFirst s.reservINT m [0, 1, 2, 3] }
  else if USES_FP_FU (trace m).op then
    some { s with fuFP := freeFirst s.fuFP m [0],
                  reservFP := freeFirst s.reservFP m [0, 1] }
  else
    none

/-- The `fuINT` loop of `execute_To_CDB`, scanning the slots in the order of
the given list while threading the state (stores whose latency elapsed are
freed and counted at once) and the current lowest-index completed non-store
candidate (`oldest`/`oldest_instr`, here the candidate's index, which is the
candidate itself). -/
def execScanINT (trace : Nat → InstrStatic) (cycle : Nat) :
    List (Fin 2) → State → Option Nat → Option (State × Option Nat)
  | [], s, best => some (s, best)
  | i :: rest, s, best =>
    match s.fuINT i with
    | none => execScanINT trace cycle rest s best
    | some m =>
      if s.tom_execute_cycle m + FU_INT_LATENCY ≤ cycle then
        if (trace m).op.isStore then
          match free_stations trace m s with
          | none => none
          | some s2 => execScanINT trace cycle rest { s2 with doneCount := s2.doneCount + 1 } best
        else
          match best with
          | none => execScanINT trace cycle rest s (some m)
          | some b =>
            if m < b then execScanINT trace cycle rest s (some m)
            else execScanINT trace cycle rest s best
      else execScanINT trace cycle rest s best

/-- The `fuFP[0]` block of `execute_To_CDB`: if the single floating-point
unit is occupied and its latency elapsed, fold its occupant into the current
lowest-index candidate (note: no store test on this branch in the C code). -/
def mergeFP (cycle : Nat) (s1 : State) (best1 : Option Nat) : Option Nat :=
  match s1.fuFP 0 with
  | none => best1
  | some m =>
    if s1.tom_execute_cycle m + FU_FP_LATENCY ≤ cycle then
      match best1 with
      | none => some m
      | some b => if m < b then some m else best1
    else best1

/-- `execute_To_CDB`: scan `fuINT` (freeing and counting completed stores,
collecting the lowest-index completed non-store), fold in `fuFP[0]` if its
latency elapsed, then stamp the winner's `tom_cdb_cycle`, free its stations
and place it on the bus. -/
def execute_To_CDB (trace : Nat → InstrStatic) (cycle : Nat) (s : State) : Option State :=
  match execScanINT trace cycle [0, 1] s none with
  | none => none
  | some (s1, best1) =>
    match mergeFP cycle s1 best1 with
    | none => some s1
    | some w =>
      match free_stations trace w
          { s1 with tom_cdb_cycle := Function.update s1.tom_cdb_cycle w cycle } with
      | none => none
      | some s2 => some { s2 with commonDataBus := some w }

/-- The `while (j < RESERV_INT_SIZE)` scan of `issue_To_execute`: among the
occupied `reservINT` slots with no execution-start cycle recorded
(`tom_execute_cycle == 0`) and all three await-slots empty, keep the occupant
with the strictly lowest `index`. -/
def scanReadyINT (s : State) : List (Fin 4) → Option Nat → Option Nat
  | [], best => best
  | j :: rest, best =>
    match s.reservINT j with
    | none => scanReadyINT s rest best
    | some m =>
      if s.tom_execute_cycle m = 0 ∧ s.Q m 0 = none ∧ s.Q m 1 = none ∧ s.Q m 2 = none then
        match best with
        | none => scanReadyINT s rest (some m)
        | some b =>
          if m < b then scanReadyINT s rest (some m) else scanReadyINT s rest best
      else scanReadyINT s rest best

/-- The `while (j < RESERV_FP_SIZE)` scan of `issue_To_execute`: same
candidate condition, but the kept candidate is replaced whenever the new
candidate's `tom_dispatch_cycle` is less than **or equal to** the kept one's
(the C comparison is `<=`). -/
def scanReadyFP (s : State) : List (Fin 2) → Option Nat → Option Nat
  | [], best => best
  | j :: rest, best =>
    match s.reservFP j with
    | none => scanReadyFP s rest best
    | some m =>
      if s.tom_execute_cycle m = 0 ∧ s.Q m 0 = none ∧ s.Q m 1 = none ∧ s.Q m 2 = none then
        match best with
        | none => scanReadyFP s rest (some m)
        | some b =>
          if s.tom_dispatch_cycle m ≤ s.tom_dispatch_cycle b then scanReadyFP s rest (some m)
          else scanReadyFP s rest best
      else scanReadyFP s rest best

/-- One iteration of the `fuINT` loop of `issue_To_execute`: if slot `i` is
free, scan `reservINT` for the oldest ready occupant, record its execution
start cycle and place it in the slot. -/
def issueSlotINT (cycle : Nat) (s : State) (i : Fin 2) : State :=
  match s.fuINT i with
  | some _ => s
  | none =>
    match scanReadyINT s [0, 1, 2, 3] none with
    | none => s
    | some m =>
      { s with tom_execute_cycle := Function.update s.tom_execute_cycle m cycle,
               fuINT := Function.update s.fuINT i (some m) }

/-- One iteration of the `fuFP` loop of `issue_To_execute`. -/
def issueSlotFP (cycle : Nat) (s : State) (i : Fin 1) : State :=
  match s.fuFP i with
  | some _ => s
  | none =>
    match scanReadyFP s [0, 1] none with
    | none => s
    | some m =>
      { s with tom_execute_cycle := Function.update s.tom_execute_cycle m cycle,
               fuFP := Function.update s.fuFP i (some m) }

/-- `issue_To_execute`: the two integer functional-unit slots in order, then
the single floating-point slot.  (Marking `tom_execute_cycle` nonzero in the
first iteration is what keeps the second iteration from picking the same
reservation-station entry.) -/
def issue_To_execute (cycle : Nat) (s : State) : State :=
  issueSlotFP cycle (issueSlotINT cycle (issueSlotINT cycle s 0) 1) 0

/-- One iteration of the source loop of `map_operands`:
`if (r_in[i] != DNA) Q[i] = map_table[r_in[i]]`. -/
def mapSrc (trace : Nat → InstrStatic) (m : Nat) (i : Fin 3) (s : State) : State :=
  if (trace m).rIn i ≠ DNA then
    { s with Q := setQ s.Q m i (s.map_table ((trace m).rIn i)) }
  else s

/-- One iteration of the destination loop of `map_operands`:
`if (r_out[i] != DNA) map_table[r_out[i]] = instr`. -/
def mapDst (trace : Nat → InstrStatic) (m : Nat) (i : Fin 2) (s : State) : State :=
  if (trace m).rOut i ≠ DNA then
    { s with map_table := Function.update s.map_table ((trace m).rOut i) (some m) }
  else s

/-- `map_operands(instr)`: copy the producer-map entries of the three source
registers into the await-slots, then record `m` as producer of its destination
registers — in that order. -/
def map_operands (trace : Nat → InstrStatic) (m : Nat) (s : State) : State :=
  mapDst trace m 1 (mapDst trace m 0 (mapSrc trace m 2 (mapSrc trace m 1 (mapSrc trace m 0 s))))

/-- First free slot in scan order — the `for` loops with `break` in
`dispatch_To_issue`. -/
def firstFreeSlot {n : Nat} (slots : Fin n → Option Nat) : List (Fin n) → Option (Fin n)
  | [] => none
  | i :: rest => if slots i = none then some i else firstFreeSlot slots rest

/-- `dispatch_To_issue`: if the queue is nonempty, look at its head.  Control
instructions are popped and counted retired at once.  Otherwise the head is
placed in the first free reservation station of its class (floating-point
tested first), stamped with `tom_issue_cycle`, popped, and `map_operands` is
run; with no free slot the head stays.  An unrecognized class is
`assert(false)`, modelled as `none`.  (In every reachable state the head slot
of a nonempty queue is occupied; an empty head is modelled as a no-op.) -/
def dispatch_To_issue (trace : Nat → InstrStatic) (cycle : Nat) (s : State) : Option State :=
  if 0 < s.instr_queue_size then
    match s.instr_queue s.ifq_head with
    | none => some s
    | some h =>
      if (trace h).op.isUncondCtrl || (trace h).op.isCondCtrl then
        some { s with ifq_head := s.ifq_head + 1,
                      instr_queue_size := s.instr_queue_size - 1,
                      doneCount := s.doneCount + 1 }
      else if USES_FP_FU (trace h).op then
        match firstFreeSlot s.reservFP [0, 1] with
        | none => some s
        | some i =>
          some (map_operands trace h
            { s with reservFP := Function.update s.reservFP i (some h),
                     tom_issue_cycle := Function.update s.tom_issue_cycle h cycle,
                     ifq_head := s.ifq_head + 1,
                     instr_queue_size := s.instr_queue_size - 1 })
      else if USES_INT_FU (trace h).op then
        match firstFreeSlot s.reservINT [0, 1, 2, 3] with
        | none => some s
        | some i =>
          some (map_operands trace h
            { s with reservINT := Function.update s.reservINT i (some h),
                     tom_issue_cycle := Function.update s.tom_issue_cycle h cycle,
                     ifq_head := s.ifq_head + 1,
                     instr_queue_size := s.instr_queue_size - 1 })
      else none
  else some s

/-- The `do { fetch_index++; new_instr = get_instr(trace, fetch_index); ... }
while (IS_TRAP)` loop of `fetch`, with fuel.  Arguments: current
`fetch_index`, current `doneCount`, ghost list of indices already passed to
`get_instr`.  Returns the new `fetch_index` (the index of the fetched
non-trap instruction), the new `doneCount` and the extended ghost list.
Note: the C loop has no bound check against `sim_num_insn`. -/
def fetchLoop (trace : Nat → InstrStatic) :
    Nat → Nat → Nat → List Nat → Option (Nat × Nat × List Nat)
  | 0, _, _, _ => none
  | ffuel + 1, fi, dc, req =>
    if (trace (fi + 1)).op.isTrap then fetchLoop trace ffuel (fi + 1) (dc + 1) (req ++ [fi + 1])
    else some (fi + 1, dc, req ++ [fi + 1])

/-- `fetch(trace)`: run the trap-skipping loop, then store the fetched
instruction into `instr_queue[ifq_tail]`. -/
def fetch (trace : Nat → InstrStatic) (ffuel : Nat) (s : State) : Option State :=
  match fetchLoop trace ffuel s.fetch_index s.doneCount s.requested with
  | none => none
  | some (fi, dc, req) =>
    some { s with fetch_index := fi, doneCount := dc, requested := req,
                  instr_queue := Function.update s.instr_queue s.ifq_tail (some fi) }

/-- `fetch_To_dispatch`: when the queue has room and `fetch_index <
sim_num_insn`, fetch, stamp the dispatch cycle of the instruction just placed
at `ifq_tail`, advance the tail and grow the queue.  (The `none` inner branch
is unreachable: `fetch` has just filled that slot.) -/
def fetch_To_dispatch (trace : Nat → InstrStatic) (N ffuel cycle : Nat) (s : State) :
    Option State :=
  if s.instr_queue_size < 10 ∧ s.fetch_index < N then
    match fetch trace ffuel s with
    | none => none
    | some s1 =>
      match s1.instr_queue s1.ifq_tail with
      | none => some s1
      | some m =>
        some { s1 with tom_dispatch_cycle := Function.update s1.tom_dispatch_cycle m cycle,
                       ifq_tail := s1.ifq_tail + 1,
                       instr_queue_size := s1.instr_queue_size + 1 }
  else some s

/-- One iteration of the `while (true)` body of `runTomasulo`: the five stage
transitions, back to front, at cycle number `cycle`. -/
def cycleStep (trace : Nat → InstrStatic) (N cycle : Nat) (s : State) : Option State :=
  match execute_To_CDB trace cycle (CDB_To_retire trace s) with
  | none => none
  | some s2 =>
    match dispatch_To_issue trace cycle (issue_To_execute cycle s2) with
    | none => none
    | some s4 => fetch_To_dispatch trace N (N + 1) cycle s4

/-- State after `c` full cycles from the initial state (cycle numbers start
at 1, as in `runTomasulo`). -/
def runCycles (trace : Nat → InstrStatic) (N : Nat) : Nat → Option State
  | 0 => some initState
  | c + 1 =>
    match runCycles trace N c with
    | none => none
    | some s => cycleStep trace N (c + 1) s

/-- The `while (true)` loop of `runTomasulo` with fuel, also returning the
final state: run a cycle, increment the cycle counter, exit with its current
value once `is_simulation_done` holds. -/
def runLoopS (trace : Nat → InstrStatic) (N : Nat) : Nat → Nat → State → Option (Nat × State)
  | 0, _, _ => none
  | fuel + 1, cycle, s =>
    match cycleStep trace N cycle s with
    | none => none
    | some s2 =>
      if is_simulation_done N s2 then some (cycle + 1, s2)
      else runLoopS trace N fuel (cycle + 1) s2

/-- `runTomasulo(trace)` (with `sim_num_insn = N` and fuel): the returned
cycle count. -/
def runTomasulo (trace : Nat → InstrStatic) (N fuel : Nat) : Option Nat :=
  (runLoopS trace N fuel 1 initState).map Prod.fst

/-! Concrete opcodes and traces used in counterexamples and witnesses. -/

/-- An integer-computation opcode. -/
def icompOp : Op :=
  { isUncondCtrl := false, isCondCtrl := false, isFcomp := false, isIcomp := true,
    isLoad := false, isStore := false, isTrap := false }

/-- A store opcode. -/
def storeOp : Op :=
  { isUncondCtrl := false, isCondCtrl := false, isFcomp := false, isIcomp := false,
    isLoad := false, isStore := true, isTrap := false }

/-- A trap opcode. -/
def trapOp : Op :=
  { isUncondCtrl := false, isCondCtrl := false, isFcomp := false, isIcomp := false,
    isLoad := false, isStore := false, isTrap := true }

/-- A floating-point computation opcode. -/
def fcompOp : Op :=
  { isUncondCtrl := false, isCondCtrl := false, isFcomp := true, isIcomp := false,
    isLoad := false, isStore := false, isTrap := false }

/-- Instruction with the given opcode, no sources, destination register 5. -/
def mkInstr (op : Op) : InstrStatic :=
  { op := op, rIn := fun _ => DNA, rOut := fun i => if i = 0 then 5 else DNA }

/-- Instruction with the given opcode and no register operands at all. -/
def mkBareInstr (op : Op) : InstrStatic :=
  { op := op, rIn := fun _ => DNA, rOut := fun _ => DNA }

/-- Trace whose single instruction (index 1) is an integer computation
writing register 5. -/
def traceIcomp1 : Nat → InstrStatic := fun _ => mkInstr icompOp

/-- Trace whose instruction 1 is a trap and whose later entries are non-traps
(the content of entries beyond `N = 1` is immaterial garbage the C code reads
out of bounds). -/
def traceTrap1 : Nat → InstrStatic := fun k => if k = 1 then mkBareInstr trapOp else mkBareInstr icompOp

/-- Trace whose single instruction is a store. -/
def traceStore1 : Nat → InstrStatic := fun _ => { op := storeOp, rIn := fun _ => DNA, rOut := fun _ => DNA }

/-- A state exercising `map_operands` in the C7 witness: register 2 has
producer 3 in the map. -/
def c7State : State := { initState with map_table := fun r => if r = 2 then some 3 else none }

/-- A trace whose instruction 1 both reads and writes register 2
(`r_in[0] = r_out[0] = 2`). -/
def c7Trace : Nat → InstrStatic :=
  fun _ => { op := icompOp, rIn := fun i => if i = 0 then 2 else DNA,
             rOut := fun i => if i = 0 then 2 else DNA }

/-- Wrap a natural number into a queue slot index. -/
def finOfNat10 (p : Nat) : Fin 10 := ⟨p % 10, Nat.mod_lt p (by omega)⟩

/-- Physical queue slot of logical position `p` counted from head `h`. -/
def qslotAt (h : Fin 10) (p : Nat) : Fin 10 := h + finOfNat10 p

/-- Physical queue slot of logical position `p` of state `s`. -/
def qslot (s : State) (p : Nat) : Fin 10 := qslotAt s.ifq_head p

/-- `k` occupies the live window of the instruction queue. -/
def inQueue (s : State) (k : Nat) : Prop :=
  ∃ p, p < s.instr_queue_size ∧ s.instr_queue (qslot s p) = some k

/-- `k` occupies an integer reservation-station slot. -/
def inRSINT (s : State) (k : Nat) : Prop := ∃ j, s.reservINT j = some k

/-- `k` occupies a floating-point reservation-station slot. -/
def inRSFP (s : State) (k : Nat) : Prop := ∃ j, s.reservFP j = some k

/-- `k` occupies a reservation-station slot. -/
def inRS (s : State) (k : Nat) : Prop := inRSINT s k ∨ inRSFP s k

/-- `k` occupies a functional-unit slot. -/
def inFU (s : State) (k : Nat) : Prop :=
  (∃ i, s.fuINT i = some k) ∨ (∃ i, s.fuFP i = some k)

/-- `k` occupies the common data bus. -/
def onBus (s : State) (k : Nat) : Prop := s.commonDataBus = some k

instance (s : State) (k : Nat) : Decidable (inQueue s k) :=
  decidable_of_iff (∃ p ∈ Finset.range s.instr_queue_size, s.instr_queue (qslot s p) = some k)
    (by
      constructor
      · rintro ⟨p, hp, h⟩
        exact ⟨p, Finset.mem_range.mp hp, h⟩
      · rintro ⟨p, hp, h⟩
        exact ⟨p, Finset.mem_range.mpr hp, h⟩)

instance (s : State) (k : Nat) : Decidable (inRSINT s k) := by
  unfold inRSINT; infer_instance

instance (s : State) (k : Nat) : Decidable (inRSFP s k) := by
  unfold inRSFP; infer_instance

instance (s : State) (k : Nat) : Decidable (inRS s k) := by
  unfold inRS; infer_instance

instance (s : State) (k : Nat) : Decidable (inFU s k) := by
  unfold inFU; infer_instance

instance (s : State) (k : Nat) : Decidable (onBus s k) := by
  unfold onBus; infer_instance

/-- Number of occupied integer reservation-station slots. -/
def cntRSINT (s : State) : Nat :=
  (Finset.univ.filter fun j : Fin 4 => (s.reservINT j).isSome).card

/-- Number of occupied floating-point reservation-station slots. -/
def cntRSFP (s : State) : Nat :=
  (Finset.univ.filter fun j : Fin 2 => (s.reservFP j).isSome).card

/-- 1 when the common data bus is occupied. -/
def busCnt (s : State) : Nat := if s.commonDataBus.isSome then 1 else 0

/-- Sanity conditions on a single instruction's opcode flags and operands:
it belongs to a known class, uses at most one functional-unit kind, a store
does not also broadcast, and a (non-control, non-trap) instruction with a
destination register broadcasts its result. -/
def instrOk (ins : InstrStatic) : Bool :=
  (ins.op.isTrap || ins.op.isUncondCtrl || ins.op.isCondCtrl ||
    USES_INT_FU ins.op || USES_FP_FU ins.op) &&
  !(USES_FP_FU ins.op && USES_INT_FU ins.op) &&
  !(ins.op.isStore && WRITES_CDB ins.op) &&
  (ins.op.isTrap || ins.op.isUncondCtrl || ins.op.isCondCtrl ||
    (((ins.rOut 0 == DNA) || WRITES_CDB ins.op) && ((ins.rOut 1 == DNA) || WRITES_CDB ins.op)))

/-- Well-formed finite instruction stream of count `N`: every instruction in
range is sane, and the last instruction is not a trap (otherwise `fetch`
reads past the end of the trace — see claim C8). -/
def WFb (trace : Nat → InstrStatic) (N : Nat) : Bool :=
  ((List.range N).all fun k0 => instrOk (trace (k0 + 1))) &&
  (N == 0 || !(trace N).op.isTrap)

/-- Latency of the functional unit an instruction would occupy. -/
def latOf (trace : Nat → InstrStatic) (k : Nat) : Nat :=
  if USES_FP_FU (trace k).op then FU_FP_LATENCY else FU_INT_LATENCY

/-- Potential of instruction `k` in state `s` after `cyc` cycles: strictly
drops along the pipeline stages, and while executing it also counts the
latency still to elapse. -/
def pot (trace : Nat → InstrStatic) (cyc : Nat) (s : State) (k : Nat) : Nat :=
  if s.fetch_index < k then 16
  else if inQueue s k then 15
  else if inRS s k ∧ s.tom_execute_cycle k = 0 then 14
  else if inRS s k then 4 + (s.tom_execute_cycle k + latOf trace k - cyc)
  else if onBus s k then 3
  else 0

/-- Total potential: sum of the potentials of instructions `0..N`. -/
def measureM (trace : Nat → InstrStatic) (N cyc : Nat) (s : State) : Nat :=
  ∑ k ∈ Finset.range (N + 1), pot trace cyc s k

/-- Structural invariant of reachable simulator states after `c` cycles:
queue-window well-formedness and program order, class and range facts about
reservation-station occupants, mutual exclusion of queue, reservation
stations and bus, duplicate-freeness, functional-unit occupancy entailing
reservation-station occupancy (marked by a nonzero execution-start cycle),
and pristine metadata for unfetched instructions. -/
structure InvS (trace : Nat → InstrStatic) (N : Nat) (c : Nat) (s : State) : Prop where
  fi_le : s.fetch_index ≤ N
  size_le : s.instr_queue_size ≤ 10
  tail_eq : s.ifq_tail = qslot s s.instr_queue_size
  qocc : ∀ p, p < s.instr_queue_size → ∃ k, s.instr_queue (qslot s p) = some k
  qmono : ∀ p1 p2 k1 k2, p1 < p2 → p2 < s.instr_queue_size →
    s.instr_queue (qslot s p1) = some k1 → s.instr_queue (qslot s p2) = some k2 → k1 < k2
  qrange : ∀ p k, p < s.instr_queue_size → s.instr_queue (qslot s p) = some k →
    1 ≤ k ∧ k ≤ s.fetch_index
  qop : ∀ k, inQueue s k → (trace k).op.isTrap = false
  qexec0 : ∀ k, inQueue s k → s.tom_execute_cycle k = 0
  order : ∀ m k, inRS s m ∨ onBus s m → inQueue s k → m < k
  rsIntClass : ∀ k, inRSINT s k → USES_INT_FU (trace k).op = true ∧
    USES_FP_FU (trace k).op = false ∧ (trace k).op.isUncondCtrl = false ∧
    (trace k).op.isCondCtrl = false ∧ (trace k).op.isTrap = false ∧ 1 ≤ k ∧ k ≤ s.fetch_index
  rsFpClass : ∀ k, inRSFP s k → USES_FP_FU (trace k).op = true ∧
    (trace k).op.isUncondCtrl = false ∧ (trace k).op.isCondCtrl = false ∧
    (trace k).op.isTrap = false ∧ 1 ≤ k ∧ k ≤ s.fetch_index
  q_rs : ∀ k, inQueue s k → ¬inRS s k
  q_bus : ∀ k, inQueue s k → ¬onBus s k
  rs_bus : ∀ k, inRS s k → ¬onBus s k
  rsint_rsfp : ∀ k, inRSINT s k → ¬inRSFP s k
  rsIntDup : ∀ j1 j2 k, s.reservINT j1 = some k → s.reservINT j2 = some k → j1 = j2
  rsFpDup : ∀ j1 j2 k, s.reservFP j1 = some k → s.reservFP j2 = some k → j1 = j2
  fuIntDup : ∀ i1 i2 k, s.fuINT i1 = some k → s.fuINT i2 = some k → i1 = i2
  fuInt_rs : ∀ k i, s.fuINT i = some k → ∃ j, s.reservINT j = some k
  fuFp_rs : ∀ k i, s.fuFP i = some k → ∃ j, s.reservFP j = some k
  exec_iff_int : ∀ k, inRSINT s k → (s.tom_execute_cycle k ≠ 0 ↔ ∃ i, s.fuINT i = some k)
  exec_iff_fp : ∀ k, inRSFP s k → (s.tom_execute_cycle k ≠ 0 ↔ ∃ i, s.fuFP i = some k)
  exec_le : ∀ k, inRS s k → s.tom_execute_cycle k ≤ c
  bus_range : ∀ k, onBus s k → 1 ≤ k ∧ k ≤ s.fetch_index
  fresh_exec : ∀ k, s.fetch_index < k → s.tom_execute_cycle k = 0

/-- Producer-map, await-slot and accounting invariant of reachable states
(the layer on top of `InvS` needed for the termination proof): every producer
map entry names a broadcasting in-flight instruction through one of its
destination registers; every await-slot entry sits in a not-yet-executing
reservation-station occupant and names an older in-flight broadcasting
producer; and the completed count plus the in-flight population equals the
fetch index. -/
structure InvM (trace : Nat → InstrStatic) (N : Nat) (s : State) : Prop where
  mapwf : ∀ r k, s.map_table r = some k →
    (r = (trace k).rOut 0 ∨ r = (trace k).rOut 1) ∧ r ≠ DNA ∧
    (inRS s k ∨ onBus s k) ∧ WRITES_CDB (trace k).op = true
  qwf : ∀ k j p, s.Q k j = some p → inRS s k ∧ s.tom_execute_cycle k = 0 ∧
    (inRS s p ∨ onBus s p) ∧ p < k ∧ WRITES_CDB (trace p).op = true
  acct : s.doneCount + s.instr_queue_size + cntRSINT s + cntRSFP s + busCnt s = s.fetch_index

/-- The readiness test of the issue-stage scans: occupied slot content `m` has
no execution-start cycle recorded and all three await-slots empty. -/
def rsReady (s : State) (m : Nat) : Prop :=
  s.tom_execute_cycle m = 0 ∧ s.Q m 0 = none ∧ s.Q m 1 = none ∧ s.Q m 2 = none

/-- `m` is a ready occupant of one of the integer reservation-station slots
listed in `L`. -/
def candINT (s : State) (L : List (Fin 4)) (m : Nat) : Prop :=
  ∃ j, j ∈ L ∧ s.reservINT j = some m ∧ rsReady s m

/-- `m` is a ready occupant of one of the floating-point reservation-station
slots listed in `L`. -/
def candFP (s : State) (L : List (Fin 2)) (m : Nat) : Prop :=
  ∃ j, j ∈ L ∧ s.reservFP j = some m ∧ rsReady s m

/-- `m` occupies one of the integer functional-unit slots listed in `L`, its
latency has elapsed at `cycle`, and it is not a store — the candidates the
`fuINT` scan of `execute_To_CDB` offers for bus arbitration. -/
def intDone (trace : Nat → InstrStatic) (cycle : Nat) (s : State) (L : List (Fin 2))
    (m : Nat) : Prop :=
  ∃ i, i ∈ L ∧ s.fuINT i = some m ∧ s.tom_execute_cycle m + FU_INT_LATENCY ≤ cycle ∧
    (trace m).op.isStore = false

/-- `m` occupies the floating-point functional unit and its latency has
elapsed at `cycle` — the candidate the `fuFP` block of `execute_To_CDB`
offers (the C code has no store test here). -/
def fpDone (cycle : Nat) (s : State) (m : Nat) : Prop :=
  s.fuFP 0 = some m ∧ s.tom_execute_cycle m + FU_FP_LATENCY ≤ cycle

/-- Bus-arbitration candidate: a completed non-store integer occupant or the
completed floating-point occupant. -/
def busCand (trace : Nat → InstrStatic) (cycle : Nat) (s : State) (m : Nat) : Prop :=
  intDone trace cycle s [0, 1] m ∨ fpDone cycle s m

/-- Trace for the C1/C6 witnesses: instruction 5 is a store, 3 a
floating-point computation, everything else an integer computation. -/
def c1Trace : Nat → InstrStatic := fun k =>
  if k = 5 then mkBareInstr storeOp
  else if k = 3 then mkBareInstr fcompOp
  else mkBareInstr icompOp

/-- State for the C1/C6 witnesses at cycle 10: store 5 and integer op 8 sit
completed in the two integer units, floating-point op 3 sits completed in the
FP unit, the bus is empty. -/
def c1State : State :=
  { initState with
      fuINT := fun i => if i = 0 then some 5 else some 8,
      fuFP := fun _ => some 3,
      reservINT := fun j => if j = 0 then some 5 else if j = 1 then some 8 else none,
      reservFP := fun _ => some 3,
      tom_execute_cycle := fun m => if m = 5 ∨ m = 8 ∨ m = 3 then 1 else 0 }

/-- A state for the C5 witness: ready integer occupants 7 (slot 0) and 3
(slot 1). -/
def c5State : State :=
  { initState with
      reservINT := fun j => if j = 0 then some 7 else if j = 1 then some 3 else none }

/-- A state for the C5 witness, floating-point side: ready occupants 4 (slot
0, dispatched at cycle 10) and 9 (slot 1, dispatched at cycle 2) — the scan
must pick 9, the higher index with the lower dispatch cycle. -/
def c5StateFP : State :=
  { initState with
      reservFP := fun j => if j = 0 then some 4 else some 9,
      tom_dispatch_cycle := fun m => if m = 4 then 10 else if m = 9 then 2 else 0 }

example : runTomasulo traceIcomp1 1 20 = some 9 := by decide

example : runTomasulo traceStore1 1 20 = some 8 := by decide

example : runTomasulo traceTrap1 1 20 = some 2 := by decide

example : (runCycles traceIcomp1 1 3).map (fun s => (s.reservINT 0, s.fuINT 0)) =
    some (some 1, some 1) := by decide

/-! ## Pointwise characterisation lemmas for the producer map and await-slots -/

theorem setQ_apply (Qm : Nat → Fin 3 → Option Nat) (k : Nat) (j : Fin 3) (v : Option Nat)
    (k2 : Nat) (j2 : Fin 3) :
    setQ Qm k j v k2 j2 = if k2 = k ∧ j2 = j then v else Qm k2 j2 := by
  unfold setQ
  by_cases hk : k2 = k
  · subst hk
    by_cases hj : j2 = j
    · subst hj; simp
    · simp [Function.update_apply, hj]
  · simp [hk]

theorem mapSrc_map_table (trace : Nat → InstrStatic) (m : Nat) (i : Fin 3) (s : State) :
    (mapSrc trace m i s).map_table = s.map_table := by
  unfold mapSrc; split <;> rfl

theorem mapSrc_Q (trace : Nat → InstrStatic) (m : Nat) (i : Fin 3) (s : State)
    (k : Nat) (j : Fin 3) :
    (mapSrc trace m i s).Q k j =
      if k = m ∧ j = i ∧ (trace m).rIn i ≠ DNA then s.map_table ((trace m).rIn i)
      else s.Q k j := by
  unfold mapSrc
  by_cases h : (trace m).rIn i ≠ DNA
  · rw [if_pos h]
    show setQ s.Q m i (s.map_table ((trace m).rIn i)) k j = _
    rw [setQ_apply]
    by_cases hk : k = m <;> by_cases hj : j = i <;> simp [hk, hj, h]
  · rw [if_neg h]
    have hcond : ¬(k = m ∧ j = i ∧ (trace m).rIn i ≠ DNA) := by tauto
    rw [if_neg hcond]

theorem mapDst_Q (trace : Nat → InstrStatic) (m : Nat) (i : Fin 2) (s : State) :
    (mapDst trace m i s).Q = s.Q := by
  unfold mapDst; split <;> rfl

theorem mapDst_map_table (trace : Nat → InstrStatic) (m : Nat) (i : Fin 2) (s : State)
    (r : Nat) :
    (mapDst trace m i s).map_table r =
      if (trace m).rOut i ≠ DNA ∧ r = (trace m).rOut i then some m else s.map_table r := by
  unfold mapDst
  by_cases h : (trace m).rOut i ≠ DNA
  · rw [if_pos h]
    show Function.update s.map_table ((trace m).rOut i) (some m) r = _
    rw [Function.update_apply]
    by_cases hr : r = (trace m).rOut i <;> simp [hr, h]
  · rw [if_neg h]
    have hcond : ¬((trace m).rOut i ≠ DNA ∧ r = (trace m).rOut i) := by tauto
    rw [if_neg hcond]

theorem map_operands_map_table (trace : Nat → InstrStatic) (m : Nat) (s : State) (r : Nat) :
    (map_operands trace m s).map_table r =
      if (trace m).rOut 1 ≠ DNA ∧ r = (trace m).rOut 1 then some m
      else if (trace m).rOut 0 ≠ DNA ∧ r = (trace m).rOut 0 then some m
      else s.map_table r := by
  unfold map_operands
  rw [mapDst_map_table, mapDst_map_table, mapSrc_map_table, mapSrc_map_table, mapSrc_map_table]

theorem map_operands_Q (trace : Nat → InstrStatic) (m : Nat) (s : State)
    (k : Nat) (j : Fin 3) :
    (map_operands trace m s).Q k j =
      if k = m ∧ (trace m).rIn j ≠ DNA then s.map_table ((trace m).rIn j)
      else s.Q k j := by
  unfold map_operands
  rw [show (mapDst trace m 1 (mapDst trace m 0 (mapSrc trace m 2 (mapSrc trace m 1 (mapSrc trace m 0 s))))).Q = (mapSrc trace m 2 (mapSrc trace m 1 (mapSrc trace m 0 s))).Q by rw [mapDst_Q, mapDst_Q]]
  rw [mapSrc_Q, mapSrc_map_table, mapSrc_map_table, mapSrc_Q, mapSrc_map_table, mapSrc_Q]
  by_cases hk : k = m
  · subst hk
    fin_cases j <;> simp_all
  · simp [hk]

/-- Claim C7: when an instruction is issued into a reservation station,
`map_operands` first copies, for every source register that is not `DNA`, the
producer map's current (pre-call) entry into the corresponding await-slot
`Q[i]`, and only then overwrites the producer-map entries of the non-`DNA`
destination registers with this instruction — so an instruction that reads
and writes the same register receives the prior producer (never itself,
unless the map already named it), all other await-slots and map entries being
untouched. -/
theorem c7_map_operands_copies_sources_then_overwrites_destinations
    (trace : Nat → InstrStatic) (m : Nat) (s : State) :
    (∀ i : Fin 3, (trace m).rIn i ≠ DNA →
        (map_operands trace m s).Q m i = s.map_table ((trace m).rIn i)) ∧
    (∀ i : Fin 3, (trace m).rIn i = DNA → (map_operands trace m s).Q m i = s.Q m i) ∧
    (∀ (k : Nat) (i : Fin 3), k ≠ m → (map_operands trace m s).Q k i = s.Q k i) ∧
    (∀ j : Fin 2, (trace m).rOut j ≠ DNA →
        (map_operands trace m s).map_table ((trace m).rOut j) = some m) ∧
    (∀ r : Nat, ((trace m).rOut 0 ≠ DNA → r ≠ (trace m).rOut 0) →
        ((trace m).rOut 1 ≠ DNA → r ≠ (trace m).rOut 1) →
        (map_operands trace m s).map_table r = s.map_table r) ∧
    (∀ i : Fin 3, (trace m).rIn i ≠ DNA → s.map_table ((trace m).rIn i) ≠ some m →
        (map_operands trace m s).Q m i ≠ some m) := by
  refine ⟨?_, ?_, ?_, ?_, ?_, ?_⟩
  · intro i hi
    rw [map_operands_Q]
    simp [hi]
  · intro i hi
    rw [map_operands_Q]
    simp [hi]
  · intro k i hk
    rw [map_operands_Q]
    simp [hk]
  · intro j hj
    rw [map_operands_map_table]
    have hj01 : ∀ jj : Fin 2, jj = 0 ∨ jj = 1 := by decide
    rcases hj01 j with hj0 | hj1
    · subst hj0
      by_cases h1 : (trace m).rOut 1 ≠ DNA ∧ (trace m).rOut 0 = (trace m).rOut 1
      · rw [if_pos h1]
      · rw [if_neg h1, if_pos ⟨hj, rfl⟩]
    · subst hj1
      rw [if_pos ⟨hj, rfl⟩]
  · intro r h0 h1
    rw [map_operands_map_table]
    have c1 : ¬((trace m).rOut 1 ≠ DNA ∧ r = (trace m).rOut 1) := by tauto
    have c0 : ¬((trace m).rOut 0 ≠ DNA ∧ r = (trace m).rOut 0) := by tauto
    rw [if_neg c1, if_neg c0]
  · intro i hi hne
    rw [map_operands_Q]
    simp [hi, hne]

/-- Witness for C7 at a concrete instruction that reads and writes register 2
while register 2's current producer is instruction 3: the await-slot receives
the prior producer 3, not the issuing instruction 1 itself, and afterwards the
map names instruction 1. -/
theorem c7_witness :
    (c7Trace 1).rIn 0 ≠ DNA ∧ (c7Trace 1).rOut 0 ≠ DNA ∧
    (map_operands c7Trace 1 c7State).Q 1 0 = some 3 ∧
    (map_operands c7Trace 1 c7State).map_table 2 = some 1 := by
  refine ⟨by decide, by decide, ?_, ?_⟩
  · rw [(c7_map_operands_copies_sources_then_overwrites_destinations c7Trace 1 c7State).1 0
      (by decide)]
    decide
  · exact (c7_map_operands_copies_sources_then_overwrites_destinations c7Trace 1 c7State).2.2.2.1
      0 (by decide)

/-! ## Frame lemmas: which state components each stage can change -/

theorem clearMapFor_dna_none (b r : Nat) (mt : Nat → Option Nat) (h : mt DNA = none) :
    clearMapFor b r mt DNA = none := by
  unfold clearMapFor
  split
  · rw [Function.update_apply]
    split <;> simp [h]
  · exact h

theorem CDB_To_retire_map_table_dna (trace : Nat → InstrStatic) (s : State)
    (h : s.map_table DNA = none) : (CDB_To_retire trace s).map_table DNA = none := by
  unfold CDB_To_retire
  cases s.commonDataBus
  · exact h
  · exact clearMapFor_dna_none _ _ _ (clearMapFor_dna_none _ _ _ h)

theorem free_stations_map_table (trace : Nat → InstrStatic) (m : Nat) (s s2 : State)
    (h : free_stations trace m s = some s2) : s2.map_table = s.map_table := by
  unfold free_stations at h
  split at h
  · cases h; rfl
  · split at h
    · cases h; rfl
    · cases h

theorem execScanINT_map_table (trace : Nat → InstrStatic) (cycle : Nat) :
    ∀ (L : List (Fin 2)) (s : State) (best : Option Nat) (s2 : State) (best2 : Option Nat),
      execScanINT trace cycle L s best = some (s2, best2) → s2.map_table = s.map_table := by
  intro L
  induction L with
  | nil => intro s best s2 best2 h; cases h; rfl
  | cons i rest ih =>
    intro s best s2 best2 h
    unfold execScanINT at h
    split at h
    · exact ih _ _ _ _ h
    · rename_i m hfu
      split at h
      · split at h
        · split at h
          · exact Option.noConfusion h
          · rename_i sf hfs
            rw [ih _ _ _ _ h]
            show sf.map_table = s.map_table
            exact free_stations_map_table trace m s sf hfs
        · split at h
          · exact ih _ _ _ _ h
          · split at h
            · exact ih _ _ _ _ h
            · exact ih _ _ _ _ h
      · exact ih _ _ _ _ h

theorem execute_To_CDB_map_table (trace : Nat → InstrStatic) (cycle : Nat) (s s2 : State)
    (h : execute_To_CDB trace cycle s = some s2) : s2.map_table = s.map_table := by
  unfold execute_To_CDB at h
  split at h
  · exact Option.noConfusion h
  · rename_i s1 best1 hscan
    have hs1 := execScanINT_map_table trace cycle [0, 1] s none s1 best1 hscan
    split at h
    · cases h; exact hs1
    · rename_i w hw
      split at h
      · exact Option.noConfusion h
      · rename_i sf hfs
        cases h
        show sf.map_table = s.map_table
        rw [free_stations_map_table trace w _ sf hfs]
        show s1.map_table = s.map_table
        exact hs1

theorem issueSlotINT_map_table (cycle : Nat) (s : State) (i : Fin 2) :
    (issueSlotINT cycle s i).map_table = s.map_table := by
  unfold issueSlotINT
  cases s.fuINT i
  · cases scanReadyINT s [0, 1, 2, 3] none <;> rfl
  · rfl

theorem issueSlotFP_map_table (cycle : Nat) (s : State) (i : Fin 1) :
    (issueSlotFP cycle s i).map_table = s.map_table := by
  unfold issueSlotFP
  cases s.fuFP i
  · cases scanReadyFP s [0, 1] none <;> rfl
  · rfl

theorem issue_To_execute_map_table (cycle : Nat) (s : State) :
    (issue_To_execute cycle s).map_table = s.map_table := by
  unfold issue_To_execute
  rw [issueSlotFP_map_table, issueSlotINT_map_table, issueSlotINT_map_table]

theorem map_operands_map_table_dna (trace : Nat → InstrStatic) (m : Nat) (s : State) :
    (map_operands trace m s).map_table DNA = s.map_table DNA := by
  rw [map_operands_map_table]
  have c1 : ¬((trace m).rOut 1 ≠ DNA ∧ DNA = (trace m).rOut 1) := by tauto
  have c0 : ¬((trace m).rOut 0 ≠ DNA ∧ DNA = (trace m).rOut 0) := by tauto
  rw [if_neg c1, if_neg c0]

theorem dispatch_To_issue_map_table_dna (trace : Nat → InstrStatic) (cycle : Nat)
    (s s2 : State) (h : dispatch_To_issue trace cycle s = some s2) :
    s2.map_table DNA = s.map_table DNA := by
  unfold dispatch_To_issue at h
  split at h
  · split at h
    · cases h; rfl
    · rename_i hd hq
      split at h
      · cases h; rfl
      · split at h
        · split at h
          · cases h; rfl
          · rename_i i hff
            cases h
            exact map_operands_map_table_dna trace hd _
        · split at h
          · split at h
            · cases h; rfl
            · rename_i i hff
              cases h
              exact map_operands_map_table_dna trace hd _
          · exact Option.noConfusion h
  · cases h; rfl

theorem fetch_map_table (trace : Nat → InstrStatic) (ffuel : Nat) (s s2 : State)
    (h : fetch trace ffuel s = some s2) : s2.map_table = s.map_table := by
  unfold fetch at h
  split at h
  · exact Option.noConfusion h
  · cases h; rfl

theorem fetch_To_dispatch_map_table (trace : Nat → InstrStatic) (N ffuel cycle : Nat)
    (s s2 : State) (h : fetch_To_dispatch trace N ffuel cycle s = some s2) :
    s2.map_table = s.map_table := by
  unfold fetch_To_dispatch at h
  split at h
  · split at h
    · exact Option.noConfusion h
    · rename_i s1 hf
      have hs1 := fetch_map_table trace ffuel s s1 hf
      split at h
      · cases h; exact hs1
      · rename_i m hq
        cases h
        exact hs1
  · cases h; rfl

theorem cycleStep_map_table_dna (trace : Nat → InstrStatic) (N cycle : Nat) (s s2 : State)
    (h : cycleStep trace N cycle s = some s2) (hdna : s.map_table DNA = none) :
    s2.map_table DNA = none := by
  unfold cycleStep at h
  split at h
  · exact Option.noConfusion h
  · rename_i sa hex
    split at h
    · exact Option.noConfusion h
    · rename_i sb hdi
      rw [fetch_To_dispatch_map_table trace N (N + 1) cycle sb s2 h]
      rw [dispatch_To_issue_map_table_dna trace cycle _ sb hdi, issue_To_execute_map_table]
      rw [execute_To_CDB_map_table trace cycle _ sa hex]
      exact CDB_To_retire_map_table_dna trace s hdna

/-- Claim C9: `CDB_To_retire` indexes `map_table` with both destination
registers of the retiring instruction unconditionally; this is safe because
(i) `map_operands` never assigns `map_table[DNA]`, (ii) in every reachable
state `map_table[DNA]` is empty (`DNA` being a valid index of the total map),
and (iii) on an empty entry the conditional clear is the identity, so the
unconditional indexing is a no-op for an absent destination register. -/
theorem c9_dna_entry_never_assigned :
    (∀ (trace : Nat → InstrStatic) (m : Nat) (s : State),
        (map_operands trace m s).map_table DNA = s.map_table DNA) ∧
    (∀ (mt : Nat → Option Nat) (b : Nat), mt DNA = none → clearMapFor b DNA mt = mt) ∧
    (∀ (trace : Nat → InstrStatic) (N c : Nat) (s : State),
        runCycles trace N c = some s → s.map_table DNA = none) := by
  refine ⟨map_operands_map_table_dna, ?_, ?_⟩
  · intro mt b h
    unfold clearMapFor
    rw [if_neg]
    rw [h]
    simp
  · intro trace N c
    induction c with
    | zero => intro s h; cases h; rfl
    | succ c ih =>
      intro s h
      unfold runCycles at h
      split at h
      · exact Option.noConfusion h
      · rename_i sp hc
        exact cycleStep_map_table_dna trace N (c + 1) sp s h (ih sp hc)

/-- Witness for C9: the hypothesis-bearing conjuncts applied at a concrete
empty map and at a concrete 3-cycle run. -/
theorem c9_witness :
    ((fun _ => none : Nat → Option Nat) DNA = none ∧
      clearMapFor 1 DNA (fun _ => none) = (fun _ => none)) ∧
    (runCycles traceIcomp1 1 3).map (fun s => s.map_table DNA) = some none := by
  constructor
  · exact ⟨rfl, c9_dna_entry_never_assigned.2.1 (fun _ => none) 1 rfl⟩
  · cases hc : runCycles traceIcomp1 1 3
    · have hs : (runCycles traceIcomp1 1 3).isSome = true := by decide
      rw [hc] at hs
      exact Bool.noConfusion hs
    · rename_i s
      show some (s.map_table DNA) = some none
      rw [c9_dna_entry_never_assigned.2.2 traceIcomp1 1 3 s hc]

/-! ## Characterisation of the issue-stage ready scans (claim C5) -/

theorem candINT_lift (s : State) (j : Fin 4) (rest : List (Fin 4)) (m : Nat)
    (h : candINT s rest m) : candINT s (j :: rest) m := by
  obtain ⟨j2, hj2, hocc, hr⟩ := h
  exact ⟨j2, List.mem_cons_of_mem j hj2, hocc, hr⟩

theorem candFP_lift (s : State) (j : Fin 2) (rest : List (Fin 2)) (m : Nat)
    (h : candFP s rest m) : candFP s (j :: rest) m := by
  obtain ⟨j2, hj2, hocc, hr⟩ := h
  exact ⟨j2, List.mem_cons_of_mem j hj2, hocc, hr⟩

theorem scanReadyINT_some (s : State) :
    ∀ (L : List (Fin 4)) (best : Option Nat) (m : Nat),
      scanReadyINT s L best = some m →
      (best = some m ∨ candINT s L m) ∧
      (∀ m2, candINT s L m2 → m ≤ m2) ∧
      (∀ b, best = some b → m ≤ b) := by
  intro L
  induction L with
  | nil =>
    intro best m h
    unfold scanReadyINT at h
    refine ⟨Or.inl h, ?_, ?_⟩
    · rintro m2 ⟨j, hj, -⟩
      cases hj
    · intro b hb
      rw [h] at hb
      cases hb
      exact Nat.le_refl m
  | cons j rest ih =>
    intro best m h
    unfold scanReadyINT at h
    split at h
    · rename_i hrs
      have IH := ih best m h
      refine ⟨?_, ?_, IH.2.2⟩
      · rcases IH.1 with h1 | h1
        · exact Or.inl h1
        · exact Or.inr (candINT_lift s j rest m h1)
      · rintro m2 ⟨j2, hj2, hocc, hr⟩
        rcases List.mem_cons.mp hj2 with rfl | hmem
        · rw [hrs] at hocc; cases hocc
        · exact IH.2.1 m2 ⟨j2, hmem, hocc, hr⟩
    · rename_i m0 hrs
      split at h
      · rename_i hc
        split at h
        · have IH := ih (some m0) m h
          refine ⟨?_, ?_, ?_⟩
          · rcases IH.1 with h1 | h1
            · cases h1
              exact Or.inr ⟨j, List.mem_cons_self j rest, hrs, hc⟩
            · exact Or.inr (candINT_lift s j rest m h1)
          · rintro m2 ⟨j2, hj2, hocc, hr⟩
            rcases List.mem_cons.mp hj2 with rfl | hmem
            · rw [hrs] at hocc
              cases hocc
              exact IH.2.2 m0 rfl
            · exact IH.2.1 m2 ⟨j2, hmem, hocc, hr⟩
          · intro b hb
            exact Option.noConfusion hb
        · rename_i b
          split at h
          · rename_i hlt
            have IH := ih (some m0) m h
            refine ⟨?_, ?_, ?_⟩
            · rcases IH.1 with h1 | h1
              · cases h1
                exact Or.inr ⟨j, List.mem_cons_self j rest, hrs, hc⟩
              · exact Or.inr (candINT_lift s j rest m h1)
            · rintro m2 ⟨j2, hj2, hocc, hr⟩
              rcases List.mem_cons.mp hj2 with rfl | hmem
              · rw [hrs] at hocc
                cases hocc
                exact IH.2.2 m0 rfl
              · exact IH.2.1 m2 ⟨j2, hmem, hocc, hr⟩
            · rintro b2 hb2
              cases hb2
              have hm0 := IH.2.2 m0 rfl
              omega
          · rename_i hnlt
            have IH := ih (some b) m h
            refine ⟨?_, ?_, ?_⟩
            · rcases IH.1 with h1 | h1
              · exact Or.inl h1
              · exact Or.inr (candINT_lift s j rest m h1)
            · rintro m2 ⟨j2, hj2, hocc, hr⟩
              rcases List.mem_cons.mp hj2 with rfl | hmem
              · rw [hrs] at hocc
                cases hocc
                have hmb := IH.2.2 b rfl
                omega
              · exact IH.2.1 m2 ⟨j2, hmem, hocc, hr⟩
            · rintro b2 hb2
              cases hb2
              exact IH.2.2 b rfl
      · rename_i hnc
        have IH := ih best m h
        refine ⟨?_, ?_, IH.2.2⟩
        · rcases IH.1 with h1 | h1
          · exact Or.inl h1
          · exact Or.inr (candINT_lift s j rest m h1)
        · rintro m2 ⟨j2, hj2, hocc, hr⟩
          rcases List.mem_cons.mp hj2 with rfl | hmem
          · rw [hrs] at hocc
            cases hocc
            exact absurd hr hnc
          · exact IH.2.1 m2 ⟨j2, hmem, hocc, hr⟩

theorem scanReadyFP_some (s : State) :
    ∀ (L : List (Fin 2)) (best : Option Nat) (m : Nat),
      scanReadyFP s L best = some m →
      (best = some m ∨ candFP s L m) ∧
      (∀ m2, candFP s L m2 → s.tom_dispatch_cycle m ≤ s.tom_dispatch_cycle m2) ∧
      (∀ b, best = some b → s.tom_dispatch_cycle m ≤ s.tom_dispatch_cycle b) := by
  intro L
  induction L with
  | nil =>
    intro best m h
    unfold scanReadyFP at h
    refine ⟨Or.inl h, ?_, ?_⟩
    · rintro m2 ⟨j, hj, -⟩
      cases hj
    · intro b hb
      rw [h] at hb
      cases hb
      exact Nat.le_refl _
  | cons j rest ih =>
    intro best m h
    unfold scanReadyFP at h
    split at h
    · rename_i hrs
      have IH := ih best m h
      refine ⟨?_, ?_, IH.2.2⟩
      · rcases IH.1 with h1 | h1
        · exact Or.inl h1
        · exact Or.inr (candFP_lift s j rest m h1)
      · rintro m2 ⟨j2, hj2, hocc, hr⟩
        rcases List.mem_cons.mp hj2 with rfl | hmem
        · rw [hrs] at hocc; cases hocc
        · exact IH.2.1 m2 ⟨j2, hmem, hocc, hr⟩
    · rename_i m0 hrs
      split at h
      · rename_i hc
        split at h
        · have IH := ih (some m0) m h
          refine ⟨?_, ?_, ?_⟩
          · rcases IH.1 with h1 | h1
            · cases h1
              exact Or.inr ⟨j, List.mem_cons_self j rest, hrs, hc⟩
            · exact Or.inr (candFP_lift s j rest m h1)
          · rintro m2 ⟨j2, hj2, hocc, hr⟩
            rcases List.mem_cons.mp hj2 with rfl | hmem
            · rw [hrs] at hocc
              cases hocc
              exact IH.2.2 m0 rfl
            · exact IH.2.1 m2 ⟨j2, hmem, hocc, hr⟩
          · intro b hb
            exact Option.noConfusion hb
        · rename_i b
          split at h
          · rename_i hle
            have IH := ih (some m0) m h
            refine ⟨?_, ?_, ?_⟩
            · rcases IH.1 with h1 | h1
              · cases h1
                exact Or.inr ⟨j, List.mem_cons_self j rest, hrs, hc⟩
              · exact Or.inr (candFP_lift s j rest m h1)
            · rintro m2 ⟨j2, hj2, hocc, hr⟩
              rcases List.mem_cons.mp hj2 with rfl | hmem
              · rw [hrs] at hocc
                cases hocc
                exact IH.2.2 m0 rfl
              · exact IH.2.1 m2 ⟨j2, hmem, hocc, hr⟩
            · rintro b2 hb2
              cases hb2
              have hm0 := IH.2.2 m0 rfl
              omega
          · rename_i hnle
            have IH := ih (some b) m h
            refine ⟨?_, ?_, ?_⟩
            · rcases IH.1 with h1 | h1
              · exact Or.inl h1
              · exact Or.inr (candFP_lift s j rest m h1)
            · rintro m2 ⟨j2, hj2, hocc, hr⟩
              rcases List.mem_cons.mp hj2 with rfl | hmem
              · rw [hrs] at hocc
                cases hocc
                have hmb := IH.2.2 b rfl
                omega
              · exact IH.2.1 m2 ⟨j2, hmem, hocc, hr⟩
            · rintro b2 hb2
              cases hb2
              exact IH.2.2 b rfl
      · rename_i hnc
        have IH := ih best m h
        refine ⟨?_, ?_, IH.2.2⟩
        · rcases IH.1 with h1 | h1
          · exact Or.inl h1
          · exact Or.inr (candFP_lift s j rest m h1)
        · rintro m2 ⟨j2, hj2, hocc, hr⟩
          rcases List.mem_cons.mp hj2 with rfl | hmem
          · rw [hrs] at hocc
            cases hocc
            exact absurd hr hnc
          · exact IH.2.1 m2 ⟨j2, hmem, hocc, hr⟩

/-- Claim C5: among the occupied reservation-station slots with no recorded
execution-start cycle and all three await-slots empty, the integer-class scan
(invoked by `issue_To_execute` over all four slots with no initial candidate)
returns a ready occupant of lowest program index, while the floating-point
scan returns a ready occupant of lowest recorded dispatch cycle. -/
theorem c5_issue_scan_tiebreak_asymmetry :
    (∀ (s : State) (m : Nat), scanReadyINT s [0, 1, 2, 3] none = some m →
      candINT s [0, 1, 2, 3] m ∧ ∀ m2, candINT s [0, 1, 2, 3] m2 → m ≤ m2) ∧
    (∀ (s : State) (m : Nat), scanReadyFP s [0, 1] none = some m →
      candFP s [0, 1] m ∧ ∀ m2, candFP s [0, 1] m2 →
        s.tom_dispatch_cycle m ≤ s.tom_dispatch_cycle m2) := by
  constructor
  · intro s m h
    have H := scanReadyINT_some s [0, 1, 2, 3] none m h
    rcases H.1 with h1 | h1
    · exact Option.noConfusion h1
    · exact ⟨h1, H.2.1⟩
  · intro s m h
    have H := scanReadyFP_some s [0, 1] none m h
    rcases H.1 with h1 | h1
    · exact Option.noConfusion h1
    · exact ⟨h1, H.2.1⟩

/-- Witness for C5: the integer scan picks index 3 over index 7; the
floating-point scan picks index 9 (dispatched at cycle 2) over index 4
(dispatched at cycle 10) although 9 is the larger program index. -/
theorem c5_witness :
    (scanReadyINT c5State [0, 1, 2, 3] none = some 3 ∧
      candINT c5State [0, 1, 2, 3] 3 ∧
        (∀ m2, candINT c5State [0, 1, 2, 3] m2 → 3 ≤ m2)) ∧
    (scanReadyFP c5StateFP [0, 1] none = some 9 ∧
      candFP c5StateFP [0, 1] 9 ∧
        (∀ m2, candFP c5StateFP [0, 1] m2 →
          c5StateFP.tom_dispatch_cycle 9 ≤ c5StateFP.tom_dispatch_cycle m2)) := by
  refine ⟨⟨by decide, ?_⟩, ⟨by decide, ?_⟩⟩
  · exact c5_issue_scan_tiebreak_asymmetry.1 c5State 3 (by decide)
  · exact c5_issue_scan_tiebreak_asymmetry.2 c5StateFP 9 (by decide)

/-! ## Lemmas about `freeFirst` and `free_stations` -/

theorem allFin2_mem : ∀ i : Fin 2, i ∈ ([0, 1] : List (Fin 2)) := by decide

theorem allFin4_mem : ∀ j : Fin 4, j ∈ ([0, 1, 2, 3] : List (Fin 4)) := by decide

theorem freeFirst_mem {n : Nat} (slots : Fin n → Option Nat) (m : Nat) :
    ∀ (L : List (Fin n)) (j : Fin n),
      freeFirst slots m L j = slots j ∨ freeFirst slots m L j = none := by
  intro L
  induction L with
  | nil => intro j; exact Or.inl rfl
  | cons i rest ih =>
    intro j
    unfold freeFirst
    split
    · rw [Function.update_apply]
      by_cases hj : j = i
      · right; rw [if_pos hj]
      · left; rw [if_neg hj]
    · exact ih j

theorem freeFirst_unique {n : Nat} (slots : Fin n → Option Nat) (m : Nat) :
    ∀ (L : List (Fin n)) (i : Fin n), i ∈ L → slots i = some m →
      (∀ i2, slots i2 = some m → i2 = i) →
      freeFirst slots m L = Function.update slots i none := by
  intro L
  induction L with
  | nil => intro i hi; cases hi
  | cons j rest ih =>
    intro i hi hocc huniq
    unfold freeFirst
    split
    · rename_i hj
      rw [huniq j hj]
    · rename_i hj
      rcases List.mem_cons.mp hi with rfl | hmem
      · exact absurd hocc hj
      · exact ih i hmem hocc huniq

theorem freeFirst_removes {n : Nat} (slots : Fin n → Option Nat) (m : Nat) (L : List (Fin n))
    (hall : ∀ j : Fin n, j ∈ L)
    (huniq : ∀ j1 j2, slots j1 = some m → slots j2 = some m → j1 = j2) :
    ∀ j, freeFirst slots m L j ≠ some m := by
  intro j
  by_cases hex : ∃ i0, slots i0 = some m
  · obtain ⟨i0, hi0⟩ := hex
    rw [freeFirst_unique slots m L i0 (hall i0) hi0 (fun i2 h2 => huniq i2 i0 h2 hi0)]
    rw [Function.update_apply]
    by_cases hj : j = i0
    · rw [if_pos hj]; exact fun hc => Option.noConfusion hc
    · rw [if_neg hj]
      intro hc
      exact hj (huniq j i0 hc hi0)
  · rcases freeFirst_mem slots m L j with h | h
    · rw [h]; intro hc; exact hex ⟨j, hc⟩
    · rw [h]; exact fun hc => Option.noConfusion hc

theorem store_uses_int (op : Op) (h : op.isStore = true) : USES_INT_FU op = true := by
  unfold USES_INT_FU
  rw [h]
  simp

theorem free_stations_int (trace : Nat → InstrStatic) (m : Nat) (s sf : State)
    (hint : USES_INT_FU (trace m).op = true)
    (h : free_stations trace m s = some sf) :
    sf = { s with fuINT := freeFirst s.fuINT m [0, 1],
                  reservINT := freeFirst s.reservINT m [0, 1, 2, 3] } := by
  unfold free_stations at h
  rw [if_pos hint] at h
  cases h
  rfl

theorem free_stations_shrink (trace : Nat → InstrStatic) (m : Nat) (s sf : State)
    (h : free_stations trace m s = some sf) :
    (∀ i2, sf.fuINT i2 = s.fuINT i2 ∨ sf.fuINT i2 = none) ∧
    (∀ j, sf.reservINT j = s.reservINT j ∨ sf.reservINT j = none) ∧
    sf.doneCount = s.doneCount ∧
    sf.tom_execute_cycle = s.tom_execute_cycle ∧
    sf.commonDataBus = s.commonDataBus ∧
    (∀ i2, sf.fuFP i2 = s.fuFP i2 ∨ sf.fuFP i2 = none) := by
  unfold free_stations at h
  split at h
  · cases h
    exact ⟨fun i2 => freeFirst_mem s.fuINT m [0, 1] i2,
      fun j => freeFirst_mem s.reservINT m [0, 1, 2, 3] j, rfl, rfl, rfl,
      fun i2 => Or.inl rfl⟩
  · split at h
    · cases h
      exact ⟨fun i2 => Or.inl rfl, fun j => Or.inl rfl, rfl, rfl, rfl,
        fun i2 => freeFirst_mem s.fuFP m [0] i2⟩
    · exact Option.noConfusion h

/-! ## Characterisation of the `execute_To_CDB` scan (claims C1 and C6) -/

theorem intDone_lift (trace : Nat → InstrStatic) (cycle : Nat) (s : State) (i : Fin 2)
    (rest : List (Fin 2)) (mm : Nat) (h : intDone trace cycle s rest mm) :
    intDone trace cycle s (i :: rest) mm := by
  obtain ⟨i0, hi0, hocc, hd, hns⟩ := h
  exact ⟨i0, List.mem_cons_of_mem i hi0, hocc, hd, hns⟩

theorem intDone_cons_elim (trace : Nat → InstrStatic) (cycle : Nat) (s : State) (i : Fin 2)
    (rest : List (Fin 2)) (mm : Nat) (h : intDone trace cycle s (i :: rest) mm) :
    (s.fuINT i = some mm ∧ s.tom_execute_cycle mm + FU_INT_LATENCY ≤ cycle ∧
      (trace mm).op.isStore = false) ∨ intDone trace cycle s rest mm := by
  obtain ⟨i0, hi0, hocc, hd, hns⟩ := h
  rcases List.mem_cons.mp hi0 with rfl | hmem
  · exact Or.inl ⟨hocc, hd, hns⟩
  · exact Or.inr ⟨i0, hmem, hocc, hd, hns⟩

theorem intDone_congr (trace : Nat → InstrStatic) (cycle : Nat) (s s3 : State)
    (L : List (Fin 2))
    (hfu : ∀ i, i ∈ L → s3.fuINT i = s.fuINT i)
    (hexec : s3.tom_execute_cycle = s.tom_execute_cycle) (mm : Nat) :
    intDone trace cycle s3 L mm ↔ intDone trace cycle s L mm := by
  constructor
  · rintro ⟨i, hi, hocc, hd, hns⟩
    refine ⟨i, hi, ?_, ?_, hns⟩
    · rw [← hfu i hi]; exact hocc
    · rw [← hexec]; exact hd
  · rintro ⟨i, hi, hocc, hd, hns⟩
    refine ⟨i, hi, ?_, ?_, hns⟩
    · rw [hfu i hi]; exact hocc
    · rw [hexec]; exact hd

theorem execScanINT_spec (trace : Nat → InstrStatic) (cycle : Nat) :
    ∀ (L : List (Fin 2)) (s : State) (best : Option Nat),
      (∀ i1 i2 mm, s.fuINT i1 = some mm → s.fuINT i2 = some mm → i1 = i2) →
      (∀ j1 j2 mm, s.reservINT j1 = some mm → s.reservINT j2 = some mm → j1 = j2) →
      L.Nodup →
      ∀ s2 best2, execScanINT trace cycle L s best = some (s2, best2) →
        s2.tom_execute_cycle = s.tom_execute_cycle ∧
        s2.fuFP = s.fuFP ∧
        s2.commonDataBus = s.commonDataBus ∧
        (best2 = best ∨ ∃ mm, best2 = some mm ∧ intDone trace cycle s L mm) ∧
        (∀ mm, intDone trace cycle s L mm → ∀ w, best2 = some w → w ≤ mm) ∧
        (∀ b, best = some b → ∀ w, best2 = some w → w ≤ b) ∧
        (∀ b, best = some b → ∃ w, best2 = some w) ∧
        (∀ mm, intDone trace cycle s L mm → ∃ w, best2 = some w) ∧
        (∀ i2, s2.fuINT i2 = s.fuINT i2 ∨ s2.fuINT i2 = none) ∧
        (∀ j, s2.reservINT j = s.reservINT j ∨ s2.reservINT j = none) ∧
        s.doneCount ≤ s2.doneCount ∧
        (∀ mm i, i ∈ L → s.fuINT i = some mm → (trace mm).op.isStore = true →
          s.tom_execute_cycle mm + FU_INT_LATENCY ≤ cycle →
          (∀ i2, s2.fuINT i2 ≠ some mm) ∧ (∀ j, s2.reservINT j ≠ some mm) ∧
          s.doneCount + 1 ≤ s2.doneCount) := by
  intro L
  induction L with
  | nil =>
    intro s best hFU hRS hND s2 best2 h
    unfold execScanINT at h
    cases h
    refine ⟨rfl, rfl, rfl, Or.inl rfl, ?_, ?_, ?_, ?_, fun i2 => Or.inl rfl,
      fun j => Or.inl rfl, Nat.le_refl _, ?_⟩
    · rintro mm ⟨i, hi, -⟩; cases hi
    · intro b hb w hw
      rw [hb] at hw
      cases hw
      exact Nat.le_refl _
    · intro b hb; exact ⟨b, hb⟩
    · rintro mm ⟨i, hi, -⟩; cases hi
    · intro mm i0 hi0; cases hi0
  | cons i rest ih =>
    intro s best hFU hRS hND s2 best2 h
    have hNDr : rest.Nodup := (List.nodup_cons.mp hND).2
    have hinr : i ∉ rest := (List.nodup_cons.mp hND).1
    unfold execScanINT at h
    split at h
    · -- slot i empty: state and best unchanged
      rename_i hfu
      obtain ⟨Sa, Sb, Sc, Sd, Se, Sf, Sg, Sh, Si, Sj, Sk, Sl⟩ :=
        ih s best hFU hRS hNDr s2 best2 h
      refine ⟨Sa, Sb, Sc, ?_, ?_, Sf, Sg, ?_, Si, Sj, Sk, ?_⟩
      · rcases Sd with h1 | ⟨mm, hmm, hid⟩
        · exact Or.inl h1
        · exact Or.inr ⟨mm, hmm, intDone_lift trace cycle s i rest mm hid⟩
      · intro mm hid
        rcases intDone_cons_elim trace cycle s i rest mm hid with ⟨hocc, -⟩ | hid2
        · rw [hfu] at hocc; cases hocc
        · exact Se mm hid2
      · intro mm hid
        rcases intDone_cons_elim trace cycle s i rest mm hid with ⟨hocc, -⟩ | hid2
        · rw [hfu] at hocc; cases hocc
        · exact Sh mm hid2
      · intro mm i2 hi2 hocc hst hd
        rcases List.mem_cons.mp hi2 with rfl | hmem
        · rw [hfu] at hocc; cases hocc
        · exact Sl mm i2 hmem hocc hst hd
    · rename_i m hfu
      split at h
      · rename_i hd
        split at h
        · -- completed store at slot i: freed and counted, scan continues
          rename_i hst
          split at h
          · exact Option.noConfusion h
          · rename_i sf hfs
            have hsf := free_stations_int trace m s sf (store_uses_int _ hst) hfs
            subst hsf
            have hmuniq : ∀ i2, s.fuINT i2 = some m → i2 = i := fun i2 h2 => hFU i2 i m h2 hfu
            have hfu_eq : freeFirst s.fuINT m [0, 1] = Function.update s.fuINT i none :=
              freeFirst_unique s.fuINT m [0, 1] i (allFin2_mem i) hfu hmuniq
            -- the state passed to the recursive call
            set s3 : State :=
              { s with fuINT := freeFirst s.fuINT m [0, 1],
                       reservINT := freeFirst s.reservINT m [0, 1, 2, 3],
                       doneCount := s.doneCount + 1 } with hs3
            have hstep : execScanINT trace cycle rest s3 best = some (s2, best2) := h
            have hs3fu : s3.fuINT = freeFirst s.fuINT m [0, 1] := rfl
            have hs3rs : s3.reservINT = freeFirst s.reservINT m [0, 1, 2, 3] := rfl
            have hs3ex : s3.tom_execute_cycle = s.tom_execute_cycle := rfl
            have hs3dc : s3.doneCount = s.doneCount + 1 := rfl
            have hs3fp : s3.fuFP = s.fuFP := rfl
            have hs3bus : s3.commonDataBus = s.commonDataBus := rfl
            have hFU3 : ∀ i1 i2 mm, s3.fuINT i1 = some mm → s3.fuINT i2 = some mm → i1 = i2 := by
              intro i1 i2 mm h1 h2
              rw [hs3fu] at h1 h2
              rcases freeFirst_mem s.fuINT m [0, 1] i1 with e1 | e1 <;>
                rcases freeFirst_mem s.fuINT m [0, 1] i2 with e2 | e2 <;>
                  rw [e1] at h1 <;> rw [e2] at h2
              · exact hFU i1 i2 mm h1 h2
              · exact Option.noConfusion h2
              · exact Option.noConfusion h1
              · exact Option.noConfusion h1
            have hRS3 : ∀ j1 j2 mm, s3.reservINT j1 = some mm → s3.reservINT j2 = some mm →
                j1 = j2 := by
              intro j1 j2 mm h1 h2
              rw [hs3rs] at h1 h2
              rcases freeFirst_mem s.reservINT m [0, 1, 2, 3] j1 with e1 | e1 <;>
                rcases freeFirst_mem s.reservINT m [0, 1, 2, 3] j2 with e2 | e2 <;>
                  rw [e1] at h1 <;> rw [e2] at h2
              · exact hRS j1 j2 mm h1 h2
              · exact Option.noConfusion h2
              · exact Option.noConfusion h1
              · exact Option.noConfusion h1
            have hfu_rest : ∀ i2, i2 ∈ rest → s3.fuINT i2 = s.fuINT i2 := by
              intro i2 hi2
              rw [hs3fu, hfu_eq, Function.update_apply, if_neg]
              intro he
              exact hinr (he ▸ hi2)
            have habs_fu : ∀ i2, s3.fuINT i2 ≠ some m := by
              intro i2
              rw [hs3fu]
              exact freeFirst_removes s.fuINT m [0, 1] allFin2_mem
                (fun j1 j2 a b => (hmuniq j1 a).trans (hmuniq j2 b).symm) i2
            have habs_rs : ∀ j, s3.reservINT j ≠ some m := by
              intro j
              rw [hs3rs]
              exact freeFirst_removes s.reservINT m [0, 1, 2, 3] allFin4_mem
                (fun j1 j2 a b => hRS j1 j2 m a b) j
            obtain ⟨Sa, Sb, Sc, Sd, Se, Sf, Sg, Sh, Si, Sj, Sk, Sl⟩ :=
              ih s3 best hFU3 hRS3 hNDr s2 best2 hstep
            have hcongr := intDone_congr trace cycle s s3 rest hfu_rest hs3ex
            refine ⟨?_, ?_, ?_, ?_, ?_, Sf, Sg, ?_, ?_, ?_, ?_, ?_⟩
            · exact Sa.trans hs3ex
            · exact Sb.trans hs3fp
            · exact Sc.trans hs3bus
            · rcases Sd with h1 | ⟨mm, hmm, hid⟩
              · exact Or.inl h1
              · exact Or.inr ⟨mm, hmm,
                  intDone_lift trace cycle s i rest mm ((hcongr mm).mp hid)⟩
            · intro mm hid
              rcases intDone_cons_elim trace cycle s i rest mm hid with ⟨hocc, -, hns⟩ | hid2
              · rw [hfu] at hocc
                cases hocc
                rw [hst] at hns
                exact Bool.noConfusion hns
              · exact Se mm ((hcongr mm).mpr hid2)
            · intro mm hid
              rcases intDone_cons_elim trace cycle s i rest mm hid with ⟨hocc, -, hns⟩ | hid2
              · rw [hfu] at hocc
                cases hocc
                rw [hst] at hns
                exact Bool.noConfusion hns
              · exact Sh mm ((hcongr mm).mpr hid2)
            · intro i2
              rcases Si i2 with e | e
              · have e2 : s3.fuINT i2 = s.fuINT i2 ∨ s3.fuINT i2 = none := by
                  rw [hs3fu]
                  exact freeFirst_mem s.fuINT m [0, 1] i2
                rcases e2 with e2 | e2
                · exact Or.inl (e.trans e2)
                · exact Or.inr (e.trans e2)
              · exact Or.inr e
            · intro j
              rcases Sj j with e | e
              · have e2 : s3.reservINT j = s.reservINT j ∨ s3.reservINT j = none := by
                  rw [hs3rs]
                  exact freeFirst_mem s.reservINT m [0, 1, 2, 3] j
                rcases e2 with e2 | e2
                · exact Or.inl (e.trans e2)
                · exact Or.inr (e.trans e2)
              · exact Or.inr e
            · omega
            · intro mm i2 hi2 hocc hst2 hd2
              rcases List.mem_cons.mp hi2 with rfl | hmem
              · -- this is the freed store itself
                rw [hfu] at hocc
                cases hocc
                refine ⟨?_, ?_, ?_⟩
                · intro i3 hc
                  rcases Si i3 with e | e
                  · rw [e] at hc; exact habs_fu i3 hc
                  · rw [e] at hc; exact Option.noConfusion hc
                · intro j hc
                  rcases Sj j with e | e
                  · rw [e] at hc; exact habs_rs j hc
                  · rw [e] at hc; exact Option.noConfusion hc
                · omega
              · -- a later completed store, handled by the recursive call
                have hocc3 : s3.fuINT i2 = some mm := by
                  rw [hfu_rest i2 hmem]; exact hocc
                have hd3 : s3.tom_execute_cycle mm + FU_INT_LATENCY ≤ cycle := by
                  rw [hs3ex]; exact hd2
                obtain ⟨ha, hb, hc⟩ := Sl mm i2 hmem hocc3 hst2 hd3
                exact ⟨ha, hb, by omega⟩
        · -- completed non-store at slot i: arbitration candidate
          rename_i hnst
          have hns : (trace m).op.isStore = false := by
            revert hnst
            cases (trace m).op.isStore <;> simp
          have hcand : intDone trace cycle s (i :: rest) m :=
            ⟨i, List.mem_cons_self i rest, hfu, hd, hns⟩
          split at h
          · -- best was none: candidate becomes the running best
            obtain ⟨Sa, Sb, Sc, Sd, Se, Sf, Sg, Sh, Si, Sj, Sk, Sl⟩ :=
              ih s (some m) hFU hRS hNDr s2 best2 h
            refine ⟨Sa, Sb, Sc, ?_, ?_, ?_, ?_, ?_, Si, Sj, Sk, ?_⟩
            · rcases Sd with h1 | ⟨mm, hmm, hid⟩
              · exact Or.inr ⟨m, h1, hcand⟩
              · exact Or.inr ⟨mm, hmm, intDone_lift trace cycle s i rest mm hid⟩
            · intro mm hid
              rcases intDone_cons_elim trace cycle s i rest mm hid with ⟨hocc, -⟩ | hid2
              · rw [hfu] at hocc
                cases hocc
                exact Sf m rfl
              · exact Se mm hid2
            · intro b hb; cases hb
            · intro b hb; cases hb
            · intro mm hid
              exact Sg m rfl
            · intro mm i2 hi2 hocc hst2 hd2
              rcases List.mem_cons.mp hi2 with rfl | hmem
              · rw [hfu] at hocc
                cases hocc
                rw [hst2] at hns
                exact Bool.noConfusion hns
              · exact Sl mm i2 hmem hocc hst2 hd2
          · rename_i b
            split at h
            · -- m < b: candidate replaces the running best
              rename_i hlt
              obtain ⟨Sa, Sb, Sc, Sd, Se, Sf, Sg, Sh, Si, Sj, Sk, Sl⟩ :=
                ih s (some m) hFU hRS hNDr s2 best2 h
              refine ⟨Sa, Sb, Sc, ?_, ?_, ?_, ?_, ?_, Si, Sj, Sk, ?_⟩
              · rcases Sd with h1 | ⟨mm, hmm, hid⟩
                · exact Or.inr ⟨m, h1, hcand⟩
                · exact Or.inr ⟨mm, hmm, intDone_lift trace cycle s i rest mm hid⟩
              · intro mm hid
                rcases intDone_cons_elim trace cycle s i rest mm hid with ⟨hocc, -⟩ | hid2
                · rw [hfu] at hocc
                  cases hocc
                  exact Sf m rfl
                · exact Se mm hid2
              · intro b0 hb0 w hw
                cases hb0
                have := Sf m rfl w hw
                omega
              · intro b0 hb0
                exact Sg m rfl
              · intro mm hid
                exact Sg m rfl
              · intro mm i2 hi2 hocc hst2 hd2
                rcases List.mem_cons.mp hi2 with rfl | hmem
                · rw [hfu] at hocc
                  cases hocc
                  rw [hst2] at hns
                  exact Bool.noConfusion hns
                · exact Sl mm i2 hmem hocc hst2 hd2
            · -- b ≤ m: the running best survives
              rename_i hnlt
              obtain ⟨Sa, Sb, Sc, Sd, Se, Sf, Sg, Sh, Si, Sj, Sk, Sl⟩ :=
                ih s (some b) hFU hRS hNDr s2 best2 h
              refine ⟨Sa, Sb, Sc, ?_, ?_, ?_, ?_, ?_, Si, Sj, Sk, ?_⟩
              · rcases Sd with h1 | ⟨mm, hmm, hid⟩
                · exact Or.inl h1
                · exact Or.inr ⟨mm, hmm, intDone_lift trace cycle s i rest mm hid⟩
              · intro mm hid
                rcases intDone_cons_elim trace cycle s i rest mm hid with ⟨hocc, -⟩ | hid2
                · rw [hfu] at hocc
                  cases hocc
                  intro w hw
                  have := Sf b rfl w hw
                  omega
                · exact Se mm hid2
              · intro b0 hb0 w hw
                cases hb0
                exact Sf b rfl w hw
              · intro b0 hb0
                exact Sg b rfl
              · intro mm hid
                exact Sg b rfl
              · intro mm i2 hi2 hocc hst2 hd2
                rcases List.mem_cons.mp hi2 with rfl | hmem
                · rw [hfu] at hocc
                  cases hocc
                  rw [hst2] at hns
                  exact Bool.noConfusion hns
                · exact Sl mm i2 hmem hocc hst2 hd2
      · -- latency not elapsed: slot skipped
        rename_i hnd
        obtain ⟨Sa, Sb, Sc, Sd, Se, Sf, Sg, Sh, Si, Sj, Sk, Sl⟩ :=
          ih s best hFU hRS hNDr s2 best2 h
        refine ⟨Sa, Sb, Sc, ?_, ?_, Sf, Sg, ?_, Si, Sj, Sk, ?_⟩
        · rcases Sd with h1 | ⟨mm, hmm, hid⟩
          · exact Or.inl h1
          · exact Or.inr ⟨mm, hmm, intDone_lift trace cycle s i rest mm hid⟩
        · intro mm hid
          rcases intDone_cons_elim trace cycle s i rest mm hid with ⟨hocc, hd2, -⟩ | hid2
          · rw [hfu] at hocc
            cases hocc
            exact absurd hd2 hnd
          · exact Se mm hid2
        · intro mm hid
          rcases intDone_cons_elim trace cycle s i rest mm hid with ⟨hocc, hd2, -⟩ | hid2
          · rw [hfu] at hocc
            cases hocc
            exact absurd hd2 hnd
          · exact Sh mm hid2
        · intro mm i2 hi2 hocc hst2 hd2
          rcases List.mem_cons.mp hi2 with rfl | hmem
          · rw [hfu] at hocc
            cases hocc
            exact absurd hd2 hnd
          · exact Sl mm i2 hmem hocc hst2 hd2

theorem mergeFP_spec (cycle : Nat) (s1 : State) (best1 : Option Nat) :
    (mergeFP cycle s1 best1 = best1 ∨
      ∃ m, mergeFP cycle s1 best1 = some m ∧ fpDone cycle s1 m) ∧
    (∀ m, fpDone cycle s1 m → ∀ w, mergeFP cycle s1 best1 = some w → w ≤ m) ∧
    (∀ b, best1 = some b → ∀ w, mergeFP cycle s1 best1 = some w → w ≤ b) ∧
    (∀ b, best1 = some b → ∃ w, mergeFP cycle s1 best1 = some w) ∧
    (∀ m, fpDone cycle s1 m → ∃ w, mergeFP cycle s1 best1 = some w) := by
  unfold mergeFP
  split
  · rename_i hfp
    refine ⟨Or.inl rfl, ?_, ?_, ?_, ?_⟩
    · rintro m ⟨hocc, -⟩ w hw
      rw [hfp] at hocc
      exact Option.noConfusion hocc
    · intro b hb w hw
      rw [hb] at hw
      cases hw
      exact Nat.le_refl _
    · intro b hb
      exact ⟨b, hb⟩
    · rintro m ⟨hocc, -⟩
      rw [hfp] at hocc
      exact Option.noConfusion hocc
  · rename_i m0 hfp
    split
    · rename_i hd
      split
      · -- best1 = none: the FP occupant wins outright
        refine ⟨Or.inr ⟨m0, rfl, hfp, hd⟩, ?_, ?_, ?_, ?_⟩
        · rintro m ⟨hocc, -⟩ w hw
          rw [hfp] at hocc
          cases hocc
          cases hw
          exact Nat.le_refl _
        · intro b hb
          exact Option.noConfusion hb
        · intro b hb
          exact Option.noConfusion hb
        · intro m hm
          exact ⟨m0, rfl⟩
      · rename_i b
        split
        · -- m0 < b: the FP occupant replaces the integer candidate
          rename_i hlt
          refine ⟨Or.inr ⟨m0, rfl, hfp, hd⟩, ?_, ?_, ?_, ?_⟩
          · rintro m ⟨hocc, -⟩ w hw
            rw [hfp] at hocc
            cases hocc
            cases hw
            exact Nat.le_refl _
          · intro b0 hb0 w hw
            cases hb0
            cases hw
            omega
          · intro b0 hb0
            exact ⟨m0, rfl⟩
          · intro m hm
            exact ⟨m0, rfl⟩
        · -- b ≤ m0: the integer candidate survives
          rename_i hnlt
          refine ⟨Or.inl rfl, ?_, ?_, ?_, ?_⟩
          · rintro m ⟨hocc, -⟩ w hw
            rw [hfp] at hocc
            cases hocc
            cases hw
            omega
          · intro b0 hb0 w hw
            cases hb0
            cases hw
            exact Nat.le_refl _
          · intro b0 hb0
            exact ⟨b, rfl⟩
          · intro m hm
            exact ⟨b, rfl⟩
    · -- FP latency not elapsed
      rename_i hnd
      refine ⟨Or.inl rfl, ?_, ?_, ?_, ?_⟩
      · rintro m ⟨hocc, hd2⟩ w hw
        rw [hfp] at hocc
        cases hocc
        exact absurd hd2 hnd
      · intro b hb w hw
        rw [hb] at hw
        cases hw
        exact Nat.le_refl _
      · intro b hb
        exact ⟨b, hb⟩
      · rintro m ⟨hocc, hd2⟩
        rw [hfp] at hocc
        cases hocc
        exact absurd hd2 hnd

/-- Claim C1: in one call of `execute_To_CDB` on a state with an empty bus
(the driver clears it in `CDB_To_retire` first) and duplicate-free unit
arrays whose floating-point occupant is not a store, at most one instruction
is placed on the common data bus, and if one is placed it is a non-store
whose latency has elapsed, of lowest program index among all functional-unit
occupants (integer and floating-point) whose latency has elapsed and which
are not stores; with no such candidate the bus stays empty. -/
theorem c1_single_bus_winner_is_lowest_index (trace : Nat → InstrStatic) (cycle : Nat)
    (s : State)
    (hbus : s.commonDataBus = none)
    (hNoDupFU : ∀ i1 i2 mm, s.fuINT i1 = some mm → s.fuINT i2 = some mm → i1 = i2)
    (hNoDupRS : ∀ j1 j2 mm, s.reservINT j1 = some mm → s.reservINT j2 = some mm → j1 = j2)
    (hfpNoStore : ∀ mm, s.fuFP 0 = some mm → (trace mm).op.isStore = false) :
    ∀ s2, execute_To_CDB trace cycle s = some s2 →
      (s2.commonDataBus = none ∧ ∀ mm, ¬busCand trace cycle s mm) ∨
      (∃ w, s2.commonDataBus = some w ∧ busCand trace cycle s w ∧
        (trace w).op.isStore = false ∧ ∀ mm, busCand trace cycle s mm → w ≤ mm) := by
  intro s2 h
  unfold execute_To_CDB at h
  split at h
  · exact Option.noConfusion h
  · rename_i s1 best1 hscan
    obtain ⟨Sa, Sb, Sc, Sd, Se, Sf, Sg, Sh, Si, Sj, Sk, Sl⟩ :=
      execScanINT_spec trace cycle [0, 1] s none hNoDupFU hNoDupRS (by decide) s1 best1 hscan
    obtain ⟨Ma, Mb, Mc, Md, Me⟩ := mergeFP_spec cycle s1 best1
    have hfpiff : ∀ mm, fpDone cycle s1 mm ↔ fpDone cycle s mm := by
      intro mm
      unfold fpDone
      rw [Sb, Sa]
    split at h
    · -- no candidate: the bus is left untouched
      rename_i hmerge
      cases h
      left
      refine ⟨Sc.trans hbus, ?_⟩
      intro mm hc
      rcases hc with hint | hfp2
      · obtain ⟨w, hw⟩ := Sh mm hint
        obtain ⟨w2, hw2⟩ := Md w hw
        rw [hmerge] at hw2
        exact Option.noConfusion hw2
      · obtain ⟨w2, hw2⟩ := Me mm ((hfpiff mm).mpr hfp2)
        rw [hmerge] at hw2
        exact Option.noConfusion hw2
    · rename_i w hmerge
      split at h
      · exact Option.noConfusion h
      · rename_i sf hfs
        cases h
        right
        have hwcand : busCand trace cycle s w := by
          rcases Ma with hm | ⟨m, hm, hfpd⟩
          · rw [hmerge] at hm
            rcases Sd with h1 | ⟨mm, hmm, hid⟩
            · rw [← hm] at h1
              exact Option.noConfusion h1
            · rw [← hm] at hmm
              cases hmm
              exact Or.inl hid
          · rw [hmerge] at hm
            cases hm
            exact Or.inr ((hfpiff w).mp hfpd)
        refine ⟨w, rfl, hwcand, ?_, ?_⟩
        · rcases hwcand with ⟨i, -, -, -, hns⟩ | ⟨hocc, -⟩
          · exact hns
          · exact hfpNoStore w hocc
        · intro mm hc
          rcases hc with hint | hfp2
          · obtain ⟨b1, hb1⟩ := Sh mm hint
            have h1 := Se mm hint b1 hb1
            have h2 := Mc b1 hb1 w hmerge
            omega
          · exact Mb mm ((hfpiff mm).mpr hfp2) w hmerge

/-- Witness for C1 at cycle 10 on `c1State`: the call succeeds, and the
theorem's hypotheses hold there (the winner is in fact instruction 3, the
completed floating-point op, beating integer op 8; store 5 is freed, not
broadcast). -/
theorem c1_witness :
    (execute_To_CDB c1Trace 10 c1State).isSome = true ∧
    ((execute_To_CDB c1Trace 10 c1State).map (fun s2 => s2.commonDataBus) =
      some (some 3)) ∧
    (∀ s2, execute_To_CDB c1Trace 10 c1State = some s2 →
      (s2.commonDataBus = none ∧ ∀ mm, ¬busCand c1Trace 10 c1State mm) ∨
      (∃ w, s2.commonDataBus = some w ∧ busCand c1Trace 10 c1State w ∧
        (c1Trace w).op.isStore = false ∧
        ∀ mm, busCand c1Trace 10 c1State mm → w ≤ mm)) := by
  refine ⟨by decide, by decide, ?_⟩
  exact c1_single_bus_winner_is_lowest_index c1Trace 10 c1State (by decide)
    (by
      intro i1 i2 mm h1 h2
      fin_cases i1 <;> fin_cases i2 <;> simp_all [c1State, initState] <;> omega)
    (by
      intro j1 j2 mm h1 h2
      fin_cases j1 <;> fin_cases j2 <;> simp_all [c1State, initState] <;> omega)
    (by
      intro mm h1
      have h2 : some (3 : Nat) = some mm := h1
      cases h2
      decide)

/-- Claim C6: a store occupying an integer functional-unit slot whose latency
has elapsed (`cycle ≥ execute-start + 4`) is freed from its
reservation-station and functional-unit slots and counted as retired by that
same `execute_To_CDB` call, and the bus never receives it. -/
theorem c6_store_frees_and_retires_without_bus (trace : Nat → InstrStatic) (cycle : Nat)
    (s : State) (m : Nat) (i : Fin 2)
    (hocc : s.fuINT i = some m)
    (hstore : (trace m).op.isStore = true)
    (hdone : s.tom_execute_cycle m + FU_INT_LATENCY ≤ cycle)
    (hNoDupFU : ∀ i1 i2 mm, s.fuINT i1 = some mm → s.fuINT i2 = some mm → i1 = i2)
    (hNoDupRS : ∀ j1 j2 mm, s.reservINT j1 = some mm → s.reservINT j2 = some mm → j1 = j2)
    (hfp : s.fuFP 0 ≠ some m)
    (hbus : s.commonDataBus ≠ some m) :
    ∀ s2, execute_To_CDB trace cycle s = some s2 →
      (∀ i2, s2.fuINT i2 ≠ some m) ∧ (∀ j, s2.reservINT j ≠ some m) ∧
      s.doneCount + 1 ≤ s2.doneCount ∧ s2.commonDataBus ≠ some m := by
  intro s2 h
  unfold execute_To_CDB at h
  split at h
  · exact Option.noConfusion h
  · rename_i s1 best1 hscan
    obtain ⟨Sa, Sb, Sc, Sd, Se, Sf, Sg, Sh, Si, Sj, Sk, Sl⟩ :=
      execScanINT_spec trace cycle [0, 1] s none hNoDupFU hNoDupRS (by decide) s1 best1 hscan
    obtain ⟨habs_fu, habs_rs, hdc⟩ := Sl m i (allFin2_mem i) hocc hstore hdone
    obtain ⟨Ma, Mb, Mc, Md, Me⟩ := mergeFP_spec cycle s1 best1
    split at h
    · rename_i hmerge
      cases h
      refine ⟨habs_fu, habs_rs, hdc, ?_⟩
      rw [Sc]
      exact hbus
    · rename_i w hmerge
      split at h
      · exact Option.noConfusion h
      · rename_i sf hfs
        cases h
        obtain ⟨Fi, Fj, Fdc, Fex, Fbus, Ffp⟩ := free_stations_shrink trace w _ sf hfs
        have hwm : w ≠ m := by
          intro hwm
          subst hwm
          rcases Ma with hm | ⟨m2, hm, hfpd⟩
          · rw [hmerge] at hm
            rcases Sd with h1 | ⟨mm, hmm, hid⟩
            · rw [← hm] at h1
              exact Option.noConfusion h1
            · rw [← hm] at hmm
              cases hmm
              obtain ⟨i0, -, -, -, hns⟩ := hid
              rw [hstore] at hns
              exact Bool.noConfusion hns
          · rw [hmerge] at hm
            cases hm
            obtain ⟨hoccfp, -⟩ := hfpd
            rw [Sb] at hoccfp
            exact hfp hoccfp
        refine ⟨?_, ?_, ?_, ?_⟩
        · intro i2 hc
          rcases Fi i2 with e | e
          · rw [e] at hc
            exact habs_fu i2 hc
          · rw [e] at hc
            exact Option.noConfusion hc
        · intro j hc
          rcases Fj j with e | e
          · rw [e] at hc
            exact habs_rs j hc
          · rw [e] at hc
            exact Option.noConfusion hc
        · have h1 : sf.doneCount = s1.doneCount := Fdc
          show s.doneCount + 1 ≤ sf.doneCount
          omega
        · show some w ≠ some m
          intro hc
          cases hc
          exact hwm rfl

/-- Witness for C6 at cycle 10 on `c1State`: store 5 sits completed in
integer unit slot 0; after the call no slot holds it, the retired count rose,
and the bus holds instruction 3, not the store. -/
theorem c6_witness :
    c1State.fuINT 0 = some 5 ∧ (c1Trace 5).op.isStore = true ∧
    c1State.tom_execute_cycle 5 + FU_INT_LATENCY ≤ 10 ∧
    (∀ s2, execute_To_CDB c1Trace 10 c1State = some s2 →
      (∀ i2, s2.fuINT i2 ≠ some 5) ∧ (∀ j, s2.reservINT j ≠ some 5) ∧
      c1State.doneCount + 1 ≤ s2.doneCount ∧ s2.commonDataBus ≠ some 5) ∧
    (execute_To_CDB c1Trace 10 c1State).map
      (fun s2 => (s2.fuINT 0, s2.reservINT 0, s2.doneCount, s2.commonDataBus)) =
      some (none, none, 1, some 3) := by
  refine ⟨by decide, by decide, by decide, ?_, by decide⟩
  exact c6_store_frees_and_retires_without_bus c1Trace 10 c1State 5 0 (by decide) (by decide)
    (by decide)
    (by
      intro i1 i2 mm h1 h2
      fin_cases i1 <;> fin_cases i2 <;> simp_all [c1State, initState] <;> omega)
    (by
      intro j1 j2 mm h1 h2
      fin_cases j1 <;> fin_cases j2 <;> simp_all [c1State, initState] <;> omega)
    (by decide) (by decide)

/-! ## The driver loop: cycle accounting (claims C4, C10, C8, and the C3
counterexample) -/

theorem runCycles_succ (trace : Nat → InstrStatic) (N c : Nat) (s : State)
    (h : runCycles trace N c = some s) :
    runCycles trace N (c + 1) = cycleStep trace N (c + 1) s := by
  unfold runCycles
  rw [h]

theorem runLoopS_char (trace : Nat → InstrStatic) (N : Nat) :
    ∀ (fuel c0 : Nat) (s0 : State) (r : Nat) (sF : State),
      runCycles trace N c0 = some s0 →
      runLoopS trace N fuel (c0 + 1) s0 = some (r, sF) →
      ∃ c, c0 + 1 ≤ c ∧ r = c + 1 ∧ runCycles trace N c = some sF ∧
        sF.doneCount = N ∧
        ∀ c2, c0 + 1 ≤ c2 → c2 < c →
          ∀ s2, runCycles trace N c2 = some s2 → s2.doneCount ≠ N := by
  intro fuel
  induction fuel with
  | zero =>
    intro c0 s0 r sF h0 h
    exact Option.noConfusion h
  | succ fuel ih =>
    intro c0 s0 r sF h0 h
    unfold runLoopS at h
    split at h
    · exact Option.noConfusion h
    · rename_i s2 hstep
      have h2 : runCycles trace N (c0 + 1) = some s2 := by
        rw [runCycles_succ trace N c0 s0 h0]
        exact hstep
      split at h
      · rename_i hdone
        cases h
        refine ⟨c0 + 1, Nat.le_refl _, rfl, h2, ?_, ?_⟩
        · unfold is_simulation_done at hdone
          simpa using hdone
        · intro c2 hle hlt s3 h3
          omega
      · rename_i hndone
        obtain ⟨c, hc1, hc2, hc3, hc4, hc5⟩ := ih (c0 + 1) s2 r sF h2 h
        refine ⟨c, by omega, hc2, hc3, hc4, ?_⟩
        intro c2 hle hlt s3 h3
        by_cases hceq : c2 = c0 + 1
        · subst hceq
          rw [h2] at h3
          cases h3
          intro hcontra
          apply hndone
          unfold is_simulation_done
          rw [hcontra]
          simp
        · exact hc5 c2 (by omega) hlt s3 h3

theorem runTomasulo_char (trace : Nat → InstrStatic) (N fuel r : Nat) :
    runTomasulo trace N fuel = some r →
    ∃ c, 1 ≤ c ∧ r = c + 1 ∧
      (∃ sF, runCycles trace N c = some sF ∧ sF.doneCount = N) ∧
      ∀ c2, 1 ≤ c2 → c2 < c → ∀ s2, runCycles trace N c2 = some s2 → s2.doneCount ≠ N := by
  intro h
  unfold runTomasulo at h
  cases hl : runLoopS trace N fuel 1 initState
  · rw [hl] at h
    exact Option.noConfusion h
  · rename_i p
    obtain ⟨r0, sF⟩ := p
    rw [hl] at h
    cases h
    obtain ⟨c, hc1, hc2, hc3, hc4, hc5⟩ :=
      runLoopS_char trace N fuel 0 initState r0 sF rfl hl
    exact ⟨c, hc1, hc2, ⟨sF, hc3, hc4⟩, hc5⟩

/-- Claim C4: when `runTomasulo` returns a value, that value is the loop's
cycle counter at the exit check — one more than the (unique, first) cycle
number `c` at whose end the completed-instruction count first equals the
total instruction count `N`; at every earlier cycle end the count differs
from `N`. -/
theorem c4_return_value_at_first_done_cycle (trace : Nat → InstrStatic) (N fuel r : Nat) :
    runTomasulo trace N fuel = some r →
    ∃ c, 1 ≤ c ∧ r = c + 1 ∧
      (∃ sF, runCycles trace N c = some sF ∧ sF.doneCount = N) ∧
      ∀ c2, 1 ≤ c2 → c2 < c → ∀ s2, runCycles trace N c2 = some s2 → s2.doneCount ≠ N :=
  runTomasulo_char trace N fuel r

/-- Witness for C4: the one-integer-instruction run returns 9; the
characterisation gives the unique first-done cycle 8. -/
theorem c4_witness :
    runTomasulo traceIcomp1 1 20 = some 9 ∧
    (∃ c, 1 ≤ c ∧ 9 = c + 1 ∧
      (∃ sF, runCycles traceIcomp1 1 c = some sF ∧ sF.doneCount = 1) ∧
      ∀ c2, 1 ≤ c2 → c2 < c → ∀ s2, runCycles traceIcomp1 1 c2 = some s2 →
        s2.doneCount ≠ 1) := by
  exact ⟨by decide, c4_return_value_at_first_done_cycle traceIcomp1 1 20 9 (by decide)⟩

/-- Claim C10: with a total instruction count of 0, the first simulated cycle
is a no-op on the empty initial state, and `runTomasulo` (given any fuel at
all) returns 2; in general a returned value `r` is at least 2, the
completed-instruction count equals `N` at the end of cycle `r - 1`, and
unless `r = 2` it differs from `N` at the end of cycle `r - 2` — the return
value is one more than the cycle during which the last instruction was
counted retired. -/
theorem c10_zero_trace_returns_two :
    (∀ trace : Nat → InstrStatic, cycleStep trace 0 1 initState = some initState) ∧
    (∀ (trace : Nat → InstrStatic) (fuel : Nat), 1 ≤ fuel →
      runTomasulo trace 0 fuel = some 2) ∧
    (∀ (trace : Nat → InstrStatic) (N fuel r : Nat), runTomasulo trace N fuel = some r →
      2 ≤ r ∧ (∃ sF, runCycles trace N (r - 1) = some sF ∧ sF.doneCount = N) ∧
      (∀ s2, runCycles trace N (r - 2) = some s2 → r = 2 ∨ s2.doneCount ≠ N)) := by
  refine ⟨fun trace => rfl, ?_, ?_⟩
  · intro trace fuel hfuel
    cases fuel with
    | zero => omega
    | succ fuel => rfl
  · intro trace N fuel r h
    obtain ⟨c, hc1, hc2, ⟨sF, hF1, hF2⟩, hc5⟩ := runTomasulo_char trace N fuel r h
    subst hc2
    refine ⟨by omega, ⟨sF, ?_, hF2⟩, ?_⟩
    · have he : c + 1 - 1 = c := by omega
      rw [he]
      exact hF1
    · intro s2 h2
      by_cases hc : c = 1
      · left; omega
      · right
        have he : c + 1 - 2 = c - 1 := by omega
        rw [he] at h2
        exact hc5 (c - 1) (by omega) (by omega) s2 h2

/-- Witness for C10: the hypothesis-bearing conjuncts applied at fuel 5 with
an empty trace and at the concrete one-instruction run returning 9. -/
theorem c10_witness :
    runTomasulo traceIcomp1 0 5 = some 2 ∧
    (2 ≤ 9 ∧ (∃ sF, runCycles traceIcomp1 1 (9 - 1) = some sF ∧ sF.doneCount = 1) ∧
      (∀ s2, runCycles traceIcomp1 1 (9 - 2) = some s2 → 9 = 2 ∨ s2.doneCount ≠ 1)) := by
  constructor
  · exact c10_zero_trace_returns_two.2.1 traceIcomp1 5 (by omega)
  · exact c10_zero_trace_returns_two.2.2 traceIcomp1 1 20 9 (by decide)

/-- Claim C8 (refuted): on the trace of total count `N = 1` whose single
instruction is a trap, the trap-skipping `do`-`while` loop of `fetch`
requests trace index 2 from `get_instr` — an index beyond the end of the
trace — because the loop has no bound check against `sim_num_insn`.  The
ghost field `requested` records exactly the indices passed to `get_instr`. -/
theorem c8_fetch_requests_index_beyond_trace :
    runTomasulo traceTrap1 1 20 = some 2 ∧
    (runCycles traceTrap1 1 1).map (fun s => s.requested) = some [1, 2] ∧
    (2 : Nat) ∈ [1, 2] ∧ 1 < (2 : Nat) := by
  exact ⟨by decide, by decide, by decide, by decide⟩

/-- Claim C3 counterexample: after 3 cycles of the one-integer-instruction
run, instruction 1 occupies reservation-station slot 0 and functional-unit
slot 0 at the same time — `issue_To_execute` copies the reservation-station
entry into the functional unit without clearing it, so an executing
instruction occupies two of the four structures at once. -/
theorem c3_counterexample_rs_and_fu_both_occupied :
    (runCycles traceIcomp1 1 3).map (fun s => (s.reservINT 0, s.fuINT 0)) =
      some (some 1, some 1) := by decide

/-! ## Queue-window arithmetic and invariant groundwork -/

theorem qslotAt_val (h : Fin 10) (p : Nat) : (qslotAt h p).val = (h.val + p % 10) % 10 := by
  unfold qslotAt finOfNat10
  rw [Fin.val_add]

theorem qslotAt_inj (h : Fin 10) (p1 p2 : Nat) (h1 : p1 < 10) (h2 : p2 < 10)
    (he : qslotAt h p1 = qslotAt h p2) : p1 = p2 := by
  have hv : (qslotAt h p1).val = (qslotAt h p2).val := by rw [he]
  rw [qslotAt_val, qslotAt_val] at hv
  have hh : h.val < 10 := h.isLt
  omega

theorem qslotAt_succ (h : Fin 10) (p : Nat) : qslotAt (h + 1) p = qslotAt h (p + 1) := by
  apply Fin.ext
  rw [qslotAt_val, qslotAt_val, Fin.val_add]
  have hh : h.val < 10 := h.isLt
  have h1 : (1 : Fin 10).val = 1 := rfl
  rw [h1]
  omega

theorem qslotAt_zero (h : Fin 10) : qslotAt h 0 = h := by
  apply Fin.ext
  rw [qslotAt_val]
  have hh : h.val < 10 := h.isLt
  omega

theorem WFb_instrOk (trace : Nat → InstrStatic) (N : Nat) (hWF : WFb trace N = true) :
    ∀ k, 1 ≤ k → k ≤ N → instrOk (trace k) = true := by
  intro k h1 h2
  unfold WFb at hWF
  rw [Bool.and_eq_true] at hWF
  have hall := List.all_eq_true.mp hWF.1 (k - 1)
  have hmem : k - 1 ∈ List.range N := List.mem_range.mpr (by omega)
  have := hall hmem
  have he : k - 1 + 1 = k := by omega
  rw [he] at this
  exact this

theorem WFb_last (trace : Nat → InstrStatic) (N : Nat) (hWF : WFb trace N = true)
    (hN : 1 ≤ N) : (trace N).op.isTrap = false := by
  unfold WFb at hWF
  rw [Bool.and_eq_true, Bool.or_eq_true] at hWF
  rcases hWF.2 with h | h
  · have : N = 0 := by simpa using h
    omega
  · rw [Bool.not_eq_true'] at h
    exact h

theorem instrOk_class (ins : InstrStatic) (h : instrOk ins = true) :
    (ins.op.isTrap = true ∨ ins.op.isUncondCtrl = true ∨ ins.op.isCondCtrl = true ∨
      USES_INT_FU ins.op = true ∨ USES_FP_FU ins.op = true) ∧
    ¬(USES_FP_FU ins.op = true ∧ USES_INT_FU ins.op = true) ∧
    ¬(ins.op.isStore = true ∧ WRITES_CDB ins.op = true) ∧
    (ins.op.isTrap = false → ins.op.isUncondCtrl = false → ins.op.isCondCtrl = false →
      ∀ j : Fin 2, ins.rOut j ≠ DNA → WRITES_CDB ins.op = true) := by
  unfold instrOk at h
  simp only [Bool.and_eq_true, Bool.or_eq_true, Bool.not_eq_true', beq_iff_eq] at h
  obtain ⟨⟨⟨hcl, hex⟩, hst⟩, hout⟩ := h
  refine ⟨by tauto, ?_, ?_, ?_⟩
  · rintro ⟨ha, hb⟩
    simp [ha, hb] at hex
  · rintro ⟨ha, hb⟩
    simp [ha, hb] at hst
  · intro ht hu hc j hj
    rcases hout with ((h1 | h1) | h1) | h1
    · simp [ht] at h1
    · simp [hu] at h1
    · simp [hc] at h1
    · have hj01 : ∀ jj : Fin 2, jj = 0 ∨ jj = 1 := by decide
      rcases hj01 j with rfl | rfl
      · rcases h1.1 with h2 | h2
        · exact absurd h2 hj
        · exact h2
      · rcases h1.2 with h2 | h2
        · exact absurd h2 hj
        · exact h2

theorem invS_init (trace : Nat → InstrStatic) (N : Nat) : InvS trace N 0 initState := by
  refine
    { fi_le := Nat.zero_le N
      size_le := by decide
      tail_eq := by
        show (0 : Fin 10) = qslot initState 0
        rw [show qslot initState 0 = qslotAt 0 0 from rfl, qslotAt_zero]
      qocc := by intro p hp; exact absurd (show p < 0 from hp) (Nat.not_lt_zero p)
      qmono := by
        intro p1 p2 k1 k2 h1 h2
        exact absurd (show p2 < 0 from h2) (Nat.not_lt_zero p2)
      qrange := by intro p k hp; exact absurd (show p < 0 from hp) (Nat.not_lt_zero p)
      qop := ?_
      qexec0 := fun k _ => rfl
      order := ?_
      rsIntClass := ?_
      rsFpClass := ?_
      q_rs := ?_
      q_bus := ?_
      rs_bus := ?_
      rsint_rsfp := ?_
      rsIntDup := by intro j1 j2 k h1; exact absurd h1 (by exact fun h => Option.noConfusion h)
      rsFpDup := by intro j1 j2 k h1; exact absurd h1 (by exact fun h => Option.noConfusion h)
      fuIntDup := by intro i1 i2 k h1; exact absurd h1 (by exact fun h => Option.noConfusion h)
      fuInt_rs := by intro k i h1; exact absurd h1 (by exact fun h => Option.noConfusion h)
      fuFp_rs := by intro k i h1; exact absurd h1 (by exact fun h => Option.noConfusion h)
      exec_iff_int := ?_
      exec_iff_fp := ?_
      exec_le := fun k _ => Nat.le_refl 0
      bus_range := ?_
      fresh_exec := fun k _ => rfl }
  · rintro k ⟨p, hp, -⟩
    exact absurd (show p < 0 from hp) (Nat.not_lt_zero p)
  · rintro m k - ⟨p, hp, -⟩
    exact absurd (show p < 0 from hp) (Nat.not_lt_zero p)
  · rintro k ⟨j, hj⟩
    exact Option.noConfusion hj
  · rintro k ⟨j, hj⟩
    exact Option.noConfusion hj
  · rintro k ⟨p, hp, -⟩
    exact absurd (show p < 0 from hp) (Nat.not_lt_zero p)
  · rintro k ⟨p, hp, -⟩
    exact absurd (show p < 0 from hp) (Nat.not_lt_zero p)
  · rintro k (⟨j, hj⟩ | ⟨j, hj⟩) <;> exact Option.noConfusion hj
  · rintro k ⟨j, hj⟩
    exact Option.noConfusion hj
  · rintro k ⟨j, hj⟩
    exact Option.noConfusion hj
  · rintro k ⟨j, hj⟩
    exact Option.noConfusion hj
  · rintro k hb
    exact Option.noConfusion hb

theorem invM_init (trace : Nat → InstrStatic) (N : Nat) : InvM trace N initState := by
  refine { mapwf := ?_, qwf := ?_, acct := ?_ }
  · intro r k h
    exact Option.noConfusion h
  · intro k j p h
    exact Option.noConfusion h
  · decide

theorem inQueue_congr (s s2 : State) (hq : s2.instr_queue = s.instr_queue)
    (hh : s2.ifq_head = s.ifq_head) (hs : s2.instr_queue_size = s.instr_queue_size) :
    ∀ k, inQueue s2 k ↔ inQueue s k := by
  intro k
  unfold inQueue qslot qslotAt
  rw [hq, hh, hs]

/-- Transfer of the structural invariant to a state that differs only in the
producer map, await-slots, per-instruction stamp maps other than
`tom_execute_cycle`, completion count and ghost data, and whose bus is empty. -/
theorem invS_congr (trace : Nat → InstrStatic) (N c : Nat) (s s2 : State)
    (hq : s2.instr_queue = s.instr_queue) (hh : s2.ifq_head = s.ifq_head)
    (htl : s2.ifq_tail = s.ifq_tail) (hs : s2.instr_queue_size = s.instr_queue_size)
    (hri : s2.reservINT = s.reservINT) (hrf : s2.reservFP = s.reservFP)
    (hfi : s2.fuINT = s.fuINT) (hff : s2.fuFP = s.fuFP)
    (hfx : s2.fetch_index = s.fetch_index) (hex : s2.tom_execute_cycle = s.tom_execute_cycle)
    (hbus2 : s2.commonDataBus = none)
    (hI : InvS trace N c s) : InvS trace N c s2 := by
  have hqs : ∀ p, qslot s2 p = qslot s p := by
    intro p
    unfold qslot qslotAt
    rw [hh]
  have hinQ : ∀ k, inQueue s2 k ↔ inQueue s k := inQueue_congr s s2 hq hh hs
  have hinRI : ∀ k, inRSINT s2 k ↔ inRSINT s k := by
    intro k
    unfold inRSINT
    rw [hri]
  have hinRF : ∀ k, inRSFP s2 k ↔ inRSFP s k := by
    intro k
    unfold inRSFP
    rw [hrf]
  have hinRS : ∀ k, inRS s2 k ↔ inRS s k := by
    intro k
    unfold inRS
    rw [hinRI k, hinRF k]
  have hnb : ∀ k, ¬onBus s2 k := by
    intro k hk
    unfold onBus at hk
    rw [hbus2] at hk
    exact Option.noConfusion hk
  refine
    { fi_le := by rw [hfx]; exact hI.fi_le
      size_le := by rw [hs]; exact hI.size_le
      tail_eq := by
        rw [htl, hs, hqs]
        exact hI.tail_eq
      qocc := by
        intro p hp
        rw [hs] at hp
        obtain ⟨k, hk⟩ := hI.qocc p hp
        refine ⟨k, ?_⟩
        rw [hq, hqs]
        exact hk
      qmono := by
        intro p1 p2 k1 k2 h12 h2 e1 e2
        rw [hs] at h2
        rw [hq, hqs] at e1 e2
        exact hI.qmono p1 p2 k1 k2 h12 h2 e1 e2
      qrange := by
        intro p k hp e
        rw [hs] at hp
        rw [hq, hqs] at e
        rw [hfx]
        exact hI.qrange p k hp e
      qop := by
        intro k hk
        exact hI.qop k ((hinQ k).mp hk)
      qexec0 := by
        intro k hk
        rw [hex]
        exact hI.qexec0 k ((hinQ k).mp hk)
      order := by
        intro m k hm hk
        rcases hm with hm | hm
        · exact hI.order m k (Or.inl ((hinRS m).mp hm)) ((hinQ k).mp hk)
        · exact absurd hm (hnb m)
      rsIntClass := by
        intro k hk
        rw [hfx]
        exact hI.rsIntClass k ((hinRI k).mp hk)
      rsFpClass := by
        intro k hk
        rw [hfx]
        exact hI.rsFpClass k ((hinRF k).mp hk)
      q_rs := by
        intro k hk hr
        exact hI.q_rs k ((hinQ k).mp hk) ((hinRS k).mp hr)
      q_bus := fun k _ hb => hnb k hb
      rs_bus := fun k _ hb => hnb k hb
      rsint_rsfp := by
        intro k hk hf
        exact hI.rsint_rsfp k ((hinRI k).mp hk) ((hinRF k).mp hf)
      rsIntDup := by
        intro j1 j2 k e1 e2
        rw [hri] at e1 e2
        exact hI.rsIntDup j1 j2 k e1 e2
      rsFpDup := by
        intro j1 j2 k e1 e2
        rw [hrf] at e1 e2
        exact hI.rsFpDup j1 j2 k e1 e2
      fuIntDup := by
        intro i1 i2 k e1 e2
        rw [hfi] at e1 e2
        exact hI.fuIntDup i1 i2 k e1 e2
      fuInt_rs := by
        intro k i e
        rw [hfi] at e
        obtain ⟨j, hj⟩ := hI.fuInt_rs k i e
        refine ⟨j, ?_⟩
        rw [hri]
        exact hj
      fuFp_rs := by
        intro k i e
        rw [hff] at e
        obtain ⟨j, hj⟩ := hI.fuFp_rs k i e
        refine ⟨j, ?_⟩
        rw [hrf]
        exact hj
      exec_iff_int := by
        intro k hk
        rw [hex, hfi]
        exact hI.exec_iff_int k ((hinRI k).mp hk)
      exec_iff_fp := by
        intro k hk
        rw [hex, hff]
        exact hI.exec_iff_fp k ((hinRF k).mp hk)
      exec_le := by
        intro k hk
        rw [hex]
        exact hI.exec_le k ((hinRS k).mp hk)
      bus_range := fun k hb => absurd hb (hnb k)
      fresh_exec := by
        intro k hk
        rw [hfx] at hk
        rw [hex]
        exact hI.fresh_exec k hk }

theorem CDB_To_retire_effects (trace : Nat → InstrStatic) (s : State) :
    (CDB_To_retire trace s).instr_queue = s.instr_queue ∧
    (CDB_To_retire trace s).instr_queue_size = s.instr_queue_size ∧
    (CDB_To_retire trace s).ifq_head = s.ifq_head ∧
    (CDB_To_retire trace s).ifq_tail = s.ifq_tail ∧
    (CDB_To_retire trace s).reservINT = s.reservINT ∧
    (CDB_To_retire trace s).reservFP = s.reservFP ∧
    (CDB_To_retire trace s).fuINT = s.fuINT ∧
    (CDB_To_retire trace s).fuFP = s.fuFP ∧
    (CDB_To_retire trace s).fetch_index = s.fetch_index ∧
    (CDB_To_retire trace s).tom_execute_cycle = s.tom_execute_cycle ∧
    (CDB_To_retire trace s).commonDataBus = none ∧
    (CDB_To_retire trace s).doneCount = s.doneCount + busCnt s := by
  unfold CDB_To_retire
  cases hb : s.commonDataBus
  · refine ⟨rfl, rfl, rfl, rfl, rfl, rfl, rfl, rfl, rfl, rfl, hb, ?_⟩
    unfold busCnt
    rw [hb]
    rfl
  · refine ⟨rfl, rfl, rfl, rfl, rfl, rfl, rfl, rfl, rfl, rfl, rfl, ?_⟩
    unfold busCnt
    rw [hb]
    rfl

theorem CDB_To_retire_invS (trace : Nat → InstrStatic) (N c : Nat) (s : State)
    (hI : InvS trace N c s) : InvS trace N c (CDB_To_retire trace s) := by
  obtain ⟨h1, h2, h3, h4, h5, h6, h7, h8, h9, h10, h11, h12⟩ :=
    CDB_To_retire_effects trace s
  exact invS_congr trace N c s _ h1 h3 h4 h2 h5 h6 h7 h8 h9 h10 h11 hI

theorem invS_mono (trace : Nat → InstrStatic) (N c c2 : Nat) (s : State) (hc : c ≤ c2)
    (hI : InvS trace N c s) : InvS trace N c2 s :=
  { hI with exec_le := fun k hk => Nat.le_trans (hI.exec_le k hk) hc }

/-- Admitting ready reservation-station occupant `m` into free integer
functional-unit slot `i` at a nonzero cycle preserves the structural
invariant. -/
theorem invS_issue_int (trace : Nat → InstrStatic) (N c2 cycle : Nat) (s : State)
    (i : Fin 2) (j0 : Fin 4) (m : Nat)
    (hI : InvS trace N c2 s) (hcyc : 1 ≤ cycle) (hcle : cycle ≤ c2)
    (hfree : s.fuINT i = none) (hj0 : s.reservINT j0 = some m)
    (hm0 : s.tom_execute_cycle m = 0) :
    InvS trace N c2
      { s with tom_execute_cycle := Function.update s.tom_execute_cycle m cycle,
               fuINT := Function.update s.fuINT i (some m) } := by
  set s2 : State :=
    { s with tom_execute_cycle := Function.update s.tom_execute_cycle m cycle,
             fuINT := Function.update s.fuINT i (some m) } with hs2
  have hmRS : inRSINT s m := ⟨j0, hj0⟩
  have hex2 : s2.tom_execute_cycle = Function.update s.tom_execute_cycle m cycle := rfl
  have hfu2 : s2.fuINT = Function.update s.fuINT i (some m) := rfl
  have hexne : ∀ k, k ≠ m → s2.tom_execute_cycle k = s.tom_execute_cycle k := by
    intro k hk
    rw [hex2, Function.update_noteq hk]
  have hexm : s2.tom_execute_cycle m = cycle := by
    rw [hex2, Function.update_same]
  have hfune : ∀ i2, i2 ≠ i → s2.fuINT i2 = s.fuINT i2 := by
    intro i2 hi2
    rw [hfu2, Function.update_noteq hi2]
  have hfui : s2.fuINT i = some m := by
    rw [hfu2, Function.update_same]
  have hinQ : ∀ k, inQueue s2 k ↔ inQueue s k := inQueue_congr s s2 rfl rfl rfl
  have hmnotq : ¬inQueue s m := fun hq => hI.q_rs m hq (Or.inl hmRS)
  have hmfi : m ≤ s.fetch_index := (hI.rsIntClass m hmRS).2.2.2.2.2.2
  have hfuiff : ∀ k, k ≠ m → ((∃ i2, s2.fuINT i2 = some k) ↔ ∃ i2, s.fuINT i2 = some k) := by
    intro k hk
    constructor
    · rintro ⟨i2, hi2⟩
      by_cases he : i2 = i
      · subst he
        rw [hfui] at hi2
        cases hi2
        exact absurd rfl hk
      · rw [hfune i2 he] at hi2
        exact ⟨i2, hi2⟩
    · rintro ⟨i2, hi2⟩
      have he : i2 ≠ i := by
        intro he
        subst he
        rw [hfree] at hi2
        exact Option.noConfusion hi2
      refine ⟨i2, ?_⟩
      rw [hfune i2 he]
      exact hi2
  refine
    { fi_le := hI.fi_le
      size_le := hI.size_le
      tail_eq := hI.tail_eq
      qocc := hI.qocc
      qmono := hI.qmono
      qrange := hI.qrange
      qop := by
        intro k hk
        exact hI.qop k ((hinQ k).mp hk)
      qexec0 := by
        intro k hk
        have hkq := (hinQ k).mp hk
        have hkm : k ≠ m := by
          intro he
          subst he
          exact hmnotq hkq
        rw [hexne k hkm]
        exact hI.qexec0 k hkq
      order := by
        intro m2 k hm2 hk
        exact hI.order m2 k hm2 ((hinQ k).mp hk)
      rsIntClass := hI.rsIntClass
      rsFpClass := hI.rsFpClass
      q_rs := by
        intro k hk
        exact hI.q_rs k ((hinQ k).mp hk)
      q_bus := by
        intro k hk
        exact hI.q_bus k ((hinQ k).mp hk)
      rs_bus := hI.rs_bus
      rsint_rsfp := hI.rsint_rsfp
      rsIntDup := hI.rsIntDup
      rsFpDup := hI.rsFpDup
      fuIntDup := by
        intro i1 i2 k e1 e2
        by_cases h1 : i1 = i <;> by_cases h2 : i2 = i
        · rw [h1, h2]
        · subst h1
          rw [hfui] at e1
          cases e1
          rw [hfune i2 h2] at e2
          have : s.tom_execute_cycle m ≠ 0 := by
            rw [(hI.exec_iff_int m hmRS)]
            exact ⟨i2, e2⟩
          exact absurd hm0 this
        · subst h2
          rw [hfui] at e2
          cases e2
          rw [hfune i1 h1] at e1
          have : s.tom_execute_cycle m ≠ 0 := by
            rw [(hI.exec_iff_int m hmRS)]
            exact ⟨i1, e1⟩
          exact absurd hm0 this
        · rw [hfune i1 h1] at e1
          rw [hfune i2 h2] at e2
          exact hI.fuIntDup i1 i2 k e1 e2
      fuInt_rs := by
        intro k i2 e
        by_cases h2 : i2 = i
        · subst h2
          rw [hfui] at e
          cases e
          exact ⟨j0, hj0⟩
        · rw [hfune i2 h2] at e
          exact hI.fuInt_rs k i2 e
      fuFp_rs := hI.fuFp_rs
      exec_iff_int := by
        intro k hk
        by_cases hkm : k = m
        · subst hkm
          constructor
          · intro _
            exact ⟨i, hfui⟩
          · intro _
            rw [hexm]
            omega
        · rw [hexne k hkm, hfuiff k hkm]
          exact hI.exec_iff_int k hk
      exec_iff_fp := by
        intro k hk
        have hkm : k ≠ m := by
          intro he
          subst he
          exact hI.rsint_rsfp _ hmRS hk
        rw [hexne k hkm]
        exact hI.exec_iff_fp k hk
      exec_le := by
        intro k hk
        by_cases hkm : k = m
        · subst hkm
          rw [hexm]
          exact hcle
        · rw [hexne k hkm]
          exact hI.exec_le k hk
      bus_range := hI.bus_range
      fresh_exec := by
        intro k hk
        have hfx2 : s2.fetch_index = s.fetch_index := rfl
        rw [hfx2] at hk
        have hkm : k ≠ m := by
          intro he
          subst he
          omega
        rw [hexne k hkm]
        exact hI.fresh_exec k hk }

/-- Admitting ready reservation-station occupant `m` into the free
floating-point unit preserves the structural invariant. -/
theorem invS_issue_fp (trace : Nat → InstrStatic) (N c2 cycle : Nat) (s : State)
    (i : Fin 1) (j0 : Fin 2) (m : Nat)
    (hI : InvS trace N c2 s) (hcyc : 1 ≤ cycle) (hcle : cycle ≤ c2)
    (hfree : s.fuFP i = none) (hj0 : s.reservFP j0 = some m)
    (hm0 : s.tom_execute_cycle m = 0) :
    InvS trace N c2
      { s with tom_execute_cycle := Function.update s.tom_execute_cycle m cycle,
               fuFP := Function.update s.fuFP i (some m) } := by
  set s2 : State :=
    { s with tom_execute_cycle := Function.update s.tom_execute_cycle m cycle,
             fuFP := Function.update s.fuFP i (some m) } with hs2
  have hmRS : inRSFP s m := ⟨j0, hj0⟩
  have hex2 : s2.tom_execute_cycle = Function.update s.tom_execute_cycle m cycle := rfl
  have hfu2 : s2.fuFP = Function.update s.fuFP i (some m) := rfl
  have hexne : ∀ k, k ≠ m → s2.tom_execute_cycle k = s.tom_execute_cycle k := by
    intro k hk
    rw [hex2, Function.update_noteq hk]
  have hexm : s2.tom_execute_cycle m = cycle := by
    rw [hex2, Function.update_same]
  have hfune : ∀ i2, i2 ≠ i → s2.fuFP i2 = s.fuFP i2 := by
    intro i2 hi2
    rw [hfu2, Function.update_noteq hi2]
  have hfui : s2.fuFP i = some m := by
    rw [hfu2, Function.update_same]
  have hinQ : ∀ k, inQueue s2 k ↔ inQueue s k := inQueue_congr s s2 rfl rfl rfl
  have hmnotq : ¬inQueue s m := fun hq => hI.q_rs m hq (Or.inr hmRS)
  have hmfi : m ≤ s.fetch_index := (hI.rsFpClass m hmRS).2.2.2.2.2
  have hfuiff : ∀ k, k ≠ m → ((∃ i2, s2.fuFP i2 = some k) ↔ ∃ i2, s.fuFP i2 = some k) := by
    intro k hk
    constructor
    · rintro ⟨i2, hi2⟩
      by_cases he : i2 = i
      · subst he
        rw [hfui] at hi2
        cases hi2
        exact absurd rfl hk
      · rw [hfune i2 he] at hi2
        exact ⟨i2, hi2⟩
    · rintro ⟨i2, hi2⟩
      have he : i2 ≠ i := by
        intro he
        subst he
        rw [hfree] at hi2
        exact Option.noConfusion hi2
      refine ⟨i2, ?_⟩
      rw [hfune i2 he]
      exact hi2
  refine
    { fi_le := hI.fi_le
      size_le := hI.size_le
      tail_eq := hI.tail_eq
      qocc := hI.qocc
      qmono := hI.qmono
      qrange := hI.qrange
      qop := by
        intro k hk
        exact hI.qop k ((hinQ k).mp hk)
      qexec0 := by
        intro k hk
        have hkq := (hinQ k).mp hk
        have hkm : k ≠ m := by
          intro he
          subst he
          exact hmnotq hkq
        rw [hexne k hkm]
        exact hI.qexec0 k hkq
      order := by
        intro m2 k hm2 hk
        exact hI.order m2 k hm2 ((hinQ k).mp hk)
      rsIntClass := hI.rsIntClass
      rsFpClass := hI.rsFpClass
      q_rs := by
        intro k hk
        exact hI.q_rs k ((hinQ k).mp hk)
      q_bus := by
        intro k hk
        exact hI.q_bus k ((hinQ k).mp hk)
      rs_bus := hI.rs_bus
      rsint_rsfp := hI.rsint_rsfp
      rsIntDup := hI.rsIntDup
      rsFpDup := hI.rsFpDup
      fuIntDup := hI.fuIntDup
      fuInt_rs := hI.fuInt_rs
      fuFp_rs := by
        intro k i2 e
        by_cases h2 : i2 = i
        · subst h2
          rw [hfui] at e
          cases e
          exact ⟨j0, hj0⟩
        · rw [hfune i2 h2] at e
          exact hI.fuFp_rs k i2 e
      exec_iff_int := by
        intro k hk
        have hkm : k ≠ m := by
          intro he
          subst he
          exact hI.rsint_rsfp _ hk hmRS
        rw [hexne k hkm]
        exact hI.exec_iff_int k hk
      exec_iff_fp := by
        intro k hk
        by_cases hkm : k = m
        · subst hkm
          constructor
          · intro _
            exact ⟨i, hfui⟩
          · intro _
            rw [hexm]
            omega
        · rw [hexne k hkm, hfuiff k hkm]
          exact hI.exec_iff_fp k hk
      exec_le := by
        intro k hk
        by_cases hkm : k = m
        · subst hkm
          rw [hexm]
          exact hcle
        · rw [hexne k hkm]
          exact hI.exec_le k hk
      bus_range := hI.bus_range
      fresh_exec := by
        intro k hk
        have hfx2 : s2.fetch_index = s.fetch_index := rfl
        rw [hfx2] at hk
        have hkm : k ≠ m := by
          intro he
          subst he
          omega
        rw [hexne k hkm]
        exact hI.fresh_exec k hk }

theorem issueSlotINT_invS (trace : Nat → InstrStatic) (N c2 cycle : Nat) (s : State)
    (i : Fin 2) (hI : InvS trace N c2 s) (hcyc : 1 ≤ cycle) (hcle : cycle ≤ c2) :
    InvS trace N c2 (issueSlotINT cycle s i) := by
  unfold issueSlotINT
  cases hfu : s.fuINT i
  · cases hscan : scanReadyINT s [0, 1, 2, 3] none
    · exact hI
    · rename_i m
      obtain ⟨hmem, -, -⟩ := scanReadyINT_some s [0, 1, 2, 3] none m hscan
      rcases hmem with h1 | ⟨j0, -, hj0, hready⟩
      · exact Option.noConfusion h1
      · exact invS_issue_int trace N c2 cycle s i j0 m hI hcyc hcle hfu hj0 hready.1
  · exact hI

theorem issueSlotFP_invS (trace : Nat → InstrStatic) (N c2 cycle : Nat) (s : State)
    (i : Fin 1) (hI : InvS trace N c2 s) (hcyc : 1 ≤ cycle) (hcle : cycle ≤ c2) :
    InvS trace N c2 (issueSlotFP cycle s i) := by
  unfold issueSlotFP
  cases hfu : s.fuFP i
  · cases hscan : scanReadyFP s [0, 1] none
    · exact hI
    · rename_i m
      obtain ⟨hmem, -, -⟩ := scanReadyFP_some s [0, 1] none m hscan
      rcases hmem with h1 | ⟨j0, -, hj0, hready⟩
      · exact Option.noConfusion h1
      · exact invS_issue_fp trace N c2 cycle s i j0 m hI hcyc hcle hfu hj0 hready.1
  · exact hI

theorem issue_To_execute_invS (trace : Nat → InstrStatic) (N c2 cycle : Nat) (s : State)
    (hI : InvS trace N c2 s) (hcyc : 1 ≤ cycle) (hcle : cycle ≤ c2) :
    InvS trace N c2 (issue_To_execute cycle s) := by
  unfold issue_To_execute
  exact issueSlotFP_invS trace N c2 cycle _ 0
    (issueSlotINT_invS trace N c2 cycle _ 1
      (issueSlotINT_invS trace N c2 cycle s 0 hI hcyc hcle) hcyc hcle) hcyc hcle

theorem firstFreeSlot_spec {n : Nat} (slots : Fin n → Option Nat) :
    ∀ (L : List (Fin n)) (i : Fin n), firstFreeSlot slots L = some i →
      slots i = none ∧ i ∈ L := by
  intro L
  induction L with
  | nil => intro i h; exact Option.noConfusion h
  | cons j rest ih =>
    intro i h
    unfold firstFreeSlot at h
    split at h
    · rename_i hj
      cases h
      exact ⟨hj, List.mem_cons_self j rest⟩
    · obtain ⟨h1, h2⟩ := ih i h
      exact ⟨h1, List.mem_cons_of_mem j h2⟩

theorem map_operands_frame (trace : Nat → InstrStatic) (m : Nat) (s : State) :
    (map_operands trace m s).instr_queue = s.instr_queue ∧
    (map_operands trace m s).instr_queue_size = s.instr_queue_size ∧
    (map_operands trace m s).ifq_head = s.ifq_head ∧
    (map_operands trace m s).ifq_tail = s.ifq_tail ∧
    (map_operands trace m s).reservINT = s.reservINT ∧
    (map_operands trace m s).reservFP = s.reservFP ∧
    (map_operands trace m s).fuINT = s.fuINT ∧
    (map_operands trace m s).fuFP = s.fuFP ∧
    (map_operands trace m s).commonDataBus = s.commonDataBus ∧
    (map_operands trace m s).fetch_index = s.fetch_index ∧
    (map_operands trace m s).tom_execute_cycle = s.tom_execute_cycle ∧
    (map_operands trace m s).doneCount = s.doneCount := by
  unfold map_operands mapDst mapSrc
  split <;> split <;> split <;> split <;> split <;>
    exact ⟨rfl, rfl, rfl, rfl, rfl, rfl, rfl, rfl, rfl, rfl, rfl, rfl⟩

theorem inQueue_pop_iff (trace : Nat → InstrStatic) (N c2 : Nat) (s : State)
    (hI : InvS trace N c2 s) (sp : State) (h : Nat)
    (hq : sp.instr_queue = s.instr_queue) (hh : sp.ifq_head = s.ifq_head + 1)
    (hsz : sp.instr_queue_size = s.instr_queue_size - 1)
    (hpos : 0 < s.instr_queue_size)
    (hhead : s.instr_queue (qslot s 0) = some h) :
    (∀ p, qslot sp p = qslot s (p + 1)) ∧
    (∀ k, inQueue sp k ↔ (inQueue s k ∧ k ≠ h)) := by
  have hslots : ∀ p, qslot sp p = qslot s (p + 1) := by
    intro p
    unfold qslot
    rw [hh]
    exact qslotAt_succ s.ifq_head p
  refine ⟨hslots, ?_⟩
  intro k
  constructor
  · rintro ⟨p, hp, he⟩
    rw [hsz] at hp
    rw [hq, hslots p] at he
    have hpq : p + 1 < s.instr_queue_size := by omega
    refine ⟨⟨p + 1, hpq, he⟩, ?_⟩
    have := hI.qmono 0 (p + 1) h k (by omega) hpq hhead he
    omega
  · rintro ⟨⟨p, hp, he⟩, hk⟩
    cases p with
    | zero =>
      rw [hhead] at he
      cases he
      exact absurd rfl hk
    | succ p2 =>
      refine ⟨p2, ?_, ?_⟩
      · rw [hsz]
        omega
      · rw [hq, hslots p2]
        exact he

/-- Popping the control-instruction head of the queue and counting it
retired preserves both invariant layers. -/
theorem invSM_pop_ctrl (trace : Nat → InstrStatic) (N c2 : Nat) (s : State) (h : Nat)
    (hI : InvS trace N c2 s) (hM : InvM trace N s)
    (hpos : 0 < s.instr_queue_size)
    (hhead : s.instr_queue (qslot s 0) = some h) :
    InvS trace N c2
      { s with ifq_head := s.ifq_head + 1,
               instr_queue_size := s.instr_queue_size - 1,
               doneCount := s.doneCount + 1 } ∧
    InvM trace N
      { s with ifq_head := s.ifq_head + 1,
               instr_queue_size := s.instr_queue_size - 1,
               doneCount := s.doneCount + 1 } := by
  set sp : State :=
    { s with ifq_head := s.ifq_head + 1,
             instr_queue_size := s.instr_queue_size - 1,
             doneCount := s.doneCount + 1 } with hsp
  obtain ⟨hslots, hinQ⟩ :=
    inQueue_pop_iff trace N c2 s hI sp h rfl rfl rfl hpos hhead
  have hinQ2 : ∀ k, inQueue sp k → inQueue s k := fun k hk => ((hinQ k).mp hk).1
  have hinRI : ∀ k, inRSINT sp k ↔ inRSINT s k := fun k => Iff.rfl
  have hinRF : ∀ k, inRSFP sp k ↔ inRSFP s k := fun k => Iff.rfl
  have hinRS : ∀ k, inRS sp k ↔ inRS s k := fun k => Iff.rfl
  have hinB : ∀ k, onBus sp k ↔ onBus s k := fun k => Iff.rfl
  constructor
  · refine
      { fi_le := hI.fi_le
        size_le := by
          show s.instr_queue_size - 1 ≤ 10
          have := hI.size_le
          omega
        tail_eq := ?_
        qocc := ?_
        qmono := ?_
        qrange := ?_
        qop := fun k hk => hI.qop k (hinQ2 k hk)
        qexec0 := fun k hk => hI.qexec0 k (hinQ2 k hk)
        order := fun m k hm hk => hI.order m k hm (hinQ2 k hk)
        rsIntClass := hI.rsIntClass
        rsFpClass := hI.rsFpClass
        q_rs := fun k hk => hI.q_rs k (hinQ2 k hk)
        q_bus := fun k hk => hI.q_bus k (hinQ2 k hk)
        rs_bus := hI.rs_bus
        rsint_rsfp := hI.rsint_rsfp
        rsIntDup := hI.rsIntDup
        rsFpDup := hI.rsFpDup
        fuIntDup := hI.fuIntDup
        fuInt_rs := hI.fuInt_rs
        fuFp_rs := hI.fuFp_rs
        exec_iff_int := hI.exec_iff_int
        exec_iff_fp := hI.exec_iff_fp
        exec_le := hI.exec_le
        bus_range := hI.bus_range
        fresh_exec := hI.fresh_exec }
    · show s.ifq_tail = qslot sp (s.instr_queue_size - 1)
      rw [hslots (s.instr_queue_size - 1)]
      have he : s.instr_queue_size - 1 + 1 = s.instr_queue_size := by omega
      rw [he]
      exact hI.tail_eq
    · intro p hp
      have hp2 : p < s.instr_queue_size - 1 := hp
      rw [hslots p]
      exact hI.qocc (p + 1) (by omega)
    · intro p1 p2 k1 k2 h12 h2 e1 e2
      have h2b : p2 < s.instr_queue_size - 1 := h2
      rw [hslots p1] at e1
      rw [hslots p2] at e2
      exact hI.qmono (p1 + 1) (p2 + 1) k1 k2 (by omega) (by omega) e1 e2
    · intro p k hp e
      have hp2 : p < s.instr_queue_size - 1 := hp
      rw [hslots p] at e
      exact hI.qrange (p + 1) k (by omega) e
  · refine { mapwf := hM.mapwf, qwf := ?_, acct := ?_ }
    · intro k j p hqe
      obtain ⟨ha, hb, hc, hd, he⟩ := hM.qwf k j p hqe
      exact ⟨ha, hb, hc, hd, he⟩
    · show s.doneCount + 1 + (s.instr_queue_size - 1) + cntRSINT s + cntRSFP s + busCnt s =
        s.fetch_index
      have := hM.acct
      omega

/-- Transfer of the structural invariant to a state whose queue, station,
unit, bus and execution-stamp components agree with the original. -/
theorem invS_congr_eq (trace : Nat → InstrStatic) (N c : Nat) (s s2 : State)
    (hq : s2.instr_queue = s.instr_queue) (hh : s2.ifq_head = s.ifq_head)
    (htl : s2.ifq_tail = s.ifq_tail) (hs : s2.instr_queue_size = s.instr_queue_size)
    (hri : s2.reservINT = s.reservINT) (hrf : s2.reservFP = s.reservFP)
    (hfi : s2.fuINT = s.fuINT) (hff : s2.fuFP = s.fuFP)
    (hfx : s2.fetch_index = s.fetch_index) (hex : s2.tom_execute_cycle = s.tom_execute_cycle)
    (hbus2 : s2.commonDataBus = s.commonDataBus)
    (hI : InvS trace N c s) : InvS trace N c s2 := by
  have hqs : ∀ p, qslot s2 p = qslot s p := by
    intro p
    unfold qslot qslotAt
    rw [hh]
  have hinQ : ∀ k, inQueue s2 k ↔ inQueue s k := inQueue_congr s s2 hq hh hs
  have hinRI : ∀ k, inRSINT s2 k ↔ inRSINT s k := by
    intro k
    unfold inRSINT
    rw [hri]
  have hinRF : ∀ k, inRSFP s2 k ↔ inRSFP s k := by
    intro k
    unfold inRSFP
    rw [hrf]
  have hinRS : ∀ k, inRS s2 k ↔ inRS s k := by
    intro k
    unfold inRS
    rw [hinRI k, hinRF k]
  have hinB : ∀ k, onBus s2 k ↔ onBus s k := by
    intro k
    unfold onBus
    rw [hbus2]
  refine
    { fi_le := by rw [hfx]; exact hI.fi_le
      size_le := by rw [hs]; exact hI.size_le
      tail_eq := by
        rw [htl, hs, hqs]
        exact hI.tail_eq
      qocc := by
        intro p hp
        rw [hs] at hp
        obtain ⟨k, hk⟩ := hI.qocc p hp
        refine ⟨k, ?_⟩
        rw [hq, hqs]
        exact hk
      qmono := by
        intro p1 p2 k1 k2 h12 h2 e1 e2
        rw [hs] at h2
        rw [hq, hqs] at e1 e2
        exact hI.qmono p1 p2 k1 k2 h12 h2 e1 e2
      qrange := by
        intro p k hp e
        rw [hs] at hp
        rw [hq, hqs] at e
        rw [hfx]
        exact hI.qrange p k hp e
      qop := by
        intro k hk
        exact hI.qop k ((hinQ k).mp hk)
      qexec0 := by
        intro k hk
        rw [hex]
        exact hI.qexec0 k ((hinQ k).mp hk)
      order := by
        intro m k hm hk
        rcases hm with hm | hm
        · exact hI.order m k (Or.inl ((hinRS m).mp hm)) ((hinQ k).mp hk)
        · exact hI.order m k (Or.inr ((hinB m).mp hm)) ((hinQ k).mp hk)
      rsIntClass := by
        intro k hk
        rw [hfx]
        exact hI.rsIntClass k ((hinRI k).mp hk)
      rsFpClass := by
        intro k hk
        rw [hfx]
        exact hI.rsFpClass k ((hinRF k).mp hk)
      q_rs := by
        intro k hk hr
        exact hI.q_rs k ((hinQ k).mp hk) ((hinRS k).mp hr)
      q_bus := by
        intro k hk hb
        exact hI.q_bus k ((hinQ k).mp hk) ((hinB k).mp hb)
      rs_bus := by
        intro k hk hb
        exact hI.rs_bus k ((hinRS k).mp hk) ((hinB k).mp hb)
      rsint_rsfp := by
        intro k hk hf
        exact hI.rsint_rsfp k ((hinRI k).mp hk) ((hinRF k).mp hf)
      rsIntDup := by
        intro j1 j2 k e1 e2
        rw [hri] at e1 e2
        exact hI.rsIntDup j1 j2 k e1 e2
      rsFpDup := by
        intro j1 j2 k e1 e2
        rw [hrf] at e1 e2
        exact hI.rsFpDup j1 j2 k e1 e2
      fuIntDup := by
        intro i1 i2 k e1 e2
        rw [hfi] at e1 e2
        exact hI.fuIntDup i1 i2 k e1 e2
      fuInt_rs := by
        intro k i e
        rw [hfi] at e
        obtain ⟨j, hj⟩ := hI.fuInt_rs k i e
        refine ⟨j, ?_⟩
        rw [hri]
        exact hj
      fuFp_rs := by
        intro k i e
        rw [hff] at e
        obtain ⟨j, hj⟩ := hI.fuFp_rs k i e
        refine ⟨j, ?_⟩
        rw [hrf]
        exact hj
      exec_iff_int := by
        intro k hk
        rw [hex, hfi]
        exact hI.exec_iff_int k ((hinRI k).mp hk)
      exec_iff_fp := by
        intro k hk
        rw [hex, hff]
        exact hI.exec_iff_fp k ((hinRF k).mp hk)
      exec_le := by
        intro k hk
        rw [hex]
        exact hI.exec_le k ((hinRS k).mp hk)
      bus_range := by
        intro k hb
        rw [hfx]
        exact hI.bus_range k ((hinB k).mp hb)
      fresh_exec := by
        intro k hk
        rw [hfx] at hk
        rw [hex]
        exact hI.fresh_exec k hk }

theorem cnt_filter_update_some {n : Nat} (f : Fin n → Option Nat) (j : Fin n) (v : Nat)
    (h : f j = none) :
    (Finset.univ.filter fun i => ((Function.update f j (some v)) i).isSome).card =
    (Finset.univ.filter fun i => (f i).isSome).card + 1 := by
  have hset : (Finset.univ.filter fun i => ((Function.update f j (some v)) i).isSome) =
      insert j (Finset.univ.filter fun i => (f i).isSome) := by
    ext x
    simp only [Finset.mem_filter, Finset.mem_univ, true_and, Finset.mem_insert]
    by_cases hx : x = j
    · subst hx
      simp [Function.update_same]
    · rw [Function.update_noteq hx]
      constructor
      · intro hs
        exact Or.inr hs
      · rintro (rfl | hs)
        · exact absurd rfl hx
        · exact hs
  rw [hset, Finset.card_insert_of_not_mem]
  simp [h]

theorem cnt_filter_update_none {n : Nat} (f : Fin n → Option Nat) (j : Fin n)
    (h : (f j).isSome = true) :
    (Finset.univ.filter fun i => ((Function.update f j none) i).isSome).card + 1 =
    (Finset.univ.filter fun i => (f i).isSome).card := by
  have hset : (Finset.univ.filter fun i => ((Function.update f j none) i).isSome) =
      (Finset.univ.filter fun i => (f i).isSome).erase j := by
    ext x
    simp only [Finset.mem_filter, Finset.mem_univ, true_and, Finset.mem_erase]
    by_cases hx : x = j
    · subst hx
      simp [Function.update_same]
    · rw [Function.update_noteq hx]
      tauto
  rw [hset]
  rw [Finset.card_erase_of_mem (by simp [h])]
  have hmem : j ∈ Finset.univ.filter fun i => (f i).isSome := by simp [h]
  have hpos : 0 < (Finset.univ.filter fun i => (f i).isSome).card :=
    Finset.card_pos.mpr ⟨j, hmem⟩
  omega

/-! ## Potential-function lemmas for the termination argument (claim C2) -/

theorem pot_of_unfetched (trace : Nat → InstrStatic) (cyc : Nat) (s : State) (k : Nat)
    (h : s.fetch_index < k) : pot trace cyc s k = 16 := by
  unfold pot
  rw [if_pos h]

theorem pot_of_queue (trace : Nat → InstrStatic) (cyc : Nat) (s : State) (k : Nat)
    (h1 : ¬s.fetch_index < k) (h2 : inQueue s k) : pot trace cyc s k = 15 := by
  unfold pot
  rw [if_neg h1, if_pos h2]

theorem pot_of_rs0 (trace : Nat → InstrStatic) (cyc : Nat) (s : State) (k : Nat)
    (h1 : ¬s.fetch_index < k) (h2 : ¬inQueue s k) (h3 : inRS s k)
    (h4 : s.tom_execute_cycle k = 0) : pot trace cyc s k = 14 := by
  unfold pot
  rw [if_neg h1, if_neg h2, if_pos ⟨h3, h4⟩]

theorem pot_of_exec (trace : Nat → InstrStatic) (cyc : Nat) (s : State) (k : Nat)
    (h1 : ¬s.fetch_index < k) (h2 : ¬inQueue s k) (h3 : inRS s k)
    (h4 : s.tom_execute_cycle k ≠ 0) :
    pot trace cyc s k = 4 + (s.tom_execute_cycle k + latOf trace k - cyc) := by
  unfold pot
  rw [if_neg h1, if_neg h2, if_neg (fun hc => h4 hc.2), if_pos h3]

theorem pot_of_bus (trace : Nat → InstrStatic) (cyc : Nat) (s : State) (k : Nat)
    (h1 : ¬s.fetch_index < k) (h2 : ¬inQueue s k) (h3 : ¬inRS s k)
    (h4 : onBus s k) : pot trace cyc s k = 3 := by
  unfold pot
  rw [if_neg h1, if_neg h2, if_neg (fun hc => h3 hc.1), if_neg h3, if_pos h4]

theorem pot_of_dead (trace : Nat → InstrStatic) (cyc : Nat) (s : State) (k : Nat)
    (h1 : ¬s.fetch_index < k) (h2 : ¬inQueue s k) (h3 : ¬inRS s k)
    (h4 : ¬onBus s k) : pot trace cyc s k = 0 := by
  unfold pot
  rw [if_neg h1, if_neg h2, if_neg (fun hc => h3 hc.1), if_neg h3, if_neg h4]

theorem latOf_le (trace : Nat → InstrStatic) (k : Nat) : latOf trace k ≤ 9 := by
  unfold latOf
  split
  · decide
  · decide

theorem latOf_pos (trace : Nat → InstrStatic) (k : Nat) : 1 ≤ latOf trace k := by
  unfold latOf
  split
  · decide
  · decide

theorem pot_mono_cyc (trace : Nat → InstrStatic) (cyc cyc2 : Nat) (s : State) (k : Nat)
    (h : cyc ≤ cyc2) : pot trace cyc2 s k ≤ pot trace cyc s k := by
  unfold pot
  split
  · exact Nat.le_refl _
  · split
    · exact Nat.le_refl _
    · split
      · exact Nat.le_refl _
      · split
        · omega
        · split
          · exact Nat.le_refl _
          · exact Nat.le_refl _

theorem pot_congr (trace : Nat → InstrStatic) (cyc : Nat) (s s2 : State) (k : Nat)
    (hfi : s2.fetch_index = s.fetch_index)
    (hq : inQueue s2 k ↔ inQueue s k)
    (hrs : inRS s2 k ↔ inRS s k)
    (hex : s2.tom_execute_cycle k = s.tom_execute_cycle k)
    (hb : onBus s2 k ↔ onBus s k) :
    pot trace cyc s2 k = pot trace cyc s k := by
  unfold pot
  rw [hfi, hex]
  by_cases h1 : s.fetch_index < k
  · rw [if_pos h1, if_pos h1]
  · rw [if_neg h1, if_neg h1]
    by_cases h2 : inQueue s k
    · rw [if_pos (hq.mpr h2), if_pos h2]
    · rw [if_neg (fun hh => h2 (hq.mp hh)), if_neg h2]
      by_cases h3 : inRS s k
      · by_cases h4 : s.tom_execute_cycle k = 0
        · rw [if_pos ⟨hrs.mpr h3, h4⟩, if_pos ⟨h3, h4⟩]
        · rw [if_neg (fun hc : inRS s2 k ∧ s.tom_execute_cycle k = 0 => h4 hc.2),
            if_neg (fun hc : inRS s k ∧ s.tom_execute_cycle k = 0 => h4 hc.2),
            if_pos (hrs.mpr h3), if_pos h3]
      · rw [if_neg (fun hc : inRS s2 k ∧ s.tom_execute_cycle k = 0 => h3 (hrs.mp hc.1)),
          if_neg (fun hc : inRS s k ∧ s.tom_execute_cycle k = 0 => h3 hc.1),
          if_neg (fun hc : inRS s2 k => h3 (hrs.mp hc)), if_neg h3]
        by_cases h5 : onBus s k
        · rw [if_pos (hb.mpr h5), if_pos h5]
        · rw [if_neg (fun hh => h5 (hb.mp hh)), if_neg h5]

/-- Admitting the queue head into a free floating-point reservation-station
slot (with `map_operands`) preserves both invariant layers. -/
theorem invSM_admit_fp (trace : Nat → InstrStatic) (N c2 cycle : Nat) (s : State)
    (h : Nat) (i : Fin 2)
    (hWF : WFb trace N = true)
    (hI : InvS trace N c2 s) (hM : InvM trace N s)
    (hpos : 0 < s.instr_queue_size)
    (hhead : s.instr_queue (qslot s 0) = some h)
    (hfp : USES_FP_FU (trace h).op = true)
    (hnu : (trace h).op.isUncondCtrl = false) (hnc : (trace h).op.isCondCtrl = false)
    (hfree : s.reservFP i = none) :
    InvS trace N c2 (map_operands trace h
      { s with reservFP := Function.update s.reservFP i (some h),
               tom_issue_cycle := Function.update s.tom_issue_cycle h cycle,
               ifq_head := s.ifq_head + 1,
               instr_queue_size := s.instr_queue_size - 1 }) ∧
    InvM trace N (map_operands trace h
      { s with reservFP := Function.update s.reservFP i (some h),
               tom_issue_cycle := Function.update s.tom_issue_cycle h cycle,
               ifq_head := s.ifq_head + 1,
               instr_queue_size := s.instr_queue_size - 1 }) ∧
    (∀ k, pot trace cycle (map_operands trace h
      { s with reservFP := Function.update s.reservFP i (some h),
               tom_issue_cycle := Function.update s.tom_issue_cycle h cycle,
               ifq_head := s.ifq_head + 1,
               instr_queue_size := s.instr_queue_size - 1 }) k ≤ pot trace cycle s k) ∧
    pot trace cycle (map_operands trace h
      { s with reservFP := Function.update s.reservFP i (some h),
               tom_issue_cycle := Function.update s.tom_issue_cycle h cycle,
               ifq_head := s.ifq_head + 1,
               instr_queue_size := s.instr_queue_size - 1 }) h + 1 ≤ pot trace cycle s h := by
  set sB : State :=
    { s with reservFP := Function.update s.reservFP i (some h),
             tom_issue_cycle := Function.update s.tom_issue_cycle h cycle,
             ifq_head := s.ifq_head + 1,
             instr_queue_size := s.instr_queue_size - 1 } with hsB
  set sA : State := map_operands trace h sB with hsA
  have hinQh : inQueue s h := ⟨0, hpos, hhead⟩
  have hrange := hI.qrange 0 h hpos hhead
  have htrap := hI.qop h hinQh
  have hnotRS := hI.q_rs h hinQh
  have hnotBus := hI.q_bus h hinQh
  have hexec0h := hI.qexec0 h hinQh
  have hOk := WFb_instrOk trace N hWF h hrange.1 (Nat.le_trans hrange.2 hI.fi_le)
  obtain ⟨hslots, hinQ⟩ :=
    inQueue_pop_iff trace N c2 s hI sB h rfl rfl rfl hpos hhead
  have hrfB : sB.reservFP = Function.update s.reservFP i (some h) := rfl
  have hrfB_at : ∀ j2, j2 ≠ i → sB.reservFP j2 = s.reservFP j2 := by
    intro j2 hj2
    rw [hrfB, Function.update_noteq hj2]
  have hrfBi : sB.reservFP i = some h := by
    rw [hrfB, Function.update_same]
  have hRFiff : ∀ k, inRSFP sB k ↔ (inRSFP s k ∨ k = h) := by
    intro k
    constructor
    · rintro ⟨j2, hj2⟩
      by_cases he : j2 = i
      · subst he
        rw [hrfBi] at hj2
        cases hj2
        exact Or.inr rfl
      · rw [hrfB_at j2 he] at hj2
        exact Or.inl ⟨j2, hj2⟩
    · rintro (⟨j2, hj2⟩ | rfl)
      · have he : j2 ≠ i := by
          intro he
          subst he
          rw [hfree] at hj2
          exact Option.noConfusion hj2
        refine ⟨j2, ?_⟩
        rw [hrfB_at j2 he]
        exact hj2
      · exact ⟨i, hrfBi⟩
  have hRSiff : ∀ k, inRS sB k ↔ (inRS s k ∨ k = h) := by
    intro k
    unfold inRS
    rw [hRFiff k]
    constructor
    · rintro (hk | (hk | rfl))
      · exact Or.inl (Or.inl hk)
      · exact Or.inl (Or.inr hk)
      · exact Or.inr rfl
    · rintro ((hk | hk) | rfl)
      · exact Or.inl hk
      · exact Or.inr (Or.inl hk)
      · exact Or.inr (Or.inr rfl)
  have hinQB : ∀ k, inQueue sB k → inQueue s k ∧ k ≠ h := fun k hk => (hinQ k).mp hk
  have hSB : InvS trace N c2 sB := by
    refine
      { fi_le := hI.fi_le
        size_le := by
          show s.instr_queue_size - 1 ≤ 10
          have := hI.size_le
          omega
        tail_eq := ?_
        qocc := ?_
        qmono := ?_
        qrange := ?_
        qop := fun k hk => hI.qop k (hinQB k hk).1
        qexec0 := fun k hk => hI.qexec0 k (hinQB k hk).1
        order := ?_
        rsIntClass := hI.rsIntClass
        rsFpClass := ?_
        q_rs := ?_
        q_bus := fun k hk => hI.q_bus k (hinQB k hk).1
        rs_bus := ?_
        rsint_rsfp := ?_
        rsIntDup := hI.rsIntDup
        rsFpDup := ?_
        fuIntDup := hI.fuIntDup
        fuInt_rs := hI.fuInt_rs
        fuFp_rs := ?_
        exec_iff_int := hI.exec_iff_int
        exec_iff_fp := ?_
        exec_le := ?_
        bus_range := hI.bus_range
        fresh_exec := hI.fresh_exec }
    · show s.ifq_tail = qslot sB (s.instr_queue_size - 1)
      rw [hslots (s.instr_queue_size - 1)]
      have he : s.instr_queue_size - 1 + 1 = s.instr_queue_size := by omega
      rw [he]
      exact hI.tail_eq
    · intro p hp
      have hp2 : p < s.instr_queue_size - 1 := hp
      rw [hslots p]
      exact hI.qocc (p + 1) (by omega)
    · intro p1 p2 k1 k2 h12 h2 e1 e2
      have h2b : p2 < s.instr_queue_size - 1 := h2
      rw [hslots p1] at e1
      rw [hslots p2] at e2
      exact hI.qmono (p1 + 1) (p2 + 1) k1 k2 (by omega) (by omega) e1 e2
    · intro p k hp e
      have hp2 : p < s.instr_queue_size - 1 := hp
      rw [hslots p] at e
      exact hI.qrange (p + 1) k (by omega) e
    · intro m k hm hk
      obtain ⟨hkq, hkh⟩ := hinQB k hk
      rcases hm with hm | hm
      · rcases (hRSiff m).mp hm with hm2 | rfl
        · exact hI.order m k (Or.inl hm2) hkq
        · obtain ⟨p, hp, he⟩ := hkq
          cases p with
          | zero =>
            rw [hhead] at he
            cases he
            exact absurd rfl hkh
          | succ p2 =>
            exact hI.qmono 0 (p2 + 1) m k (by omega) hp hhead he
      · exact hI.order m k (Or.inr hm) hkq
    · intro k hk
      rcases (hRFiff k).mp hk with hk2 | rfl
      · exact hI.rsFpClass k hk2
      · exact ⟨hfp, hnu, hnc, htrap, hrange.1, hrange.2⟩
    · intro k hk hr
      obtain ⟨hkq, hkh⟩ := hinQB k hk
      rcases (hRSiff k).mp hr with hr2 | rfl
      · exact hI.q_rs k hkq hr2
      · exact absurd rfl hkh
    · intro k hk hb
      rcases (hRSiff k).mp hk with hk2 | rfl
      · exact hI.rs_bus k hk2 hb
      · exact hnotBus hb
    · intro k hk hf
      rcases (hRFiff k).mp hf with hf2 | rfl
      · exact hI.rsint_rsfp k hk hf2
      · exact hnotRS (Or.inl hk)
    · intro j1 j2 k e1 e2
      by_cases h1 : j1 = i <;> by_cases h2 : j2 = i
      · rw [h1, h2]
      · subst h1
        rw [hrfBi] at e1
        cases e1
        rw [hrfB_at j2 h2] at e2
        exact absurd (Or.inr ⟨j2, e2⟩) hnotRS
      · subst h2
        rw [hrfBi] at e2
        cases e2
        rw [hrfB_at j1 h1] at e1
        exact absurd (Or.inr ⟨j1, e1⟩) hnotRS
      · rw [hrfB_at j1 h1] at e1
        rw [hrfB_at j2 h2] at e2
        exact hI.rsFpDup j1 j2 k e1 e2
    · intro k i2 e
      obtain ⟨j, hj⟩ := hI.fuFp_rs k i2 e
      have he : j ≠ i := by
        intro he
        subst he
        rw [hfree] at hj
        exact Option.noConfusion hj
      refine ⟨j, ?_⟩
      rw [hrfB_at j he]
      exact hj
    · intro k hk
      rcases (hRFiff k).mp hk with hk2 | rfl
      · exact hI.exec_iff_fp k hk2
      · constructor
        · intro hne
          exact absurd hexec0h hne
        · rintro ⟨i2, hi2⟩
          obtain ⟨j, hj⟩ := hI.fuFp_rs k i2 hi2
          exact absurd (Or.inr ⟨j, hj⟩) hnotRS
    · intro k hk
      rcases (hRSiff k).mp hk with hk2 | rfl
      · exact hI.exec_le k hk2
      · exact le_trans (le_of_eq hexec0h) (Nat.zero_le c2)
  have hframe := map_operands_frame trace h sB
  have hSA : InvS trace N c2 sA :=
    invS_congr_eq trace N c2 sB sA hframe.1 hframe.2.2.1 hframe.2.2.2.1 hframe.2.1
      hframe.2.2.2.2.1 hframe.2.2.2.2.2.1 hframe.2.2.2.2.2.2.1 hframe.2.2.2.2.2.2.2.1
      hframe.2.2.2.2.2.2.2.2.2.1 hframe.2.2.2.2.2.2.2.2.2.2.1
      hframe.2.2.2.2.2.2.2.2.1 hSB
  have hRSA : ∀ k, inRS sA k ↔ (inRS s k ∨ k = h) := by
    intro k
    rw [← hRSiff k, hsA]
    unfold inRS inRSINT inRSFP
    rw [hframe.2.2.2.2.1, hframe.2.2.2.2.2.1]
  have hbusA : sA.commonDataBus = s.commonDataBus := hframe.2.2.2.2.2.2.2.2.1
  have honA : ∀ k, onBus sA k ↔ onBus s k := by
    intro k
    unfold onBus
    rw [hbusA]
  have hexA : sA.tom_execute_cycle = s.tom_execute_cycle :=
    hframe.2.2.2.2.2.2.2.2.2.2.1
  have hWRh : ∀ j : Fin 2, (trace h).rOut j ≠ DNA → WRITES_CDB (trace h).op = true :=
    (instrOk_class _ hOk).2.2.2 htrap hnu hnc
  have hmtB : sB.map_table = s.map_table := rfl
  have hQB : sB.Q = s.Q := rfl
  have hfxA2 : sA.fetch_index = s.fetch_index := hframe.2.2.2.2.2.2.2.2.2.1
  have hQA : ∀ k, inQueue sA k ↔ (inQueue s k ∧ k ≠ h) := by
    intro k
    rw [inQueue_congr sB sA hframe.1 hframe.2.2.1 hframe.2.1 k]
    exact hinQ k
  have hnfh : ¬s.fetch_index < h := by
    have := hrange.2
    omega
  have hpoth : pot trace cycle sA h + 1 ≤ pot trace cycle s h := by
    have hps : pot trace cycle s h = 15 := pot_of_queue trace cycle s h hnfh hinQh
    have hpa : pot trace cycle sA h = 14 := by
      refine pot_of_rs0 trace cycle sA h ?_ ?_ ?_ ?_
      · rw [hfxA2]
        exact hnfh
      · intro hq
        exact ((hQA h).mp hq).2 rfl
      · exact (hRSA h).mpr (Or.inr rfl)
      · rw [hexA]
        exact hexec0h
    rw [hps, hpa]
  have hpotle : ∀ k, pot trace cycle sA k ≤ pot trace cycle s k := by
    intro k
    rcases eq_or_ne k h with rfl | hne
    · omega
    · refine le_of_eq (pot_congr trace cycle s sA k hfxA2 ?_ ?_ (by rw [hexA]) (honA k))
      · constructor
        · intro hq
          exact ((hQA k).mp hq).1
        · intro hq
          exact (hQA k).mpr ⟨hq, hne⟩
      · constructor
        · intro hr
          rcases (hRSA k).mp hr with hr2 | rfl
          · exact hr2
          · exact absurd rfl hne
        · intro hr
          exact (hRSA k).mpr (Or.inl hr)
  refine ⟨hSA, ?_, hpotle, hpoth⟩
  refine { mapwf := ?_, qwf := ?_, acct := ?_ }
  · intro r k hr
    rw [hsA, map_operands_map_table, hmtB] at hr
    split at hr
    · rename_i hc1
      have hk : k = h := (Option.some.inj hr).symm
      subst hk
      exact ⟨Or.inr hc1.2, fun hdna => hc1.1 (hc1.2.symm.trans hdna),
        Or.inl ((hRSA k).mpr (Or.inr rfl)), hWRh 1 hc1.1⟩
    · split at hr
      · rename_i hc2
        have hk : k = h := (Option.some.inj hr).symm
        subst hk
        exact ⟨Or.inl hc2.2, fun hdna => hc2.1 (hc2.2.symm.trans hdna),
          Or.inl ((hRSA k).mpr (Or.inr rfl)), hWRh 0 hc2.1⟩
      · obtain ⟨ha, hb, hc, hd⟩ := hM.mapwf r k hr
        refine ⟨ha, hb, ?_, hd⟩
        rcases hc with hc | hc
        · exact Or.inl ((hRSA k).mpr (Or.inl hc))
        · exact Or.inr ((honA k).mpr hc)
  · intro k j p hqe
    rw [hsA, map_operands_Q, hmtB, hQB] at hqe
    split at hqe
    · rename_i hc1
      obtain ⟨hkh, hdna⟩ := hc1
      subst hkh
      obtain ⟨ha, hb, hc, hd⟩ := hM.mapwf _ p hqe
      refine ⟨(hRSA k).mpr (Or.inr rfl), ?_, ?_, ?_, hd⟩
      · rw [hexA]
        exact hexec0h
      · rcases hc with hm | hm
        · exact Or.inl ((hRSA p).mpr (Or.inl hm))
        · exact Or.inr ((honA p).mpr hm)
      · exact hI.order p k hc hinQh
    · obtain ⟨hk1, hk2, hk3, hk4, hk5⟩ := hM.qwf k j p hqe
      refine ⟨(hRSA k).mpr (Or.inl hk1), ?_, ?_, hk4, hk5⟩
      · rw [hexA]
        exact hk2
      · rcases hk3 with hm | hm
        · exact Or.inl ((hRSA p).mpr (Or.inl hm))
        · exact Or.inr ((honA p).mpr hm)
  · have hdcA : sA.doneCount = s.doneCount := hframe.2.2.2.2.2.2.2.2.2.2.2
    have hszA : sA.instr_queue_size = s.instr_queue_size - 1 := hframe.2.1
    have hriA : sA.reservINT = s.reservINT := hframe.2.2.2.2.1
    have hrfA : sA.reservFP = sB.reservFP := hframe.2.2.2.2.2.1
    have hcntI : cntRSINT sA = cntRSINT s := by
      unfold cntRSINT
      rw [hriA]
    have hcntF : cntRSFP sA = cntRSFP s + 1 := by
      unfold cntRSFP
      rw [hrfA, hrfB]
      exact cnt_filter_update_some s.reservFP i h hfree
    have hbusC : busCnt sA = busCnt s := by
      unfold busCnt
      rw [hbusA]
    have hfxA : sA.fetch_index = s.fetch_index := hframe.2.2.2.2.2.2.2.2.2.1
    show sA.doneCount + sA.instr_queue_size + cntRSINT sA + cntRSFP sA + busCnt sA =
      sA.fetch_index
    rw [hdcA, hszA, hcntI, hcntF, hbusC, hfxA]
    have := hM.acct
    omega

/-- Admitting the queue head into a free integer reservation-station slot
(with `map_operands`) preserves both invariant layers. -/
theorem invSM_admit_int (trace : Nat → InstrStatic) (N c2 cycle : Nat) (s : State)
    (h : Nat) (i : Fin 4)
    (hWF : WFb trace N = true)
    (hI : InvS trace N c2 s) (hM : InvM trace N s)
    (hpos : 0 < s.instr_queue_size)
    (hhead : s.instr_queue (qslot s 0) = some h)
    (hint : USES_INT_FU (trace h).op = true)
    (hfpf : USES_FP_FU (trace h).op = false)
    (hnu : (trace h).op.isUncondCtrl = false) (hnc : (trace h).op.isCondCtrl = false)
    (hfree : s.reservINT i = none) :
    InvS trace N c2 (map_operands trace h
      { s with reservINT := Function.update s.reservINT i (some h),
               tom_issue_cycle := Function.update s.tom_issue_cycle h cycle,
               ifq_head := s.ifq_head + 1,
               instr_queue_size := s.instr_queue_size - 1 }) ∧
    InvM trace N (map_operands trace h
      { s with reservINT := Function.update s.reservINT i (some h),
               tom_issue_cycle := Function.update s.tom_issue_cycle h cycle,
               ifq_head := s.ifq_head + 1,
               instr_queue_size := s.instr_queue_size - 1 }) ∧
    (∀ k, pot trace cycle (map_operands trace h
      { s with reservINT := Function.update s.reservINT i (some h),
               tom_issue_cycle := Function.update s.tom_issue_cycle h cycle,
               ifq_head := s.ifq_head + 1,
               instr_queue_size := s.instr_queue_size - 1 }) k ≤ pot trace cycle s k) ∧
    pot trace cycle (map_operands trace h
      { s with reservINT := Function.update s.reservINT i (some h),
               tom_issue_cycle := Function.update s.tom_issue_cycle h cycle,
               ifq_head := s.ifq_head + 1,
               instr_queue_size := s.instr_queue_size - 1 }) h + 1 ≤ pot trace cycle s h := by
  set sB : State :=
    { s with reservINT := Function.update s.reservINT i (some h),
             tom_issue_cycle := Function.update s.tom_issue_cycle h cycle,
             ifq_head := s.ifq_head + 1,
             instr_queue_size := s.instr_queue_size - 1 } with hsB
  set sA : State := map_operands trace h sB with hsA
  have hinQh : inQueue s h := ⟨0, hpos, hhead⟩
  have hrange := hI.qrange 0 h hpos hhead
  have htrap := hI.qop h hinQh
  have hnotRS := hI.q_rs h hinQh
  have hnotBus := hI.q_bus h hinQh
  have hexec0h := hI.qexec0 h hinQh
  have hOk := WFb_instrOk trace N hWF h hrange.1 (Nat.le_trans hrange.2 hI.fi_le)
  obtain ⟨hslots, hinQ⟩ :=
    inQueue_pop_iff trace N c2 s hI sB h rfl rfl rfl hpos hhead
  have hriB : sB.reservINT = Function.update s.reservINT i (some h) := rfl
  have hriB_at : ∀ j2, j2 ≠ i → sB.reservINT j2 = s.reservINT j2 := by
    intro j2 hj2
    rw [hriB, Function.update_noteq hj2]
  have hriBi : sB.reservINT i = some h := by
    rw [hriB, Function.update_same]
  have hRIiff : ∀ k, inRSINT sB k ↔ (inRSINT s k ∨ k = h) := by
    intro k
    constructor
    · rintro ⟨j2, hj2⟩
      by_cases he : j2 = i
      · subst he
        rw [hriBi] at hj2
        cases hj2
        exact Or.inr rfl
      · rw [hriB_at j2 he] at hj2
        exact Or.inl ⟨j2, hj2⟩
    · rintro (⟨j2, hj2⟩ | rfl)
      · have he : j2 ≠ i := by
          intro he
          subst he
          rw [hfree] at hj2
          exact Option.noConfusion hj2
        refine ⟨j2, ?_⟩
        rw [hriB_at j2 he]
        exact hj2
      · exact ⟨i, hriBi⟩
  have hRSiff : ∀ k, inRS sB k ↔ (inRS s k ∨ k = h) := by
    intro k
    unfold inRS
    rw [hRIiff k]
    constructor
    · rintro ((hk | rfl) | hk)
      · exact Or.inl (Or.inl hk)
      · exact Or.inr rfl
      · exact Or.inl (Or.inr hk)
    · rintro ((hk | hk) | rfl)
      · exact Or.inl (Or.inl hk)
      · exact Or.inr hk
      · exact Or.inl (Or.inr rfl)
  have hinQB : ∀ k, inQueue sB k → inQueue s k ∧ k ≠ h := fun k hk => (hinQ k).mp hk
  have hSB : InvS trace N c2 sB := by
    refine
      { fi_le := hI.fi_le
        size_le := by
          show s.instr_queue_size - 1 ≤ 10
          have := hI.size_le
          omega
        tail_eq := ?_
        qocc := ?_
        qmono := ?_
        qrange := ?_
        qop := fun k hk => hI.qop k (hinQB k hk).1
        qexec0 := fun k hk => hI.qexec0 k (hinQB k hk).1
        order := ?_
        rsIntClass := ?_
        rsFpClass := hI.rsFpClass
        q_rs := ?_
        q_bus := fun k hk => hI.q_bus k (hinQB k hk).1
        rs_bus := ?_
        rsint_rsfp := ?_
        rsIntDup := ?_
        rsFpDup := hI.rsFpDup
        fuIntDup := hI.fuIntDup
        fuInt_rs := ?_
        fuFp_rs := hI.fuFp_rs
        exec_iff_int := ?_
        exec_iff_fp := hI.exec_iff_fp
        exec_le := ?_
        bus_range := hI.bus_range
        fresh_exec := hI.fresh_exec }
    · show s.ifq_tail = qslot sB (s.instr_queue_size - 1)
      rw [hslots (s.instr_queue_size - 1)]
      have he : s.instr_queue_size - 1 + 1 = s.instr_queue_size := by omega
      rw [he]
      exact hI.tail_eq
    · intro p hp
      have hp2 : p < s.instr_queue_size - 1 := hp
      rw [hslots p]
      exact hI.qocc (p + 1) (by omega)
    · intro p1 p2 k1 k2 h12 h2 e1 e2
      have h2b : p2 < s.instr_queue_size - 1 := h2
      rw [hslots p1] at e1
      rw [hslots p2] at e2
      exact hI.qmono (p1 + 1) (p2 + 1) k1 k2 (by omega) (by omega) e1 e2
    · intro p k hp e
      have hp2 : p < s.instr_queue_size - 1 := hp
      rw [hslots p] at e
      exact hI.qrange (p + 1) k (by omega) e
    · intro m k hm hk
      obtain ⟨hkq, hkh⟩ := hinQB k hk
      rcases hm with hm | hm
      · rcases (hRSiff m).mp hm with hm2 | rfl
        · exact hI.order m k (Or.inl hm2) hkq
        · obtain ⟨p, hp, he⟩ := hkq
          cases p with
          | zero =>
            rw [hhead] at he
            cases he
            exact absurd rfl hkh
          | succ p2 =>
            exact hI.qmono 0 (p2 + 1) m k (by omega) hp hhead he
      · exact hI.order m k (Or.inr hm) hkq
    · intro k hk
      rcases (hRIiff k).mp hk with hk2 | rfl
      · exact hI.rsIntClass k hk2
      · exact ⟨hint, hfpf, hnu, hnc, htrap, hrange.1, hrange.2⟩
    · intro k hk hr
      obtain ⟨hkq, hkh⟩ := hinQB k hk
      rcases (hRSiff k).mp hr with hr2 | rfl
      · exact hI.q_rs k hkq hr2
      · exact absurd rfl hkh
    · intro k hk hb
      rcases (hRSiff k).mp hk with hk2 | rfl
      · exact hI.rs_bus k hk2 hb
      · exact hnotBus hb
    · intro k hk hf
      rcases (hRIiff k).mp hk with hk2 | rfl
      · exact hI.rsint_rsfp k hk2 hf
      · exact hnotRS (Or.inr hf)
    · intro j1 j2 k e1 e2
      by_cases h1 : j1 = i <;> by_cases h2 : j2 = i
      · rw [h1, h2]
      · subst h1
        rw [hriBi] at e1
        cases e1
        rw [hriB_at j2 h2] at e2
        exact absurd (Or.inl ⟨j2, e2⟩) hnotRS
      · subst h2
        rw [hriBi] at e2
        cases e2
        rw [hriB_at j1 h1] at e1
        exact absurd (Or.inl ⟨j1, e1⟩) hnotRS
      · rw [hriB_at j1 h1] at e1
        rw [hriB_at j2 h2] at e2
        exact hI.rsIntDup j1 j2 k e1 e2
    · intro k i2 e
      obtain ⟨j, hj⟩ := hI.fuInt_rs k i2 e
      have he : j ≠ i := by
        intro he
        subst he
        rw [hfree] at hj
        exact Option.noConfusion hj
      refine ⟨j, ?_⟩
      rw [hriB_at j he]
      exact hj
    · intro k hk
      rcases (hRIiff k).mp hk with hk2 | rfl
      · exact hI.exec_iff_int k hk2
      · constructor
        · intro hne
          exact absurd hexec0h hne
        · rintro ⟨i2, hi2⟩
          obtain ⟨j, hj⟩ := hI.fuInt_rs k i2 hi2
          exact absurd (Or.inl ⟨j, hj⟩) hnotRS
    · intro k hk
      rcases (hRSiff k).mp hk with hk2 | rfl
      · exact hI.exec_le k hk2
      · exact le_trans (le_of_eq hexec0h) (Nat.zero_le c2)
  have hframe := map_operands_frame trace h sB
  have hSA : InvS trace N c2 sA :=
    invS_congr_eq trace N c2 sB sA hframe.1 hframe.2.2.1 hframe.2.2.2.1 hframe.2.1
      hframe.2.2.2.2.1 hframe.2.2.2.2.2.1 hframe.2.2.2.2.2.2.1 hframe.2.2.2.2.2.2.2.1
      hframe.2.2.2.2.2.2.2.2.2.1 hframe.2.2.2.2.2.2.2.2.2.2.1
      hframe.2.2.2.2.2.2.2.2.1 hSB
  have hRSA : ∀ k, inRS sA k ↔ (inRS s k ∨ k = h) := by
    intro k
    rw [← hRSiff k, hsA]
    unfold inRS inRSINT inRSFP
    rw [hframe.2.2.2.2.1, hframe.2.2.2.2.2.1]
  have hbusA : sA.commonDataBus = s.commonDataBus := hframe.2.2.2.2.2.2.2.2.1
  have honA : ∀ k, onBus sA k ↔ onBus s k := by
    intro k
    unfold onBus
    rw [hbusA]
  have hexA : sA.tom_execute_cycle = s.tom_execute_cycle :=
    hframe.2.2.2.2.2.2.2.2.2.2.1
  have hWRh : ∀ j : Fin 2, (trace h).rOut j ≠ DNA → WRITES_CDB (trace h).op = true :=
    (instrOk_class _ hOk).2.2.2 htrap hnu hnc
  have hmtB : sB.map_table = s.map_table := rfl
  have hQB : sB.Q = s.Q := rfl
  have hfxA2 : sA.fetch_index = s.fetch_index := hframe.2.2.2.2.2.2.2.2.2.1
  have hQA : ∀ k, inQueue sA k ↔ (inQueue s k ∧ k ≠ h) := by
    intro k
    rw [inQueue_congr sB sA hframe.1 hframe.2.2.1 hframe.2.1 k]
    exact hinQ k
  have hnfh : ¬s.fetch_index < h := by
    have := hrange.2
    omega
  have hpoth : pot trace cycle sA h + 1 ≤ pot trace cycle s h := by
    have hps : pot trace cycle s h = 15 := pot_of_queue trace cycle s h hnfh hinQh
    have hpa : pot trace cycle sA h = 14 := by
      refine pot_of_rs0 trace cycle sA h ?_ ?_ ?_ ?_
      · rw [hfxA2]
        exact hnfh
      · intro hq
        exact ((hQA h).mp hq).2 rfl
      · exact (hRSA h).mpr (Or.inr rfl)
      · rw [hexA]
        exact hexec0h
    rw [hps, hpa]
  have hpotle : ∀ k, pot trace cycle sA k ≤ pot trace cycle s k := by
    intro k
    rcases eq_or_ne k h with rfl | hne
    · omega
    · refine le_of_eq (pot_congr trace cycle s sA k hfxA2 ?_ ?_ (by rw [hexA]) (honA k))
      · constructor
        · intro hq
          exact ((hQA k).mp hq).1
        · intro hq
          exact (hQA k).mpr ⟨hq, hne⟩
      · constructor
        · intro hr
          rcases (hRSA k).mp hr with hr2 | rfl
          · exact hr2
          · exact absurd rfl hne
        · intro hr
          exact (hRSA k).mpr (Or.inl hr)
  refine ⟨hSA, ?_, hpotle, hpoth⟩
  refine { mapwf := ?_, qwf := ?_, acct := ?_ }
  · intro r k hr
    rw [hsA, map_operands_map_table, hmtB] at hr
    split at hr
    · rename_i hc1
      have hk : k = h := (Option.some.inj hr).symm
      subst hk
      exact ⟨Or.inr hc1.2, fun hdna => hc1.1 (hc1.2.symm.trans hdna),
        Or.inl ((hRSA k).mpr (Or.inr rfl)), hWRh 1 hc1.1⟩
    · split at hr
      · rename_i hc2
        have hk : k = h := (Option.some.inj hr).symm
        subst hk
        exact ⟨Or.inl hc2.2, fun hdna => hc2.1 (hc2.2.symm.trans hdna),
          Or.inl ((hRSA k).mpr (Or.inr rfl)), hWRh 0 hc2.1⟩
      · obtain ⟨ha, hb, hc, hd⟩ := hM.mapwf r k hr
        refine ⟨ha, hb, ?_, hd⟩
        rcases hc with hc | hc
        · exact Or.inl ((hRSA k).mpr (Or.inl hc))
        · exact Or.inr ((honA k).mpr hc)
  · intro k j p hqe
    rw [hsA, map_operands_Q, hmtB, hQB] at hqe
    split at hqe
    · rename_i hc1
      obtain ⟨hkh, hdna⟩ := hc1
      subst hkh
      obtain ⟨ha, hb, hc, hd⟩ := hM.mapwf _ p hqe
      refine ⟨(hRSA k).mpr (Or.inr rfl), ?_, ?_, ?_, hd⟩
      · rw [hexA]
        exact hexec0h
      · rcases hc with hm | hm
        · exact Or.inl ((hRSA p).mpr (Or.inl hm))
        · exact Or.inr ((honA p).mpr hm)
      · exact hI.order p k hc hinQh
    · obtain ⟨hk1, hk2, hk3, hk4, hk5⟩ := hM.qwf k j p hqe
      refine ⟨(hRSA k).mpr (Or.inl hk1), ?_, ?_, hk4, hk5⟩
      · rw [hexA]
        exact hk2
      · rcases hk3 with hm | hm
        · exact Or.inl ((hRSA p).mpr (Or.inl hm))
        · exact Or.inr ((honA p).mpr hm)
  · have hdcA : sA.doneCount = s.doneCount := hframe.2.2.2.2.2.2.2.2.2.2.2
    have hszA : sA.instr_queue_size = s.instr_queue_size - 1 := hframe.2.1
    have hriA : sA.reservINT = sB.reservINT := hframe.2.2.2.2.1
    have hrfA : sA.reservFP = s.reservFP := hframe.2.2.2.2.2.1
    have hcntI : cntRSINT sA = cntRSINT s + 1 := by
      unfold cntRSINT
      rw [hriA, hriB]
      exact cnt_filter_update_some s.reservINT i h hfree
    have hcntF : cntRSFP sA = cntRSFP s := by
      unfold cntRSFP
      rw [hrfA]
    have hbusC : busCnt sA = busCnt s := by
      unfold busCnt
      rw [hbusA]
    have hfxA : sA.fetch_index = s.fetch_index := hframe.2.2.2.2.2.2.2.2.2.1
    show sA.doneCount + sA.instr_queue_size + cntRSINT sA + cntRSFP sA + busCnt sA =
      sA.fetch_index
    rw [hdcA, hszA, hcntI, hcntF, hbusC, hfxA]
    have := hM.acct
    omega

/-! ## Retire-stage preservation of the map/await-slot invariant -/

theorem clearQIfBus_sub (b : Nat) (occ : Option Nat) (j : Fin 3)
    (Qm : Nat → Fin 3 → Option Nat) (k : Nat) (j2 : Fin 3) (p : Nat)
    (h : clearQIfBus b occ j Qm k j2 = some p) : Qm k j2 = some p := by
  cases occ with
  | none => exact h
  | some m =>
    have h2 : (if Qm m j = some b then setQ Qm m j none else Qm) k j2 = some p := h
    by_cases hq : Qm m j = some b
    · rw [if_pos hq, setQ_apply] at h2
      split at h2
      · exact Option.noConfusion h2
      · exact h2
    · rw [if_neg hq] at h2
      exact h2

theorem clearQIfBus_self (b m : Nat) (j : Fin 3) (Qm : Nat → Fin 3 → Option Nat) :
    clearQIfBus b (some m) j Qm m j ≠ some b := by
  show (if Qm m j = some b then setQ Qm m j none else Qm) m j ≠ some b
  by_cases hq : Qm m j = some b
  · rw [if_pos hq, setQ_apply, if_pos ⟨rfl, rfl⟩]
    exact fun h => Option.noConfusion h
  · rw [if_neg hq]
    exact hq

theorem clearQSlot_sub (b : Nat) (occ : Option Nat) (Qm : Nat → Fin 3 → Option Nat)
    (k : Nat) (j2 : Fin 3) (p : Nat)
    (h : clearQSlot b occ Qm k j2 = some p) : Qm k j2 = some p := by
  unfold clearQSlot at h
  exact clearQIfBus_sub b occ 0 Qm k j2 p
    (clearQIfBus_sub b occ 1 _ k j2 p (clearQIfBus_sub b occ 2 _ k j2 p h))

theorem clearQSlot_clears (b m : Nat) (Qm : Nat → Fin 3 → Option Nat) (j : Fin 3) :
    clearQSlot b (some m) Qm m j ≠ some b := by
  unfold clearQSlot
  have hj3 : ∀ jj : Fin 3, jj = 0 ∨ jj = 1 ∨ jj = 2 := by decide
  rcases hj3 j with rfl | rfl | rfl
  · intro h
    exact clearQIfBus_self b m 0 Qm
      (clearQIfBus_sub b (some m) 1 _ m 0 b (clearQIfBus_sub b (some m) 2 _ m 0 b h))
  · intro h
    exact clearQIfBus_self b m 1 _ (clearQIfBus_sub b (some m) 2 _ m 1 b h)
  · exact clearQIfBus_self b m 2 _

theorem clearMapFor_sub (b r : Nat) (mt : Nat → Option Nat) (r2 : Nat) (p : Nat)
    (h : clearMapFor b r mt r2 = some p) : mt r2 = some p := by
  have h2 : (if mt r = some b then Function.update mt r none else mt) r2 = some p := h
  by_cases hq : mt r = some b
  · rw [if_pos hq, Function.update_apply] at h2
    split at h2
    · exact Option.noConfusion h2
    · exact h2
  · rw [if_neg hq] at h2
    exact h2

theorem clearMapFor_self (b r : Nat) (mt : Nat → Option Nat) :
    clearMapFor b r mt r ≠ some b := by
  show (if mt r = some b then Function.update mt r none else mt) r ≠ some b
  by_cases hq : mt r = some b
  · rw [if_pos hq, Function.update_same]
    exact fun h => Option.noConfusion h
  · rw [if_neg hq]
    exact hq

theorem CDB_To_retire_some_char (trace : Nat → InstrStatic) (s : State) (b : Nat)
    (hb : s.commonDataBus = some b) :
    (CDB_To_retire trace s).map_table =
      clearMapFor b ((trace b).rOut 1) (clearMapFor b ((trace b).rOut 0) s.map_table) ∧
    (CDB_To_retire trace s).Q =
      clearQSlot b (s.reservFP 1) (clearQSlot b (s.reservFP 0) (clearQSlot b (s.reservINT 3)
        (clearQSlot b (s.reservINT 2) (clearQSlot b (s.reservINT 1)
          (clearQSlot b (s.reservINT 0) s.Q))))) := by
  unfold CDB_To_retire
  rw [hb]
  exact ⟨rfl, rfl⟩

theorem CDB_To_retire_invM (trace : Nat → InstrStatic) (N c : Nat) (s : State)
    (hI : InvS trace N c s) (hM : InvM trace N s) :
    InvM trace N (CDB_To_retire trace s) := by
  obtain ⟨e1, e2, e3, e4, e5, e6, e7, e8, e9, e10, e11, e12⟩ :=
    CDB_To_retire_effects trace s
  have hRSi : ∀ k, inRS (CDB_To_retire trace s) k ↔ inRS s k := by
    intro k
    unfold inRS inRSINT inRSFP
    rw [e5, e6]
  cases hb : s.commonDataBus with
  | none =>
    have hid : CDB_To_retire trace s = s := by
      unfold CDB_To_retire
      rw [hb]
    rw [hid]
    exact hM
  | some b =>
    obtain ⟨hmt, hQQ⟩ := CDB_To_retire_some_char trace s b hb
    have hmapsub : ∀ r p, (CDB_To_retire trace s).map_table r = some p →
        s.map_table r = some p := by
      intro r p h
      rw [hmt] at h
      exact clearMapFor_sub b _ _ r p (clearMapFor_sub b _ _ r p h)
    have hmapb : ∀ r, (CDB_To_retire trace s).map_table r ≠ some b := by
      intro r h
      have hs := hmapsub r b h
      obtain ⟨hout, -, -, -⟩ := hM.mapwf r b hs
      rw [hmt] at h
      rcases hout with hout | hout
      · subst hout
        exact clearMapFor_self b ((trace b).rOut 0) s.map_table
          (clearMapFor_sub b ((trace b).rOut 1) _ _ b h)
      · subst hout
        exact clearMapFor_self b ((trace b).rOut 1) _ h
    have hQsub : ∀ k j p, (CDB_To_retire trace s).Q k j = some p → s.Q k j = some p := by
      intro k j p h
      rw [hQQ] at h
      exact clearQSlot_sub b _ _ k j p (clearQSlot_sub b _ _ k j p
        (clearQSlot_sub b _ _ k j p (clearQSlot_sub b _ _ k j p
          (clearQSlot_sub b _ _ k j p (clearQSlot_sub b _ _ k j p h)))))
    have hQb : ∀ k j, inRS s k → (CDB_To_retire trace s).Q k j ≠ some b := by
      intro k j hk h
      rw [hQQ] at h
      have hj4 : ∀ jj : Fin 4, jj = 0 ∨ jj = 1 ∨ jj = 2 ∨ jj = 3 := by decide
      have hj2 : ∀ jj : Fin 2, jj = 0 ∨ jj = 1 := by decide
      rcases hk with ⟨j0, hj0⟩ | ⟨j0, hj0⟩
      · rcases hj4 j0 with rfl | rfl | rfl | rfl
        · rw [hj0] at h
          exact clearQSlot_clears b k s.Q j
            (clearQSlot_sub b _ _ k j b (clearQSlot_sub b _ _ k j b
              (clearQSlot_sub b _ _ k j b (clearQSlot_sub b _ _ k j b
                (clearQSlot_sub b _ _ k j b h)))))
        · rw [hj0] at h
          exact clearQSlot_clears b k _ j
            (clearQSlot_sub b _ _ k j b (clearQSlot_sub b _ _ k j b
              (clearQSlot_sub b _ _ k j b (clearQSlot_sub b _ _ k j b h))))
        · rw [hj0] at h
          exact clearQSlot_clears b k _ j
            (clearQSlot_sub b _ _ k j b (clearQSlot_sub b _ _ k j b
              (clearQSlot_sub b _ _ k j b h)))
        · rw [hj0] at h
          exact clearQSlot_clears b k _ j
            (clearQSlot_sub b _ _ k j b (clearQSlot_sub b _ _ k j b h))
      · rcases hj2 j0 with rfl | rfl
        · rw [hj0] at h
          exact clearQSlot_clears b k _ j (clearQSlot_sub b _ _ k j b h)
        · rw [hj0] at h
          exact clearQSlot_clears b k _ j h
    refine { mapwf := ?_, qwf := ?_, acct := ?_ }
    · intro r k hr
      obtain ⟨ha, hbne, hc, hd⟩ := hM.mapwf r k (hmapsub r k hr)
      refine ⟨ha, hbne, ?_, hd⟩
      rcases hc with hc | hc
      · exact Or.inl ((hRSi k).mpr hc)
      · have hc2 : s.commonDataBus = some k := hc
        rw [hb] at hc2
        cases Option.some.inj hc2
        exact absurd hr (hmapb r)
    · intro k j p hq
      obtain ⟨hk1, hk2, hk3, hk4, hk5⟩ := hM.qwf k j p (hQsub k j p hq)
      refine ⟨(hRSi k).mpr hk1, ?_, ?_, hk4, hk5⟩
      · rw [e10]
        exact hk2
      · rcases hk3 with hc | hc
        · exact Or.inl ((hRSi p).mpr hc)
        · have hc2 : s.commonDataBus = some p := hc
          rw [hb] at hc2
          cases Option.some.inj hc2
          exact absurd hq (hQb k j hk1)
    · have hbc : busCnt (CDB_To_retire trace s) = 0 := by
        unfold busCnt
        rw [e11]
        rfl
      have hci : cntRSINT (CDB_To_retire trace s) = cntRSINT s := by
        unfold cntRSINT
        rw [e5]
      have hcf : cntRSFP (CDB_To_retire trace s) = cntRSFP s := by
        unfold cntRSFP
        rw [e6]
      rw [e12, e2, e9, hbc, hci, hcf]
      have := hM.acct
      omega

/-- Pointwise potential non-increase across the retire stage, with the exact
values at the retiring instruction. -/
theorem CDB_To_retire_pot (trace : Nat → InstrStatic) (N c cyc : Nat) (s : State)
    (hI : InvS trace N c s) :
    (∀ k, pot trace cyc (CDB_To_retire trace s) k ≤ pot trace cyc s k) ∧
    (∀ b, s.commonDataBus = some b →
      pot trace cyc (CDB_To_retire trace s) b = 0 ∧ pot trace cyc s b = 3) := by
  obtain ⟨e1, e2, e3, e4, e5, e6, e7, e8, e9, e10, e11, e12⟩ :=
    CDB_To_retire_effects trace s
  have hqi := inQueue_congr s (CDB_To_retire trace s) e1 e3 e2
  have hRSi : ∀ k, inRS (CDB_To_retire trace s) k ↔ inRS s k := by
    intro k
    unfold inRS inRSINT inRSFP
    rw [e5, e6]
  have hbus0 : ∀ b, s.commonDataBus = some b →
      pot trace cyc (CDB_To_retire trace s) b = 0 ∧ pot trace cyc s b = 3 := by
    intro b hbb
    have honb : onBus s b := hbb
    have hqb := hI.q_bus b
    have hrsb : ¬inRS s b := fun hr => hI.rs_bus b hr honb
    have hnq : ¬inQueue s b := fun hq => hqb hq honb
    have hrange := hI.bus_range b honb
    have hnf : ¬s.fetch_index < b := by omega
    have hnf2 : ¬(CDB_To_retire trace s).fetch_index < b := by
      rw [e9]
      exact hnf
    constructor
    · refine pot_of_dead trace cyc _ b hnf2 (fun hq => hnq ((hqi b).mp hq))
        (fun hr => hrsb ((hRSi b).mp hr)) ?_
      intro hob
      rw [show onBus (CDB_To_retire trace s) b =
        ((CDB_To_retire trace s).commonDataBus = some b) from rfl, e11] at hob
      exact Option.noConfusion hob
    · exact pot_of_bus trace cyc s b hnf hnq hrsb honb
  refine ⟨?_, hbus0⟩
  intro k
  cases hbb : s.commonDataBus with
  | none =>
    have hob : ∀ k2, onBus (CDB_To_retire trace s) k2 ↔ onBus s k2 := by
      intro k2
      unfold onBus
      rw [e11, hbb]
    exact le_of_eq (pot_congr trace cyc s _ k e9 (hqi k) (hRSi k)
      (by rw [e10]) (hob k))
  | some b =>
    by_cases hkb : k = b
    · subst hkb
      obtain ⟨h0, h3⟩ := hbus0 k hbb
      rw [h0, h3]
      omega
    · have hob : onBus (CDB_To_retire trace s) k ↔ onBus s k := by
        unfold onBus
        rw [e11, hbb]
        constructor
        · intro h
          exact Option.noConfusion h
        · intro h
          exact absurd (Option.some.inj h).symm hkb
      exact le_of_eq (pot_congr trace cyc s _ k e9 (hqi k) (hRSi k)
        (by rw [e10]) hob)

/-! ## Issue-stage scan progress and preservation lemmas -/

theorem scanReadyINT_cons_none (s : State) (j : Fin 4) (rest : List (Fin 4))
    (best : Option Nat) (hocc : s.reservINT j = none) :
    scanReadyINT s (j :: rest) best = scanReadyINT s rest best := by
  conv_lhs => unfold scanReadyINT
  rw [hocc]

theorem scanReadyINT_cons_some (s : State) (j : Fin 4) (rest : List (Fin 4))
    (best : Option Nat) (m : Nat) (hocc : s.reservINT j = some m) :
    scanReadyINT s (j :: rest) best =
      if s.tom_execute_cycle m = 0 ∧ s.Q m 0 = none ∧ s.Q m 1 = none ∧ s.Q m 2 = none then
        match best with
        | none => scanReadyINT s rest (some m)
        | some b => if m < b then scanReadyINT s rest (some m) else scanReadyINT s rest best
      else scanReadyINT s rest best := by
  conv_lhs => unfold scanReadyINT
  rw [hocc]

theorem scanReadyFP_cons_none (s : State) (j : Fin 2) (rest : List (Fin 2))
    (best : Option Nat) (hocc : s.reservFP j = none) :
    scanReadyFP s (j :: rest) best = scanReadyFP s rest best := by
  conv_lhs => unfold scanReadyFP
  rw [hocc]

theorem scanReadyFP_cons_some (s : State) (j : Fin 2) (rest : List (Fin 2))
    (best : Option Nat) (m : Nat) (hocc : s.reservFP j = some m) :
    scanReadyFP s (j :: rest) best =
      if s.tom_execute_cycle m = 0 ∧ s.Q m 0 = none ∧ s.Q m 1 = none ∧ s.Q m 2 = none then
        match best with
        | none => scanReadyFP s rest (some m)
        | some b => if s.tom_dispatch_cycle m ≤ s.tom_dispatch_cycle b then
            scanReadyFP s rest (some m) else scanReadyFP s rest best
      else scanReadyFP s rest best := by
  conv_lhs => unfold scanReadyFP
  rw [hocc]

theorem scanReadyINT_best_some (s : State) :
    ∀ (L : List (Fin 4)) (b : Nat), ∃ w, scanReadyINT s L (some b) = some w := by
  intro L
  induction L with
  | nil =>
    intro b
    exact ⟨b, rfl⟩
  | cons j rest ih =>
    intro b
    cases hocc : s.reservINT j with
    | none =>
      rw [scanReadyINT_cons_none s j rest (some b) hocc]
      exact ih b
    | some m =>
      rw [scanReadyINT_cons_some s j rest (some b) m hocc]
      by_cases hr : s.tom_execute_cycle m = 0 ∧ s.Q m 0 = none ∧ s.Q m 1 = none ∧
          s.Q m 2 = none
      · rw [if_pos hr]
        show ∃ w, (if m < b then scanReadyINT s rest (some m)
          else scanReadyINT s rest (some b)) = some w
        by_cases hlt : m < b
        · rw [if_pos hlt]
          exact ih m
        · rw [if_neg hlt]
          exact ih b
      · rw [if_neg hr]
        exact ih b

theorem scanReadyFP_best_some (s : State) :
    ∀ (L : List (Fin 2)) (b : Nat), ∃ w, scanReadyFP s L (some b) = some w := by
  intro L
  induction L with
  | nil =>
    intro b
    exact ⟨b, rfl⟩
  | cons j rest ih =>
    intro b
    cases hocc : s.reservFP j with
    | none =>
      rw [scanReadyFP_cons_none s j rest (some b) hocc]
      exact ih b
    | some m =>
      rw [scanReadyFP_cons_some s j rest (some b) m hocc]
      by_cases hr : s.tom_execute_cycle m = 0 ∧ s.Q m 0 = none ∧ s.Q m 1 = none ∧
          s.Q m 2 = none
      · rw [if_pos hr]
        show ∃ w, (if s.tom_dispatch_cycle m ≤ s.tom_dispatch_cycle b then
          scanReadyFP s rest (some m) else scanReadyFP s rest (some b)) = some w
        by_cases hle : s.tom_dispatch_cycle m ≤ s.tom_dispatch_cycle b
        · rw [if_pos hle]
          exact ih m
        · rw [if_neg hle]
          exact ih b
      · rw [if_neg hr]
        exact ih b

theorem scanReadyINT_progress (s : State) :
    ∀ (L : List (Fin 4)) (best : Option Nat) (m : Nat), candINT s L m →
      ∃ w, scanReadyINT s L best = some w := by
  intro L
  induction L with
  | nil =>
    rintro best m ⟨j, hj, -⟩
    cases hj
  | cons j rest ih =>
    rintro best m ⟨j2, hj2, hocc, hready⟩
    rcases List.mem_cons.mp hj2 with rfl | hmem
    · obtain ⟨hr1, hr2, hr3, hr4⟩ := hready
      rw [scanReadyINT_cons_some s j2 rest best m hocc, if_pos ⟨hr1, hr2, hr3, hr4⟩]
      cases best with
      | none => exact scanReadyINT_best_some s rest m
      | some b =>
        show ∃ w, (if m < b then scanReadyINT s rest (some m)
          else scanReadyINT s rest (some b)) = some w
        by_cases hlt : m < b
        · rw [if_pos hlt]
          exact scanReadyINT_best_some s rest m
        · rw [if_neg hlt]
          exact scanReadyINT_best_some s rest b
    · cases hocc2 : s.reservINT j with
      | none =>
        rw [scanReadyINT_cons_none s j rest best hocc2]
        exact ih best m ⟨j2, hmem, hocc, hready⟩
      | some m2 =>
        rw [scanReadyINT_cons_some s j rest best m2 hocc2]
        by_cases hr : s.tom_execute_cycle m2 = 0 ∧ s.Q m2 0 = none ∧ s.Q m2 1 = none ∧
            s.Q m2 2 = none
        · rw [if_pos hr]
          cases best with
          | none => exact scanReadyINT_best_some s rest m2
          | some b =>
            show ∃ w, (if m2 < b then scanReadyINT s rest (some m2)
              else scanReadyINT s rest (some b)) = some w
            by_cases hlt : m2 < b
            · rw [if_pos hlt]
              exact scanReadyINT_best_some s rest m2
            · rw [if_neg hlt]
              exact scanReadyINT_best_some s rest b
        · rw [if_neg hr]
          exact ih best m ⟨j2, hmem, hocc, hready⟩

theorem scanReadyFP_progress (s : State) :
    ∀ (L : List (Fin 2)) (best : Option Nat) (m : Nat), candFP s L m →
      ∃ w, scanReadyFP s L best = some w := by
  intro L
  induction L with
  | nil =>
    rintro best m ⟨j, hj, -⟩
    cases hj
  | cons j rest ih =>
    rintro best m ⟨j2, hj2, hocc, hready⟩
    rcases List.mem_cons.mp hj2 with rfl | hmem
    · obtain ⟨hr1, hr2, hr3, hr4⟩ := hready
      rw [scanReadyFP_cons_some s j2 rest best m hocc, if_pos ⟨hr1, hr2, hr3, hr4⟩]
      cases best with
      | none => exact scanReadyFP_best_some s rest m
      | some b =>
        show ∃ w, (if s.tom_dispatch_cycle m ≤ s.tom_dispatch_cycle b then
          scanReadyFP s rest (some m) else scanReadyFP s rest (some b)) = some w
        by_cases hle : s.tom_dispatch_cycle m ≤ s.tom_dispatch_cycle b
        · rw [if_pos hle]
          exact scanReadyFP_best_some s rest m
        · rw [if_neg hle]
          exact scanReadyFP_best_some s rest b
    · cases hocc2 : s.reservFP j with
      | none =>
        rw [scanReadyFP_cons_none s j rest best hocc2]
        exact ih best m ⟨j2, hmem, hocc, hready⟩
      | some m2 =>
        rw [scanReadyFP_cons_some s j rest best m2 hocc2]
        by_cases hr : s.tom_execute_cycle m2 = 0 ∧ s.Q m2 0 = none ∧ s.Q m2 1 = none ∧
            s.Q m2 2 = none
        · rw [if_pos hr]
          cases best with
          | none => exact scanReadyFP_best_some s rest m2
          | some b =>
            show ∃ w, (if s.tom_dispatch_cycle m2 ≤ s.tom_dispatch_cycle b then
              scanReadyFP s rest (some m2) else scanReadyFP s rest (some b)) = some w
            by_cases hle : s.tom_dispatch_cycle m2 ≤ s.tom_dispatch_cycle b
            · rw [if_pos hle]
              exact scanReadyFP_best_some s rest m2
            · rw [if_neg hle]
              exact scanReadyFP_best_some s rest b
        · rw [if_neg hr]
          exact ih best m ⟨j2, hmem, hocc, hready⟩

/-- The map/await-slot and accounting invariant survives issuing the ready
occupant `m` into a functional-unit slot (the only changed components are
`tom_execute_cycle m` and a functional-unit slot, neither of which carries
an await-slot of a ready instruction). -/
theorem invM_issue_upd (trace : Nat → InstrStatic) (N cycle : Nat) (s s2 : State) (m : Nat)
    (hM : InvM trace N s)
    (hmt : s2.map_table = s.map_table) (hQ : s2.Q = s.Q)
    (hri : s2.reservINT = s.reservINT) (hrf : s2.reservFP = s.reservFP)
    (hbus : s2.commonDataBus = s.commonDataBus)
    (hdc : s2.doneCount = s.doneCount) (hsz : s2.instr_queue_size = s.instr_queue_size)
    (hfx : s2.fetch_index = s.fetch_index)
    (hex : s2.tom_execute_cycle = Function.update s.tom_execute_cycle m cycle)
    (hq0 : s.Q m 0 = none) (hq1 : s.Q m 1 = none) (hq2 : s.Q m 2 = none) :
    InvM trace N s2 := by
  have hRSi : ∀ k, inRS s2 k ↔ inRS s k := by
    intro k
    unfold inRS inRSINT inRSFP
    rw [hri, hrf]
  have hBi : ∀ k, onBus s2 k ↔ onBus s k := by
    intro k
    unfold onBus
    rw [hbus]
  refine { mapwf := ?_, qwf := ?_, acct := ?_ }
  · intro r k hr
    rw [hmt] at hr
    obtain ⟨ha, hb, hc, hd⟩ := hM.mapwf r k hr
    refine ⟨ha, hb, ?_, hd⟩
    rcases hc with hc | hc
    · exact Or.inl ((hRSi k).mpr hc)
    · exact Or.inr ((hBi k).mpr hc)
  · intro k j p hq
    rw [hQ] at hq
    obtain ⟨hk1, hk2, hk3, hk4, hk5⟩ := hM.qwf k j p hq
    have hkm : k ≠ m := by
      intro he
      subst he
      have hj3 : ∀ jj : Fin 3, jj = 0 ∨ jj = 1 ∨ jj = 2 := by decide
      rcases hj3 j with rfl | rfl | rfl
      · rw [hq0] at hq
        exact Option.noConfusion hq
      · rw [hq1] at hq
        exact Option.noConfusion hq
      · rw [hq2] at hq
        exact Option.noConfusion hq
    refine ⟨(hRSi k).mpr hk1, ?_, ?_, hk4, hk5⟩
    · rw [hex, Function.update_noteq hkm]
      exact hk2
    · rcases hk3 with hc | hc
      · exact Or.inl ((hRSi p).mpr hc)
      · exact Or.inr ((hBi p).mpr hc)
  · have hci : cntRSINT s2 = cntRSINT s := by
      unfold cntRSINT
      rw [hri]
    have hcf : cntRSFP s2 = cntRSFP s := by
      unfold cntRSFP
      rw [hrf]
    have hbc : busCnt s2 = busCnt s := by
      unfold busCnt
      rw [hbus]
    rw [hdc, hsz, hci, hcf, hbc, hfx]
    exact hM.acct

theorem issueSlotINT_invM (trace : Nat → InstrStatic) (N cycle : Nat) (s : State)
    (i : Fin 2) (hM : InvM trace N s) : InvM trace N (issueSlotINT cycle s i) := by
  unfold issueSlotINT
  cases hfu : s.fuINT i with
  | some m => exact hM
  | none =>
    cases hscan : scanReadyINT s [0, 1, 2, 3] none with
    | none => exact hM
    | some m =>
      obtain ⟨hmem, -, -⟩ := scanReadyINT_some s [0, 1, 2, 3] none m hscan
      rcases hmem with h1 | ⟨j0, -, hj0, hready⟩
      · exact Option.noConfusion h1
      · exact invM_issue_upd trace N cycle s _ m hM rfl rfl rfl rfl rfl rfl rfl rfl rfl
          hready.2.1 hready.2.2.1 hready.2.2.2

theorem issueSlotFP_invM (trace : Nat → InstrStatic) (N cycle : Nat) (s : State)
    (i : Fin 1) (hM : InvM trace N s) : InvM trace N (issueSlotFP cycle s i) := by
  unfold issueSlotFP
  cases hfu : s.fuFP i with
  | some m => exact hM
  | none =>
    cases hscan : scanReadyFP s [0, 1] none with
    | none => exact hM
    | some m =>
      obtain ⟨hmem, -, -⟩ := scanReadyFP_some s [0, 1] none m hscan
      rcases hmem with h1 | ⟨j0, -, hj0, hready⟩
      · exact Option.noConfusion h1
      · exact invM_issue_upd trace N cycle s _ m hM rfl rfl rfl rfl rfl rfl rfl rfl rfl
          hready.2.1 hready.2.2.1 hready.2.2.2

theorem issue_To_execute_invM (trace : Nat → InstrStatic) (N cycle : Nat) (s : State)
    (hM : InvM trace N s) : InvM trace N (issue_To_execute cycle s) := by
  unfold issue_To_execute
  exact issueSlotFP_invM trace N cycle _ 0
    (issueSlotINT_invM trace N cycle _ 1 (issueSlotINT_invM trace N cycle s 0 hM))

/-- Potential drop of the instruction issued to a functional unit at the
current cycle: from level 14 to at most 13. -/
theorem pot_issue_point (trace : Nat → InstrStatic) (cycle : Nat) (s s2 : State) (m : Nat)
    (hfi : s2.fetch_index = s.fetch_index)
    (hq : inQueue s2 m ↔ inQueue s m) (hrs : inRS s2 m ↔ inRS s m)
    (hex2 : s2.tom_execute_cycle m = cycle) (hcyc : 1 ≤ cycle)
    (hmrs : inRS s m) (hex0 : s.tom_execute_cycle m = 0)
    (hnq : ¬inQueue s m) (hnf : ¬s.fetch_index < m) :
    pot trace cycle s2 m + 1 ≤ pot trace cycle s m := by
  rw [pot_of_rs0 trace cycle s m hnf hnq hmrs hex0,
    pot_of_exec trace cycle s2 m (by rw [hfi]; exact hnf) (fun hh => hnq (hq.mp hh))
      (hrs.mpr hmrs) (by rw [hex2]; omega), hex2]
  have := latOf_le trace m
  omega

theorem issueSlotINT_eq_act (cycle : Nat) (s : State) (i : Fin 2) (w : Nat)
    (hfu : s.fuINT i = none) (hw : scanReadyINT s [0, 1, 2, 3] none = some w) :
    issueSlotINT cycle s i =
      { s with tom_execute_cycle := Function.update s.tom_execute_cycle w cycle,
               fuINT := Function.update s.fuINT i (some w) } := by
  unfold issueSlotINT
  rw [hfu, hw]

theorem issueSlotFP_eq_act (cycle : Nat) (s : State) (i : Fin 1) (w : Nat)
    (hfu : s.fuFP i = none) (hw : scanReadyFP s [0, 1] none = some w) :
    issueSlotFP cycle s i =
      { s with tom_execute_cycle := Function.update s.tom_execute_cycle w cycle,
               fuFP := Function.update s.fuFP i (some w) } := by
  unfold issueSlotFP
  rw [hfu, hw]

theorem issueSlotINT_eq_skip (cycle : Nat) (s : State) (i : Fin 2) :
    ((∃ m, s.fuINT i = some m) ∨ (s.fuINT i = none ∧ scanReadyINT s [0, 1, 2, 3] none = none)) →
    issueSlotINT cycle s i = s := by
  rintro (⟨m, hm⟩ | ⟨hfu, hscan⟩)
  · unfold issueSlotINT
    rw [hm]
  · unfold issueSlotINT
    rw [hfu, hscan]

theorem issueSlotFP_eq_skip (cycle : Nat) (s : State) (i : Fin 1) :
    ((∃ m, s.fuFP i = some m) ∨ (s.fuFP i = none ∧ scanReadyFP s [0, 1] none = none)) →
    issueSlotFP cycle s i = s := by
  rintro (⟨m, hm⟩ | ⟨hfu, hscan⟩)
  · unfold issueSlotFP
    rw [hm]
  · unfold issueSlotFP
    rw [hfu, hscan]

theorem issueSlotINT_pot (trace : Nat → InstrStatic) (N c cycle : Nat) (s : State)
    (i : Fin 2) (hI : InvS trace N c s) (hcyc : 1 ≤ cycle) (k : Nat) :
    pot trace cycle (issueSlotINT cycle s i) k ≤ pot trace cycle s k := by
  cases hfu : s.fuINT i with
  | some m =>
    rw [issueSlotINT_eq_skip cycle s i (Or.inl ⟨m, hfu⟩)]
  | none =>
    cases hscan : scanReadyINT s [0, 1, 2, 3] none with
    | none =>
      rw [issueSlotINT_eq_skip cycle s i (Or.inr ⟨hfu, hscan⟩)]
    | some m =>
      rw [issueSlotINT_eq_act cycle s i m hfu hscan]
      obtain ⟨hmem, -, -⟩ := scanReadyINT_some s [0, 1, 2, 3] none m hscan
      rcases hmem with h1 | ⟨j0, -, hj0, hready⟩
      · exact Option.noConfusion h1
      · by_cases hkm : k = m
        · subst hkm
          have hmrs : inRS s k := Or.inl ⟨j0, hj0⟩
          have hcls := hI.rsIntClass k ⟨j0, hj0⟩
          have h14 := pot_issue_point trace cycle s
              { s with tom_execute_cycle := Function.update s.tom_execute_cycle k cycle,
                       fuINT := Function.update s.fuINT i (some k) } k rfl Iff.rfl Iff.rfl
              (by show Function.update s.tom_execute_cycle k cycle k = cycle
                  rw [Function.update_same])
              hcyc hmrs hready.1 (fun hq => hI.q_rs k hq hmrs) (by omega)
          omega
        · refine le_of_eq (pot_congr trace cycle s _ k rfl Iff.rfl Iff.rfl ?_ Iff.rfl)
          show Function.update s.tom_execute_cycle m cycle k = s.tom_execute_cycle k
          rw [Function.update_noteq hkm]

theorem issueSlotFP_pot (trace : Nat → InstrStatic) (N c cycle : Nat) (s : State)
    (i : Fin 1) (hI : InvS trace N c s) (hcyc : 1 ≤ cycle) (k : Nat) :
    pot trace cycle (issueSlotFP cycle s i) k ≤ pot trace cycle s k := by
  cases hfu : s.fuFP i with
  | some m =>
    rw [issueSlotFP_eq_skip cycle s i (Or.inl ⟨m, hfu⟩)]
  | none =>
    cases hscan : scanReadyFP s [0, 1] none with
    | none =>
      rw [issueSlotFP_eq_skip cycle s i (Or.inr ⟨hfu, hscan⟩)]
    | some m =>
      rw [issueSlotFP_eq_act cycle s i m hfu hscan]
      obtain ⟨hmem, -, -⟩ := scanReadyFP_some s [0, 1] none m hscan
      rcases hmem with h1 | ⟨j0, -, hj0, hready⟩
      · exact Option.noConfusion h1
      · by_cases hkm : k = m
        · subst hkm
          have hmrs : inRS s k := Or.inr ⟨j0, hj0⟩
          have hcls := hI.rsFpClass k ⟨j0, hj0⟩
          have h14 := pot_issue_point trace cycle s
              { s with tom_execute_cycle := Function.update s.tom_execute_cycle k cycle,
                       fuFP := Function.update s.fuFP i (some k) } k rfl Iff.rfl Iff.rfl
              (by show Function.update s.tom_execute_cycle k cycle k = cycle
                  rw [Function.update_same])
              hcyc hmrs hready.1 (fun hq => hI.q_rs k hq hmrs) (by omega)
          omega
        · refine le_of_eq (pot_congr trace cycle s _ k rfl Iff.rfl Iff.rfl ?_ Iff.rfl)
          show Function.update s.tom_execute_cycle m cycle k = s.tom_execute_cycle k
          rw [Function.update_noteq hkm]

theorem issue_To_execute_pot (trace : Nat → InstrStatic) (N c cycle : Nat) (s : State)
    (hI : InvS trace N c s) (hcyc : 1 ≤ cycle) (hcle : cycle ≤ c) (k : Nat) :
    pot trace cycle (issue_To_execute cycle s) k ≤ pot trace cycle s k := by
  unfold issue_To_execute
  have hI1 : InvS trace N c (issueSlotINT cycle s 0) :=
    issueSlotINT_invS trace N c cycle s 0 hI hcyc hcle
  have hI2 : InvS trace N c (issueSlotINT cycle (issueSlotINT cycle s 0) 1) :=
    issueSlotINT_invS trace N c cycle _ 1 hI1 hcyc hcle
  exact Nat.le_trans (issueSlotFP_pot trace N c cycle _ 0 hI2 hcyc k)
    (Nat.le_trans (issueSlotINT_pot trace N c cycle _ 1 hI1 hcyc k)
      (issueSlotINT_pot trace N c cycle s 0 hI hcyc k))

theorem issueSlotINT_fuFP (cycle : Nat) (s : State) (i : Fin 2) :
    (issueSlotINT cycle s i).fuFP = s.fuFP := by
  unfold issueSlotINT
  cases s.fuINT i
  · cases scanReadyINT s [0, 1, 2, 3] none
    · rfl
    · rfl
  · rfl

theorem candFP_issueSlotINT (trace : Nat → InstrStatic) (N c cycle : Nat) (s : State)
    (i : Fin 2) (hI : InvS trace N c s) (m : Nat) (hc : candFP s [0, 1] m) :
    candFP (issueSlotINT cycle s i) [0, 1] m := by
  unfold issueSlotINT
  cases hfu : s.fuINT i with
  | some w => exact hc
  | none =>
    cases hscan : scanReadyINT s [0, 1, 2, 3] none with
    | none => exact hc
    | some w =>
      obtain ⟨hmem, -, -⟩ := scanReadyINT_some s [0, 1, 2, 3] none w hscan
      rcases hmem with h1 | ⟨j0, -, hj0, -⟩
      · exact Option.noConfusion h1
      · obtain ⟨j2, hj2, hocc, hready⟩ := hc
        have hwm : w ≠ m := by
          intro he
          subst he
          exact hI.rsint_rsfp w ⟨j0, hj0⟩ ⟨j2, hocc⟩
        refine ⟨j2, hj2, hocc, ?_, hready.2.1, hready.2.2.1, hready.2.2.2⟩
        show Function.update s.tom_execute_cycle w cycle m = 0
        rw [Function.update_noteq (fun he => hwm he.symm)]
        exact hready.1

theorem issueSlotINT_strict (trace : Nat → InstrStatic) (N c cycle : Nat) (s : State)
    (hI : InvS trace N c s) (hcyc : 1 ≤ cycle)
    (hfu : s.fuINT 0 = none) (m0 : Nat) (hcand : candINT s [0, 1, 2, 3] m0) :
    ∃ m, pot trace cycle (issueSlotINT cycle s 0) m + 1 ≤ pot trace cycle s m := by
  obtain ⟨w, hw⟩ := scanReadyINT_progress s [0, 1, 2, 3] none m0 hcand
  obtain ⟨hmem, -, -⟩ := scanReadyINT_some s [0, 1, 2, 3] none w hw
  rcases hmem with h1 | ⟨j0, -, hj0, hready⟩
  · exact Option.noConfusion h1
  · refine ⟨w, ?_⟩
    rw [issueSlotINT_eq_act cycle s 0 w hfu hw]
    have hmrs : inRS s w := Or.inl ⟨j0, hj0⟩
    have hcls := hI.rsIntClass w ⟨j0, hj0⟩
    exact pot_issue_point trace cycle s _ w rfl Iff.rfl Iff.rfl
      (by show Function.update s.tom_execute_cycle w cycle w = cycle
          rw [Function.update_same])
      hcyc hmrs hready.1 (fun hq => hI.q_rs w hq hmrs) (by omega)

theorem issueSlotFP_strict (trace : Nat → InstrStatic) (N c cycle : Nat) (s : State)
    (hI : InvS trace N c s) (hcyc : 1 ≤ cycle)
    (hfu : s.fuFP 0 = none) (m0 : Nat) (hcand : candFP s [0, 1] m0) :
    ∃ m, pot trace cycle (issueSlotFP cycle s 0) m + 1 ≤ pot trace cycle s m := by
  obtain ⟨w, hw⟩ := scanReadyFP_progress s [0, 1] none m0 hcand
  obtain ⟨hmem, -, -⟩ := scanReadyFP_some s [0, 1] none w hw
  rcases hmem with h1 | ⟨j0, -, hj0, hready⟩
  · exact Option.noConfusion h1
  · refine ⟨w, ?_⟩
    rw [issueSlotFP_eq_act cycle s 0 w hfu hw]
    have hmrs : inRS s w := Or.inr ⟨j0, hj0⟩
    have hcls := hI.rsFpClass w ⟨j0, hj0⟩
    exact pot_issue_point trace cycle s _ w rfl Iff.rfl Iff.rfl
      (by show Function.update s.tom_execute_cycle w cycle w = cycle
          rw [Function.update_same])
      hcyc hmrs hready.1 (fun hq => hI.q_rs w hq hmrs) (by omega)

theorem issue_To_execute_strict (trace : Nat → InstrStatic) (N c cycle : Nat) (s : State)
    (hI : InvS trace N c s) (hcyc : 1 ≤ cycle) (hcle : cycle ≤ c)
    (hfuI : s.fuINT 0 = none) (hfuF : s.fuFP 0 = none) (m0 : Nat)
    (hcand : candINT s [0, 1, 2, 3] m0 ∨ candFP s [0, 1] m0) :
    ∃ m, pot trace cycle (issue_To_execute cycle s) m + 1 ≤ pot trace cycle s m := by
  unfold issue_To_execute
  have hI1 : InvS trace N c (issueSlotINT cycle s 0) :=
    issueSlotINT_invS trace N c cycle s 0 hI hcyc hcle
  have hI2 : InvS trace N c (issueSlotINT cycle (issueSlotINT cycle s 0) 1) :=
    issueSlotINT_invS trace N c cycle _ 1 hI1 hcyc hcle
  rcases hcand with hcand | hcand
  · obtain ⟨m, hm⟩ := issueSlotINT_strict trace N c cycle s hI hcyc hfuI m0 hcand
    refine ⟨m, ?_⟩
    have h1 := issueSlotFP_pot trace N c cycle _ 0 hI2 hcyc m
    have h2 := issueSlotINT_pot trace N c cycle _ 1 hI1 hcyc m
    omega
  · have hc1 : candFP (issueSlotINT cycle s 0) [0, 1] m0 :=
      candFP_issueSlotINT trace N c cycle s 0 hI m0 hcand
    have hc2 : candFP (issueSlotINT cycle (issueSlotINT cycle s 0) 1) [0, 1] m0 :=
      candFP_issueSlotINT trace N c cycle _ 1 hI1 m0 hc1
    have hf2 : (issueSlotINT cycle (issueSlotINT cycle s 0) 1).fuFP 0 = none := by
      rw [issueSlotINT_fuFP, issueSlotINT_fuFP]
      exact hfuF
    obtain ⟨m, hm⟩ := issueSlotFP_strict trace N c cycle _ hI2 hcyc hf2 m0 hc2
    refine ⟨m, ?_⟩
    have h1 := issueSlotINT_pot trace N c cycle _ 1 hI1 hcyc m
    have h2 := issueSlotINT_pot trace N c cycle s 0 hI hcyc m
    omega

/-! ## Dispatch-stage wrapper: success, preservation, potential facts -/

theorem firstFreeSlot_progress {n : Nat} (slots : Fin n → Option Nat) :
    ∀ L : List (Fin n), (∃ i, i ∈ L ∧ slots i = none) →
      ∃ w, firstFreeSlot slots L = some w := by
  intro L
  induction L with
  | nil =>
    rintro ⟨i, hi, -⟩
    cases hi
  | cons j rest ih =>
    rintro ⟨i, hi, hfree⟩
    unfold firstFreeSlot
    by_cases hj : slots j = none
    · rw [if_pos hj]
      exact ⟨j, rfl⟩
    · rw [if_neg hj]
      rcases List.mem_cons.mp hi with rfl | hmem
      · exact absurd hfree hj
      · exact ih ⟨i, hmem, hfree⟩

/-- Potential facts for popping the queue head: the popped instruction drops
from 15 to 0, everything else is unchanged. -/
theorem pot_pop (trace : Nat → InstrStatic) (N c2 cyc : Nat) (s sp : State) (h : Nat)
    (hI : InvS trace N c2 s)
    (hq : sp.instr_queue = s.instr_queue) (hh : sp.ifq_head = s.ifq_head + 1)
    (hsz : sp.instr_queue_size = s.instr_queue_size - 1)
    (hfx : sp.fetch_index = s.fetch_index)
    (hri : sp.reservINT = s.reservINT) (hrf : sp.reservFP = s.reservFP)
    (hex : sp.tom_execute_cycle = s.tom_execute_cycle)
    (hbus : sp.commonDataBus = s.commonDataBus)
    (hpos : 0 < s.instr_queue_size)
    (hhead : s.instr_queue (qslot s 0) = some h) :
    (∀ k, pot trace cyc sp k ≤ pot trace cyc s k) ∧
    pot trace cyc sp h + 1 ≤ pot trace cyc s h := by
  obtain ⟨hslots, hinQ⟩ := inQueue_pop_iff trace N c2 s hI sp h hq hh hsz hpos hhead
  have hinQh : inQueue s h := ⟨0, hpos, hhead⟩
  have hrange := hI.qrange 0 h hpos hhead
  have hnfh : ¬s.fetch_index < h := by
    have := hrange.2
    omega
  have hRSi : ∀ k, inRS sp k ↔ inRS s k := by
    intro k
    unfold inRS inRSINT inRSFP
    rw [hri, hrf]
  have hBi : ∀ k, onBus sp k ↔ onBus s k := by
    intro k
    unfold onBus
    rw [hbus]
  have hpoth : pot trace cyc sp h + 1 ≤ pot trace cyc s h := by
    have hps : pot trace cyc s h = 15 := pot_of_queue trace cyc s h hnfh hinQh
    have hpa : pot trace cyc sp h = 0 := by
      refine pot_of_dead trace cyc sp h ?_ ?_ ?_ ?_
      · rw [hfx]
        exact hnfh
      · intro hqq
        exact ((hinQ h).mp hqq).2 rfl
      · intro hr
        exact hI.q_rs h hinQh ((hRSi h).mp hr)
      · intro hb
        exact hI.q_bus h hinQh ((hBi h).mp hb)
    rw [hps, hpa]
    omega
  refine ⟨?_, hpoth⟩
  intro k
  rcases eq_or_ne k h with rfl | hne
  · omega
  · refine le_of_eq (pot_congr trace cyc s sp k hfx ?_ (hRSi k) (by rw [hex]) (hBi k))
    constructor
    · intro hqq
      exact ((hinQ k).mp hqq).1
    · intro hqq
      exact (hinQ k).mpr ⟨hqq, hne⟩

/-- The dispatch stage always succeeds on an invariant-holding state fed a
well-formed trace; it preserves both invariants, never increases any
instruction's potential, leaves the functional units, bus, fetch index and
execution stamps untouched, and acts (a strict potential drop) whenever the
queue is nonempty and both reservation-station banks have a free slot. -/
theorem dispatch_To_issue_invSM (trace : Nat → InstrStatic) (N c2 cycle : Nat) (s : State)
    (hWF : WFb trace N = true) (hI : InvS trace N c2 s) (hM : InvM trace N s) :
    ∃ s2, dispatch_To_issue trace cycle s = some s2 ∧ InvS trace N c2 s2 ∧ InvM trace N s2 ∧
      (∀ k, pot trace cycle s2 k ≤ pot trace cycle s k) ∧
      s2.fuINT = s.fuINT ∧ s2.fuFP = s.fuFP ∧
      s2.commonDataBus = s.commonDataBus ∧ s2.fetch_index = s.fetch_index ∧
      s2.tom_execute_cycle = s.tom_execute_cycle ∧
      (0 < s.instr_queue_size → (∃ i : Fin 4, s.reservINT i = none) →
        (∃ i : Fin 2, s.reservFP i = none) →
        ∃ m, pot trace cycle s2 m + 1 ≤ pot trace cycle s m) := by
  unfold dispatch_To_issue
  split
  · rename_i hpos
    have hq0 : qslot s 0 = s.ifq_head := qslotAt_zero s.ifq_head
    split
    · rename_i hhd
      obtain ⟨k0, hk0⟩ := hI.qocc 0 hpos
      rw [hq0, hhd] at hk0
      exact Option.noConfusion hk0
    · rename_i h hhd
      have hhead : s.instr_queue (qslot s 0) = some h := by
        rw [hq0]
        exact hhd
      have hinQh : inQueue s h := ⟨0, hpos, hhead⟩
      have hrange := hI.qrange 0 h hpos hhead
      have htrap := hI.qop h hinQh
      have hOk := WFb_instrOk trace N hWF h hrange.1 (Nat.le_trans hrange.2 hI.fi_le)
      split
      · rename_i hctrl
        obtain ⟨hS, hMM⟩ := invSM_pop_ctrl trace N c2 s h hI hM hpos hhead
        obtain ⟨hple, hpstrict⟩ := pot_pop trace N c2 cycle s
          { s with ifq_head := s.ifq_head + 1,
                   instr_queue_size := s.instr_queue_size - 1,
                   doneCount := s.doneCount + 1 }
          h hI rfl rfl rfl rfl rfl rfl rfl rfl hpos hhead
        exact ⟨_, rfl, hS, hMM, hple, rfl, rfl, rfl, rfl, rfl,
          fun _ _ _ => ⟨h, hpstrict⟩⟩
      · rename_i hctrl
        have hnu : (trace h).op.isUncondCtrl = false := by
          rcases Bool.eq_false_or_eq_true (trace h).op.isUncondCtrl with ht | hf
          · exact absurd (by rw [ht, Bool.true_or]) hctrl
          · exact hf
        have hnc : (trace h).op.isCondCtrl = false := by
          rcases Bool.eq_false_or_eq_true (trace h).op.isCondCtrl with ht | hf
          · exact absurd (by rw [ht, Bool.or_true]) hctrl
          · exact hf
        split
        · rename_i hfp
          split
          · rename_i hff
            refine ⟨s, rfl, hI, hM, fun k => Nat.le_refl _, rfl, rfl, rfl, rfl, rfl, ?_⟩
            intro _ _ hfree
            obtain ⟨i, hi⟩ := hfree
            obtain ⟨w, hw⟩ := firstFreeSlot_progress s.reservFP [0, 1] ⟨i, allFin2_mem i, hi⟩
            rw [hff] at hw
            exact Option.noConfusion hw
          · rename_i i hff
            obtain ⟨hifree, -⟩ := firstFreeSlot_spec s.reservFP [0, 1] i hff
            obtain ⟨hS, hMM, hple, hpstrict⟩ :=
              invSM_admit_fp trace N c2 cycle s h i hWF hI hM hpos hhead hfp hnu hnc hifree
            have hfr := map_operands_frame trace h
              { s with reservFP := Function.update s.reservFP i (some h),
                       tom_issue_cycle := Function.update s.tom_issue_cycle h cycle,
                       ifq_head := s.ifq_head + 1,
                       instr_queue_size := s.instr_queue_size - 1 }
            exact ⟨_, rfl, hS, hMM, hple, hfr.2.2.2.2.2.2.1, hfr.2.2.2.2.2.2.2.1,
              hfr.2.2.2.2.2.2.2.2.1, hfr.2.2.2.2.2.2.2.2.2.1, hfr.2.2.2.2.2.2.2.2.2.2.1,
              fun _ _ _ => ⟨h, hpstrict⟩⟩
        · rename_i hfp
          split
          · rename_i hint
            have hfpf : USES_FP_FU (trace h).op = false := by
              rcases Bool.eq_false_or_eq_true (USES_FP_FU (trace h).op) with ht | hf
              · exact absurd ht hfp
              · exact hf
            split
            · rename_i hff
              refine ⟨s, rfl, hI, hM, fun k => Nat.le_refl _, rfl, rfl, rfl, rfl, rfl, ?_⟩
              intro _ hfree _
              obtain ⟨i, hi⟩ := hfree
              obtain ⟨w, hw⟩ := firstFreeSlot_progress s.reservINT [0, 1, 2, 3]
                ⟨i, allFin4_mem i, hi⟩
              rw [hff] at hw
              exact Option.noConfusion hw
            · rename_i i hff
              obtain ⟨hifree, -⟩ := firstFreeSlot_spec s.reservINT [0, 1, 2, 3] i hff
              obtain ⟨hS, hMM, hple, hpstrict⟩ :=
                invSM_admit_int trace N c2 cycle s h i hWF hI hM hpos hhead hint hfpf
                  hnu hnc hifree
              have hfr := map_operands_frame trace h
                { s with reservINT := Function.update s.reservINT i (some h),
                         tom_issue_cycle := Function.update s.tom_issue_cycle h cycle,
                         ifq_head := s.ifq_head + 1,
                         instr_queue_size := s.instr_queue_size - 1 }
              exact ⟨_, rfl, hS, hMM, hple, hfr.2.2.2.2.2.2.1, hfr.2.2.2.2.2.2.2.1,
                hfr.2.2.2.2.2.2.2.2.1, hfr.2.2.2.2.2.2.2.2.2.1, hfr.2.2.2.2.2.2.2.2.2.2.1,
                fun _ _ _ => ⟨h, hpstrict⟩⟩
          · rename_i hint
            rcases (instrOk_class _ hOk).1 with h1 | h1 | h1 | h1 | h1
            · rw [htrap] at h1
              exact Bool.noConfusion h1
            · rw [hnu] at h1
              exact Bool.noConfusion h1
            · rw [hnc] at h1
              exact Bool.noConfusion h1
            · exact absurd h1 hint
            · exact absurd h1 hfp
  · rename_i hpos
    exact ⟨s, rfl, hI, hM, fun k => Nat.le_refl _, rfl, rfl, rfl, rfl, rfl,
      fun hp _ _ => absurd hp hpos⟩

/-! ## Fetch-stage lemmas -/

theorem qslotAt_succ_fin (h : Fin 10) (p : Nat) : qslotAt h p + 1 = qslotAt h (p + 1) := by
  apply Fin.ext
  rw [Fin.val_add, qslotAt_val, qslotAt_val]
  have hh : h.val < 10 := h.isLt
  have h1 : (1 : Fin 10).val = 1 := rfl
  rw [h1]
  omega

/-- `pot` transfer along membership equivalences (the fetch index may move as
long as it stays on the same side of `k`). -/
theorem pot_congr_iff (trace : Nat → InstrStatic) (cyc : Nat) (s s2 : State) (k : Nat)
    (hfi : s2.fetch_index < k ↔ s.fetch_index < k)
    (hq : inQueue s2 k ↔ inQueue s k)
    (hrs : inRS s2 k ↔ inRS s k)
    (hex : s2.tom_execute_cycle k = s.tom_execute_cycle k)
    (hb : onBus s2 k ↔ onBus s k) :
    pot trace cyc s2 k = pot trace cyc s k := by
  unfold pot
  rw [hex]
  by_cases h1 : s.fetch_index < k
  · rw [if_pos (hfi.mpr h1), if_pos h1]
  · rw [if_neg (fun hh => h1 (hfi.mp hh)), if_neg h1]
    by_cases h2 : inQueue s k
    · rw [if_pos (hq.mpr h2), if_pos h2]
    · rw [if_neg (fun hh => h2 (hq.mp hh)), if_neg h2]
      by_cases h3 : inRS s k
      · by_cases h4 : s.tom_execute_cycle k = 0
        · rw [if_pos ⟨hrs.mpr h3, h4⟩, if_pos ⟨h3, h4⟩]
        · rw [if_neg (fun hc : inRS s2 k ∧ s.tom_execute_cycle k = 0 => h4 hc.2),
            if_neg (fun hc : inRS s k ∧ s.tom_execute_cycle k = 0 => h4 hc.2),
            if_pos (hrs.mpr h3), if_pos h3]
      · rw [if_neg (fun hc : inRS s2 k ∧ s.tom_execute_cycle k = 0 => h3 (hrs.mp hc.1)),
          if_neg (fun hc : inRS s k ∧ s.tom_execute_cycle k = 0 => h3 hc.1),
          if_neg (fun hc : inRS s2 k => h3 (hrs.mp hc)), if_neg h3]
        by_cases h5 : onBus s k
        · rw [if_pos (hb.mpr h5), if_pos h5]
        · rw [if_neg (fun hh => h5 (hb.mp hh)), if_neg h5]

/-- Appending one instruction at the tail of the (non-full) queue window:
the old positions keep their entries, the new position holds the new
instruction, and the membership predicate grows by exactly that
instruction. -/
theorem inQueue_push_iff (trace : Nat → InstrStatic) (N c2 : Nat) (s : State)
    (hI : InvS trace N c2 s) (s2 : State) (f : Nat)
    (hq : s2.instr_queue = Function.update s.instr_queue s.ifq_tail (some f))
    (hh : s2.ifq_head = s.ifq_head)
    (hsz : s2.instr_queue_size = s.instr_queue_size + 1)
    (hszlt : s.instr_queue_size < 10) :
    (∀ p, p < s.instr_queue_size → s2.instr_queue (qslot s2 p) = s.instr_queue (qslot s p)) ∧
    s2.instr_queue (qslot s2 s.instr_queue_size) = some f ∧
    (∀ k, inQueue s2 k ↔ (inQueue s k ∨ k = f)) := by
  have hqs : ∀ p, qslot s2 p = qslot s p := by
    intro p
    unfold qslot
    rw [hh]
  have hold : ∀ p, p < s.instr_queue_size →
      s2.instr_queue (qslot s2 p) = s.instr_queue (qslot s p) := by
    intro p hp
    rw [hqs p, hq]
    have hne : qslot s p ≠ s.ifq_tail := by
      rw [hI.tail_eq]
      intro he
      have := qslotAt_inj s.ifq_head p s.instr_queue_size (by omega) hszlt he
      omega
    rw [Function.update_noteq hne]
  have hnew : s2.instr_queue (qslot s2 s.instr_queue_size) = some f := by
    rw [hqs _, hq, ← hI.tail_eq, Function.update_same]
  refine ⟨hold, hnew, ?_⟩
  intro k
  constructor
  · rintro ⟨p, hp, he⟩
    rw [hsz] at hp
    by_cases hps : p < s.instr_queue_size
    · rw [hold p hps] at he
      exact Or.inl ⟨p, hps, he⟩
    · have hpe : p = s.instr_queue_size := by omega
      subst hpe
      rw [hnew] at he
      cases he
      exact Or.inr rfl
  · rintro (⟨p, hp, he⟩ | rfl)
    · refine ⟨p, by omega, ?_⟩
      rw [hold p hp]
      exact he
    · exact ⟨s.instr_queue_size, by omega, hnew⟩

/-- The trap-skipping fetch loop, under a well-formed trace whose last
instruction is not a trap, stops at the first non-trap index: it stays in
range, counts exactly the skipped traps as retired, and every skipped index
is a trap. -/
theorem fetchLoop_spec (trace : Nat → InstrStatic) (N : Nat) (hWF : WFb trace N = true) :
    ∀ (ffuel fi dc : Nat) (req : List Nat), fi < N → N - fi < ffuel →
      ∃ fi2 dc2 req2, fetchLoop trace ffuel fi dc req = some (fi2, dc2, req2) ∧
        fi < fi2 ∧ fi2 ≤ N ∧ (trace fi2).op.isTrap = false ∧
        dc2 + fi + 1 = dc + fi2 ∧
        (∀ k, fi < k → k < fi2 → (trace k).op.isTrap = true) := by
  intro ffuel
  induction ffuel with
  | zero =>
    intro fi dc req hfi hfuel
    omega
  | succ ffuel ih =>
    intro fi dc req hfi hfuel
    unfold fetchLoop
    by_cases htr : (trace (fi + 1)).op.isTrap = true
    · rw [if_pos htr]
      have hfi1 : fi + 1 < N := by
        rcases Nat.lt_or_ge (fi + 1) N with hlt | hge
        · exact hlt
        · have heq : fi + 1 = N := by omega
          have hlast := WFb_last trace N hWF (by omega)
          rw [heq] at htr
          rw [hlast] at htr
          exact Bool.noConfusion htr
      obtain ⟨fi2, dc2, req2, hrec, hgt, hle, hnt, hdc, htraps⟩ :=
        ih (fi + 1) (dc + 1) (req ++ [fi + 1]) hfi1 (by omega)
      refine ⟨fi2, dc2, req2, hrec, by omega, hle, hnt, by omega, ?_⟩
      intro k hk1 hk2
      by_cases hke : k = fi + 1
      · subst hke
        exact htr
      · exact htraps k (by omega) hk2
    · rw [if_neg htr]
      refine ⟨fi + 1, dc, req ++ [fi + 1], rfl, by omega, by omega, ?_, by omega, ?_⟩
      · rcases Bool.eq_false_or_eq_true (trace (fi + 1)).op.isTrap with ht | hf
        · exact absurd ht htr
        · exact hf
      · intro k hk1 hk2
        omega

/-- Appending the freshly fetched instruction `fi2` (skipping `dc2 - doneCount`
traps) preserves both invariant layers, never raises a potential, and drops
the fetched instruction's potential from 16 to 15. -/
theorem invSM_push (trace : Nat → InstrStatic) (N c2 cyc : Nat) (s sF : State)
    (fi2 dc2 : Nat)
    (hI : InvS trace N c2 s) (hM : InvM trace N s)
    (hq : sF.instr_queue = Function.update s.instr_queue s.ifq_tail (some fi2))
    (hh : sF.ifq_head = s.ifq_head)
    (htl : sF.ifq_tail = s.ifq_tail + 1)
    (hsz : sF.instr_queue_size = s.instr_queue_size + 1)
    (hfx : sF.fetch_index = fi2) (hdcF : sF.doneCount = dc2)
    (hri : sF.reservINT = s.reservINT) (hrf : sF.reservFP = s.reservFP)
    (hfuI : sF.fuINT = s.fuINT) (hfuF : sF.fuFP = s.fuFP)
    (hbus : sF.commonDataBus = s.commonDataBus)
    (hmt : sF.map_table = s.map_table) (hQ : sF.Q = s.Q)
    (hex : sF.tom_execute_cycle = s.tom_execute_cycle)
    (hszlt : s.instr_queue_size < 10)
    (hgt : s.fetch_index < fi2) (hle : fi2 ≤ N)
    (hnt : (trace fi2).op.isTrap = false)
    (hdc : dc2 + s.fetch_index + 1 = s.doneCount + fi2) :
    InvS trace N c2 sF ∧ InvM trace N sF ∧
    (∀ k, pot trace cyc sF k ≤ pot trace cyc s k) ∧
    pot trace cyc sF fi2 + 1 ≤ pot trace cyc s fi2 := by
  obtain ⟨hold, hnew, hiff⟩ := inQueue_push_iff trace N c2 s hI sF fi2 hq hh hsz hszlt
  have hqs : ∀ p, qslot sF p = qslot s p := by
    intro p
    unfold qslot
    rw [hh]
  have hRSi : ∀ k, inRS sF k ↔ inRS s k := by
    intro k
    unfold inRS inRSINT inRSFP
    rw [hri, hrf]
  have hBi : ∀ k, onBus sF k ↔ onBus s k := by
    intro k
    unfold onBus
    rw [hbus]
  have hrs_bd : ∀ k, inRS s k → k ≤ s.fetch_index := by
    intro k hk
    rcases hk with hk | hk
    · exact (hI.rsIntClass k hk).2.2.2.2.2.2
    · exact (hI.rsFpClass k hk).2.2.2.2.2
  have hnrs2 : ¬inRS s fi2 := by
    intro hk
    have := hrs_bd fi2 hk
    omega
  have hnbus2 : ¬onBus s fi2 := by
    intro hk
    have := (hI.bus_range fi2 hk).2
    omega
  have hnq2 : ¬inQueue s fi2 := by
    rintro ⟨p, hp, he⟩
    have := (hI.qrange p fi2 hp he).2
    omega
  have hS : InvS trace N c2 sF := by
    refine
      { fi_le := by rw [hfx]; exact hle
        size_le := by rw [hsz]; omega
        tail_eq := ?_
        qocc := ?_
        qmono := ?_
        qrange := ?_
        qop := ?_
        qexec0 := ?_
        order := ?_
        rsIntClass := ?_
        rsFpClass := ?_
        q_rs := ?_
        q_bus := ?_
        rs_bus := ?_
        rsint_rsfp := ?_
        rsIntDup := ?_
        rsFpDup := ?_
        fuIntDup := ?_
        fuInt_rs := ?_
        fuFp_rs := ?_
        exec_iff_int := ?_
        exec_iff_fp := ?_
        exec_le := ?_
        bus_range := ?_
        fresh_exec := ?_ }
    · rw [htl, hsz, hI.tail_eq, hqs]
      unfold qslot
      exact qslotAt_succ_fin s.ifq_head s.instr_queue_size
    · intro p hp
      rw [hsz] at hp
      by_cases hps : p < s.instr_queue_size
      · obtain ⟨k, hk⟩ := hI.qocc p hps
        refine ⟨k, ?_⟩
        rw [hold p hps]
        exact hk
      · have hpe : p = s.instr_queue_size := by omega
        subst hpe
        exact ⟨fi2, hnew⟩
    · intro p1 p2 k1 k2 h12 h2 e1 e2
      rw [hsz] at h2
      by_cases h2s : p2 < s.instr_queue_size
      · rw [hold p1 (by omega)] at e1
        rw [hold p2 h2s] at e2
        exact hI.qmono p1 p2 k1 k2 h12 h2s e1 e2
      · have hpe : p2 = s.instr_queue_size := by omega
        subst hpe
        rw [hnew] at e2
        cases e2
        rw [hold p1 (by omega)] at e1
        have := (hI.qrange p1 k1 (by omega) e1).2
        omega
    · intro p k hp e
      rw [hsz] at hp
      by_cases hps : p < s.instr_queue_size
      · rw [hold p hps] at e
        have := hI.qrange p k hps e
        rw [hfx]
        omega
      · have hpe : p = s.instr_queue_size := by omega
        subst hpe
        rw [hnew] at e
        cases e
        rw [hfx]
        omega
    · intro k hk
      rcases (hiff k).mp hk with hk2 | rfl
      · exact hI.qop k hk2
      · exact hnt
    · intro k hk
      rw [hex]
      rcases (hiff k).mp hk with hk2 | rfl
      · exact hI.qexec0 k hk2
      · exact hI.fresh_exec k hgt
    · intro m k hm hk
      have hms : inRS s m ∨ onBus s m := by
        rcases hm with hm | hm
        · exact Or.inl ((hRSi m).mp hm)
        · exact Or.inr ((hBi m).mp hm)
      rcases (hiff k).mp hk with hk2 | rfl
      · exact hI.order m k hms hk2
      · rcases hms with hm2 | hm2
        · have := hrs_bd m hm2
          omega
        · have := (hI.bus_range m hm2).2
          omega
    · intro k hk
      have hk2 : inRSINT s k := by
        unfold inRSINT at hk ⊢
        rw [hri] at hk
        exact hk
      obtain ⟨h1, h2, h3, h4, h5, h6, h7⟩ := hI.rsIntClass k hk2
      exact ⟨h1, h2, h3, h4, h5, h6, by rw [hfx]; omega⟩
    · intro k hk
      have hk2 : inRSFP s k := by
        unfold inRSFP at hk ⊢
        rw [hrf] at hk
        exact hk
      obtain ⟨h1, h2, h3, h4, h5, h6⟩ := hI.rsFpClass k hk2
      exact ⟨h1, h2, h3, h4, h5, by rw [hfx]; omega⟩
    · intro k hk hr
      have hr2 := (hRSi k).mp hr
      rcases (hiff k).mp hk with hk2 | rfl
      · exact hI.q_rs k hk2 hr2
      · exact hnrs2 hr2
    · intro k hk hb
      have hb2 := (hBi k).mp hb
      rcases (hiff k).mp hk with hk2 | rfl
      · exact hI.q_bus k hk2 hb2
      · exact hnbus2 hb2
    · intro k hk
      intro hb
      exact hI.rs_bus k ((hRSi k).mp hk) ((hBi k).mp hb)
    · intro k hk
      intro hf
      have hk2 : inRSINT s k := by
        unfold inRSINT at hk ⊢
        rw [hri] at hk
        exact hk
      have hf2 : inRSFP s k := by
        unfold inRSFP at hf ⊢
        rw [hrf] at hf
        exact hf
      exact hI.rsint_rsfp k hk2 hf2
    · intro j1 j2 k e1 e2
      rw [hri] at e1 e2
      exact hI.rsIntDup j1 j2 k e1 e2
    · intro j1 j2 k e1 e2
      rw [hrf] at e1 e2
      exact hI.rsFpDup j1 j2 k e1 e2
    · intro i1 i2 k e1 e2
      rw [hfuI] at e1 e2
      exact hI.fuIntDup i1 i2 k e1 e2
    · intro k i e
      rw [hfuI] at e
      obtain ⟨j, hj⟩ := hI.fuInt_rs k i e
      refine ⟨j, ?_⟩
      rw [hri]
      exact hj
    · intro k i e
      rw [hfuF] at e
      obtain ⟨j, hj⟩ := hI.fuFp_rs k i e
      refine ⟨j, ?_⟩
      rw [hrf]
      exact hj
    · intro k hk
      have hk2 : inRSINT s k := by
        unfold inRSINT at hk ⊢
        rw [hri] at hk
        exact hk
      rw [hex, hfuI]
      exact hI.exec_iff_int k hk2
    · intro k hk
      have hk2 : inRSFP s k := by
        unfold inRSFP at hk ⊢
        rw [hrf] at hk
        exact hk
      rw [hex, hfuF]
      exact hI.exec_iff_fp k hk2
    · intro k hk
      rw [hex]
      exact hI.exec_le k ((hRSi k).mp hk)
    · intro k hk
      have := hI.bus_range k ((hBi k).mp hk)
      rw [hfx]
      omega
    · intro k hk
      rw [hex]
      rw [hfx] at hk
      exact hI.fresh_exec k (by omega)
  have hMM : InvM trace N sF := by
    refine { mapwf := ?_, qwf := ?_, acct := ?_ }
    · intro r k hr
      rw [hmt] at hr
      obtain ⟨ha, hbne, hc, hd⟩ := hM.mapwf r k hr
      refine ⟨ha, hbne, ?_, hd⟩
      rcases hc with hc | hc
      · exact Or.inl ((hRSi k).mpr hc)
      · exact Or.inr ((hBi k).mpr hc)
    · intro k j p hqe
      rw [hQ] at hqe
      obtain ⟨hk1, hk2, hk3, hk4, hk5⟩ := hM.qwf k j p hqe
      refine ⟨(hRSi k).mpr hk1, by rw [hex]; exact hk2, ?_, hk4, hk5⟩
      rcases hk3 with hc | hc
      · exact Or.inl ((hRSi p).mpr hc)
      · exact Or.inr ((hBi p).mpr hc)
    · have hci : cntRSINT sF = cntRSINT s := by
        unfold cntRSINT
        rw [hri]
      have hcf : cntRSFP sF = cntRSFP s := by
        unfold cntRSFP
        rw [hrf]
      have hbc : busCnt sF = busCnt s := by
        unfold busCnt
        rw [hbus]
      rw [hdcF, hsz, hci, hcf, hbc, hfx]
      have := hM.acct
      omega
  have hpot15 : pot trace cyc sF fi2 = 15 := by
    refine pot_of_queue trace cyc sF fi2 ?_ ((hiff fi2).mpr (Or.inr rfl))
    rw [hfx]
    omega
  have hpot16 : pot trace cyc s fi2 = 16 := pot_of_unfetched trace cyc s fi2 hgt
  refine ⟨hS, hMM, ?_, by rw [hpot15, hpot16]⟩
  intro k
  by_cases hk1 : k ≤ s.fetch_index
  · refine le_of_eq (pot_congr_iff trace cyc s sF k ?_ ?_ (hRSi k) (by rw [hex]) (hBi k))
    · rw [hfx]
      constructor
      · intro hlt
        omega
      · intro hlt
        omega
    · constructor
      · intro hk
        rcases (hiff k).mp hk with hk2 | rfl
        · exact hk2
        · omega
      · intro hk
        exact (hiff k).mpr (Or.inl hk)
  · have hps : pot trace cyc s k = 16 := pot_of_unfetched trace cyc s k (by omega)
    by_cases hk2 : k = fi2
    · subst hk2
      rw [hps, hpot15]
      omega
    · by_cases hk3 : fi2 < k
      · have : pot trace cyc sF k = 16 := by
          refine pot_of_unfetched trace cyc sF k ?_
          rw [hfx]
          exact hk3
        rw [this, hps]
      · have hkrange : s.fetch_index < k ∧ k < fi2 := ⟨by omega, by omega⟩
        have : pot trace cyc sF k = 0 := by
          refine pot_of_dead trace cyc sF k ?_ ?_ ?_ ?_
          · rw [hfx]
            omega
          · intro hq2
            rcases (hiff k).mp hq2 with hq3 | rfl
            · obtain ⟨p, hp, he⟩ := hq3
              have := (hI.qrange p k hp he).2
              omega
            · omega
          · intro hr
            have := hrs_bd k ((hRSi k).mp hr)
            omega
          · intro hb
            have := (hI.bus_range k ((hBi k).mp hb)).2
            omega
        rw [this, hps]
        omega

/-- The fetch stage succeeds on an invariant-holding state, preserves both
invariants, never raises a potential, and strictly decreases the fetched
instruction's potential whenever the queue has room and the trace is not
exhausted. -/
theorem fetch_eq (trace : Nat → InstrStatic) (ffuel : Nat) (s : State)
    (fi2 dc2 : Nat) (req2 : List Nat)
    (hloop : fetchLoop trace ffuel s.fetch_index s.doneCount s.requested =
      some (fi2, dc2, req2)) :
    fetch trace ffuel s = some
      { s with fetch_index := fi2, doneCount := dc2, requested := req2,
               instr_queue := Function.update s.instr_queue s.ifq_tail (some fi2) } := by
  unfold fetch
  rw [hloop]

theorem fetch_To_dispatch_invSM (trace : Nat → InstrStatic) (N c2 cyc cycle : Nat) (s : State)
    (hWF : WFb trace N = true) (hI : InvS trace N c2 s) (hM : InvM trace N s) :
    ∃ s2, fetch_To_dispatch trace N (N + 1) cycle s = some s2 ∧
      InvS trace N c2 s2 ∧ InvM trace N s2 ∧
      (∀ k, pot trace cyc s2 k ≤ pot trace cyc s k) ∧
      (s.instr_queue_size < 10 → s.fetch_index < N →
        ∃ m, pot trace cyc s2 m + 1 ≤ pot trace cyc s m) := by
  unfold fetch_To_dispatch
  split
  · rename_i hcond
    obtain ⟨hsz10, hfiN⟩ := hcond
    obtain ⟨fi2, dc2, req2, hloop, hgt, hle, hnt, hdc, htraps⟩ :=
      fetchLoop_spec trace N hWF (N + 1) s.fetch_index s.doneCount s.requested hfiN (by omega)
    rw [fetch_eq trace (N + 1) s fi2 dc2 req2 hloop]
    have hocc :
        ({ s with
             fetch_index := fi2,
             doneCount := dc2,
             requested := req2,
             instr_queue := Function.update s.instr_queue s.ifq_tail (some fi2) } :
          State).instr_queue
          ({ s with
               fetch_index := fi2,
               doneCount := dc2,
               requested := req2,
               instr_queue := Function.update s.instr_queue s.ifq_tail (some fi2) } :
            State).ifq_tail = some fi2 := by
      show Function.update s.instr_queue s.ifq_tail (some fi2) s.ifq_tail = some fi2
      rw [Function.update_same]
    split
    · rename_i hnone2
      exact Option.noConfusion hnone2
    · rename_i s1v hs1
      cases Option.some.inj hs1
      rw [hocc]
      have hres := invSM_push trace N c2 cyc s
        { s with
            fetch_index := fi2,
            doneCount := dc2,
            requested := req2,
            instr_queue := Function.update s.instr_queue s.ifq_tail (some fi2),
            tom_dispatch_cycle := Function.update s.tom_dispatch_cycle fi2 cycle,
            ifq_tail := s.ifq_tail + 1,
            instr_queue_size := s.instr_queue_size + 1 }
        fi2 dc2 hI hM rfl rfl rfl rfl rfl rfl rfl rfl rfl rfl rfl rfl rfl rfl
        hsz10 hgt hle hnt hdc
      exact ⟨_, rfl, hres.1, hres.2.1, hres.2.2.1, fun _ _ => ⟨fi2, hres.2.2.2⟩⟩
  · rename_i hcond
    refine ⟨s, rfl, hI, hM, fun k => Nat.le_refl _, ?_⟩
    intro h1 h2
    exact absurd ⟨h1, h2⟩ hcond

/-! ## Execute-stage lemmas -/

theorem freeFirst_no_occ {n : Nat} (slots : Fin n → Option Nat) (m : Nat)
    (hex : ¬∃ i, slots i = some m) :
    ∀ L : List (Fin n), freeFirst slots m L = slots := by
  intro L
  induction L with
  | nil => rfl
  | cons i rest ih =>
    unfold freeFirst
    rw [if_neg (fun hc => hex ⟨i, hc⟩)]
    exact ih

theorem freeFirst_eval {n : Nat} (slots : Fin n → Option Nat) (m : Nat) (L : List (Fin n))
    (hall : ∀ j : Fin n, j ∈ L)
    (huniq : ∀ j1 j2, slots j1 = some m → slots j2 = some m → j1 = j2) :
    ∀ j, freeFirst slots m L j = if slots j = some m then none else slots j := by
  intro j
  by_cases hex : ∃ i0, slots i0 = some m
  · obtain ⟨i0, hi0⟩ := hex
    rw [freeFirst_unique slots m L i0 (hall i0) hi0 (fun i2 h2 => huniq i2 i0 h2 hi0),
      Function.update_apply]
    by_cases hj : j = i0
    · subst hj
      rw [if_pos rfl, if_pos hi0]
    · rw [if_neg hj, if_neg (fun hc => hj (huniq j i0 hc hi0))]
  · rw [freeFirst_no_occ slots m hex L, if_neg (fun hc => hex ⟨j, hc⟩)]

theorem free_stations_fp (trace : Nat → InstrStatic) (m : Nat) (s sf : State)
    (hnint : USES_INT_FU (trace m).op = false)
    (hfp : USES_FP_FU (trace m).op = true)
    (h : free_stations trace m s = some sf) :
    sf = { s with fuFP := freeFirst s.fuFP m [0],
                  reservFP := freeFirst s.reservFP m [0, 1] } := by
  unfold free_stations at h
  rw [if_neg (by rw [hnint]; exact fun hc => Bool.noConfusion hc), if_pos hfp] at h
  cases h
  rfl

/-- Transfer of the map/await-slot/accounting invariant between states that
agree on every component it reads. -/
theorem invM_congr (trace : Nat → InstrStatic) (N : Nat) (s s2 : State)
    (hmt : s2.map_table = s.map_table) (hQm : s2.Q = s.Q)
    (hri : s2.reservINT = s.reservINT) (hrf : s2.reservFP = s.reservFP)
    (hbus : s2.commonDataBus = s.commonDataBus)
    (hex : s2.tom_execute_cycle = s.tom_execute_cycle)
    (hdc : s2.doneCount = s.doneCount) (hsz : s2.instr_queue_size = s.instr_queue_size)
    (hfx : s2.fetch_index = s.fetch_index)
    (hM : InvM trace N s) : InvM trace N s2 := by
  have hRSi : ∀ k, inRS s2 k ↔ inRS s k := by
    intro k
    unfold inRS inRSINT inRSFP
    rw [hri, hrf]
  have hBi : ∀ k, onBus s2 k ↔ onBus s k := by
    intro k
    unfold onBus
    rw [hbus]
  refine { mapwf := ?_, qwf := ?_, acct := ?_ }
  · intro r k hr
    rw [hmt] at hr
    obtain ⟨ha, hb, hc, hd⟩ := hM.mapwf r k hr
    refine ⟨ha, hb, ?_, hd⟩
    rcases hc with hc | hc
    · exact Or.inl ((hRSi k).mpr hc)
    · exact Or.inr ((hBi k).mpr hc)
  · intro k j p hqe
    rw [hQm] at hqe
    obtain ⟨hk1, hk2, hk3, hk4, hk5⟩ := hM.qwf k j p hqe
    refine ⟨(hRSi k).mpr hk1, by rw [hex]; exact hk2, ?_, hk4, hk5⟩
    rcases hk3 with hc | hc
    · exact Or.inl ((hRSi p).mpr hc)
    · exact Or.inr ((hBi p).mpr hc)
  · have hci : cntRSINT s2 = cntRSINT s := by
      unfold cntRSINT
      rw [hri]
    have hcf : cntRSFP s2 = cntRSFP s := by
      unfold cntRSFP
      rw [hrf]
    have hbc : busCnt s2 = busCnt s := by
      unfold busCnt
      rw [hbus]
    rw [hdc, hsz, hci, hcf, hbc, hfx]
    exact hM.acct

/-- Master lemma for the execute stage: removing a completed in-flight
instruction `m` from its reservation-station and functional-unit slots —
counting it retired (a store) or placing it on the empty bus (the broadcast
winner) — preserves both invariant layers, never raises a potential, and
strictly lowers `m`'s own potential. -/
theorem invSM_remove (trace : Nat → InstrStatic) (N c2 cyc : Nat) (s sX : State) (m : Nat)
    (hWF : WFb trace N = true)
    (hI : InvS trace N c2 s) (hM : InvM trace N s)
    (hmRS : inRS s m) (hexne : s.tom_execute_cycle m ≠ 0)
    (hbus : s.commonDataBus = none)
    (hq : sX.instr_queue = s.instr_queue) (hh : sX.ifq_head = s.ifq_head)
    (htl : sX.ifq_tail = s.ifq_tail) (hsz : sX.instr_queue_size = s.instr_queue_size)
    (hfx : sX.fetch_index = s.fetch_index)
    (hmt : sX.map_table = s.map_table) (hQm : sX.Q = s.Q)
    (hex : sX.tom_execute_cycle = s.tom_execute_cycle)
    (hri : ∀ j, sX.reservINT j = if s.reservINT j = some m then none else s.reservINT j)
    (hrf : ∀ j, sX.reservFP j = if s.reservFP j = some m then none else s.reservFP j)
    (hfuI : ∀ j, sX.fuINT j = if s.fuINT j = some m then none else s.fuINT j)
    (hfuF : ∀ j, sX.fuFP j = if s.fuFP j = some m then none else s.fuFP j)
    (hkind : (sX.commonDataBus = none ∧ sX.doneCount = s.doneCount + 1 ∧
        (trace m).op.isStore = true) ∨
      (sX.commonDataBus = some m ∧ sX.doneCount = s.doneCount)) :
    InvS trace N c2 sX ∧ InvM trace N sX ∧
    (∀ k, pot trace cyc sX k ≤ pot trace cyc s k) ∧
    pot trace cyc sX m + 1 ≤ pot trace cyc s m := by
  have hQi : ∀ k, inQueue sX k ↔ inQueue s k := inQueue_congr s sX hq hh hsz
  have hqsX : ∀ p, qslot sX p = qslot s p := by
    intro p
    unfold qslot
    rw [hh]
  have hrange : 1 ≤ m ∧ m ≤ s.fetch_index := by
    rcases hmRS with hm | hm
    · have hc := hI.rsIntClass m hm
      exact ⟨hc.2.2.2.2.2.1, hc.2.2.2.2.2.2⟩
    · have hc := hI.rsFpClass m hm
      exact ⟨hc.2.2.2.2.1, hc.2.2.2.2.2⟩
  have hOkm := WFb_instrOk trace N hWF m hrange.1 (Nat.le_trans hrange.2 hI.fi_le)
  have hnqm : ¬inQueue s m := fun hqm => hI.q_rs m hqm hmRS
  have hBs : ∀ k, ¬onBus s k := by
    intro k hb
    unfold onBus at hb
    rw [hbus] at hb
    exact Option.noConfusion hb
  have hbus_or : sX.commonDataBus = none ∨ sX.commonDataBus = some m := by
    rcases hkind with ⟨hbX, -, -⟩ | ⟨hbX, -⟩
    · exact Or.inl hbX
    · exact Or.inr hbX
  have hBiX : ∀ k, onBus sX k → k = m := by
    intro k hb
    unfold onBus at hb
    rcases hbus_or with hbX | hbX
    · rw [hbX] at hb
      exact Option.noConfusion hb
    · rw [hbX] at hb
      exact (Option.some.inj hb).symm
  have hRIat : ∀ j k, sX.reservINT j = some k → s.reservINT j = some k := by
    intro j k hj
    rw [hri j] at hj
    split at hj
    · exact Option.noConfusion hj
    · exact hj
  have hRFat : ∀ j k, sX.reservFP j = some k → s.reservFP j = some k := by
    intro j k hj
    rw [hrf j] at hj
    split at hj
    · exact Option.noConfusion hj
    · exact hj
  have hFIat : ∀ j k, sX.fuINT j = some k → s.fuINT j = some k := by
    intro j k hj
    rw [hfuI j] at hj
    split at hj
    · exact Option.noConfusion hj
    · exact hj
  have hFFat : ∀ j k, sX.fuFP j = some k → s.fuFP j = some k := by
    intro j k hj
    rw [hfuF j] at hj
    split at hj
    · exact Option.noConfusion hj
    · exact hj
  have hRIiff : ∀ k, inRSINT sX k ↔ (inRSINT s k ∧ k ≠ m) := by
    intro k
    constructor
    · rintro ⟨j, hj⟩
      have hjs := hRIat j k hj
      refine ⟨⟨j, hjs⟩, ?_⟩
      intro he
      subst he
      rw [hri j, if_pos hjs] at hj
      exact Option.noConfusion hj
    · rintro ⟨⟨j, hj⟩, hne⟩
      refine ⟨j, ?_⟩
      have hcond : ¬(s.reservINT j = some m) := by
        intro hc
        rw [hj] at hc
        exact hne (Option.some.inj hc)
      rw [hri j, if_neg hcond]
      exact hj
  have hRFiff : ∀ k, inRSFP sX k ↔ (inRSFP s k ∧ k ≠ m) := by
    intro k
    constructor
    · rintro ⟨j, hj⟩
      have hjs := hRFat j k hj
      refine ⟨⟨j, hjs⟩, ?_⟩
      intro he
      subst he
      rw [hrf j, if_pos hjs] at hj
      exact Option.noConfusion hj
    · rintro ⟨⟨j, hj⟩, hne⟩
      refine ⟨j, ?_⟩
      have hcond : ¬(s.reservFP j = some m) := by
        intro hc
        rw [hj] at hc
        exact hne (Option.some.inj hc)
      rw [hrf j, if_neg hcond]
      exact hj
  have hRSiff : ∀ k, inRS sX k ↔ (inRS s k ∧ k ≠ m) := by
    intro k
    constructor
    · rintro (hk | hk)
      · obtain ⟨hks, hne⟩ := (hRIiff k).mp hk
        exact ⟨Or.inl hks, hne⟩
      · obtain ⟨hks, hne⟩ := (hRFiff k).mp hk
        exact ⟨Or.inr hks, hne⟩
    · rintro ⟨hk | hk, hne⟩
      · exact Or.inl ((hRIiff k).mpr ⟨hk, hne⟩)
      · exact Or.inr ((hRFiff k).mpr ⟨hk, hne⟩)
  have hS : InvS trace N c2 sX := by
    refine
      { fi_le := by rw [hfx]; exact hI.fi_le
        size_le := by rw [hsz]; exact hI.size_le
        tail_eq := by rw [htl, hsz, hqsX]; exact hI.tail_eq
        qocc := ?_
        qmono := ?_
        qrange := ?_
        qop := fun k hk => hI.qop k ((hQi k).mp hk)
        qexec0 := by
          intro k hk
          rw [hex]
          exact hI.qexec0 k ((hQi k).mp hk)
        order := ?_
        rsIntClass := ?_
        rsFpClass := ?_
        q_rs := ?_
        q_bus := ?_
        rs_bus := ?_
        rsint_rsfp := ?_
        rsIntDup := fun j1 j2 k e1 e2 => hI.rsIntDup j1 j2 k (hRIat j1 k e1) (hRIat j2 k e2)
        rsFpDup := fun j1 j2 k e1 e2 => hI.rsFpDup j1 j2 k (hRFat j1 k e1) (hRFat j2 k e2)
        fuIntDup := fun i1 i2 k e1 e2 => hI.fuIntDup i1 i2 k (hFIat i1 k e1) (hFIat i2 k e2)
        fuInt_rs := ?_
        fuFp_rs := ?_
        exec_iff_int := ?_
        exec_iff_fp := ?_
        exec_le := ?_
        bus_range := ?_
        fresh_exec := ?_ }
    · intro p hp
      rw [hsz] at hp
      obtain ⟨k, hk⟩ := hI.qocc p hp
      refine ⟨k, ?_⟩
      rw [hq, hqsX p]
      exact hk
    · intro p1 p2 k1 k2 h12 h2 e1 e2
      rw [hsz] at h2
      rw [hq, hqsX p1] at e1
      rw [hq, hqsX p2] at e2
      exact hI.qmono p1 p2 k1 k2 h12 h2 e1 e2
    · intro p k hp e
      rw [hsz] at hp
      rw [hq, hqsX p] at e
      rw [hfx]
      exact hI.qrange p k hp e
    · intro m2 k hm2 hk
      rcases hm2 with hm2 | hm2
      · exact hI.order m2 k (Or.inl ((hRSiff m2).mp hm2).1) ((hQi k).mp hk)
      · have he := hBiX m2 hm2
        subst he
        exact hI.order m2 k (Or.inl hmRS) ((hQi k).mp hk)
    · intro k hk
      obtain ⟨hks, -⟩ := (hRIiff k).mp hk
      obtain ⟨h1, h2, h3, h4, h5, h6, h7⟩ := hI.rsIntClass k hks
      exact ⟨h1, h2, h3, h4, h5, h6, by rw [hfx]; exact h7⟩
    · intro k hk
      obtain ⟨hks, -⟩ := (hRFiff k).mp hk
      obtain ⟨h1, h2, h3, h4, h5, h6⟩ := hI.rsFpClass k hks
      exact ⟨h1, h2, h3, h4, h5, by rw [hfx]; exact h6⟩
    · intro k hk hr
      exact hI.q_rs k ((hQi k).mp hk) ((hRSiff k).mp hr).1
    · intro k hk hb
      have he := hBiX k hb
      subst he
      exact hnqm ((hQi k).mp hk)
    · intro k hk hb
      have he := hBiX k hb
      subst he
      exact ((hRSiff k).mp hk).2 rfl
    · intro k hk hf
      exact hI.rsint_rsfp k ((hRIiff k).mp hk).1 ((hRFiff k).mp hf).1
    · intro k i e
      have hes := hFIat i k e
      have hne : k ≠ m := by
        intro he
        subst he
        rw [hfuI i, if_pos hes] at e
        exact Option.noConfusion e
      obtain ⟨j, hj⟩ := hI.fuInt_rs k i hes
      exact (hRIiff k).mpr ⟨⟨j, hj⟩, hne⟩
    · intro k i e
      have hes := hFFat i k e
      have hne : k ≠ m := by
        intro he
        subst he
        rw [hfuF i, if_pos hes] at e
        exact Option.noConfusion e
      obtain ⟨j, hj⟩ := hI.fuFp_rs k i hes
      exact (hRFiff k).mpr ⟨⟨j, hj⟩, hne⟩
    · intro k hk
      obtain ⟨hks, hne⟩ := (hRIiff k).mp hk
      rw [hex]
      constructor
      · intro hne2
        obtain ⟨i, hi⟩ := (hI.exec_iff_int k hks).mp hne2
        refine ⟨i, ?_⟩
        have hcond : ¬(s.fuINT i = some m) := by
          intro hc
          rw [hi] at hc
          exact hne (Option.some.inj hc)
        rw [hfuI i, if_neg hcond]
        exact hi
      · rintro ⟨i, hi⟩
        exact (hI.exec_iff_int k hks).mpr ⟨i, hFIat i k hi⟩
    · intro k hk
      obtain ⟨hks, hne⟩ := (hRFiff k).mp hk
      rw [hex]
      constructor
      · intro hne2
        obtain ⟨i, hi⟩ := (hI.exec_iff_fp k hks).mp hne2
        refine ⟨i, ?_⟩
        have hcond : ¬(s.fuFP i = some m) := by
          intro hc
          rw [hi] at hc
          exact hne (Option.some.inj hc)
        rw [hfuF i, if_neg hcond]
        exact hi
      · rintro ⟨i, hi⟩
        exact (hI.exec_iff_fp k hks).mpr ⟨i, hFFat i k hi⟩
    · intro k hk
      rw [hex]
      exact hI.exec_le k ((hRSiff k).mp hk).1
    · intro k hk
      have he := hBiX k hk
      subst he
      rw [hfx]
      exact hrange
    · intro k hk
      rw [hfx] at hk
      rw [hex]
      exact hI.fresh_exec k hk
  have hMM : InvM trace N sX := by
    refine { mapwf := ?_, qwf := ?_, acct := ?_ }
    · intro r k hr
      rw [hmt] at hr
      obtain ⟨ha, hb, hc, hd⟩ := hM.mapwf r k hr
      have hcs : inRS s k := by
        rcases hc with hc | hc
        · exact hc
        · exact absurd hc (hBs k)
      refine ⟨ha, hb, ?_, hd⟩
      by_cases hkm : k = m
      · subst hkm
        rcases hkind with ⟨-, -, hstore⟩ | ⟨hbX, -⟩
        · exact absurd ⟨hstore, hd⟩ (instrOk_class _ hOkm).2.2.1
        · refine Or.inr ?_
          unfold onBus
          rw [hbX]
      · exact Or.inl ((hRSiff k).mpr ⟨hcs, hkm⟩)
    · intro k j p hqe
      rw [hQm] at hqe
      obtain ⟨hk1, hk2, hk3, hk4, hk5⟩ := hM.qwf k j p hqe
      have hkm : k ≠ m := by
        intro he
        subst he
        exact hexne hk2
      have hp3 : inRS s p := by
        rcases hk3 with hc | hc
        · exact hc
        · exact absurd hc (hBs p)
      refine ⟨(hRSiff k).mpr ⟨hk1, hkm⟩, by rw [hex]; exact hk2, ?_, hk4, hk5⟩
      by_cases hpm : p = m
      · subst hpm
        rcases hkind with ⟨-, -, hstore⟩ | ⟨hbX, -⟩
        · exact absurd ⟨hstore, hk5⟩ (instrOk_class _ hOkm).2.2.1
        · refine Or.inr ?_
          unfold onBus
          rw [hbX]
      · exact Or.inl ((hRSiff p).mpr ⟨hp3, hpm⟩)
    · have hacct := hM.acct
      have hbs0 : busCnt s = 0 := by
        unfold busCnt
        rw [hbus]
        rfl
      have hcnts : cntRSINT sX + cntRSFP sX + 1 = cntRSINT s + cntRSFP s := by
        rcases hmRS with ⟨j0, hj0⟩ | ⟨j0, hj0⟩
        · have hupd : sX.reservINT = Function.update s.reservINT j0 none := by
            funext j
            rw [hri j, Function.update_apply]
            by_cases hj : j = j0
            · subst hj
              rw [if_pos hj0, if_pos rfl]
            · rw [if_neg (fun hc => hj (hI.rsIntDup j j0 m hc hj0)), if_neg hj]
          have hcnt : cntRSINT sX + 1 = cntRSINT s := by
            unfold cntRSINT
            rw [hupd]
            exact cnt_filter_update_none s.reservINT j0 (by rw [hj0]; rfl)
          have hfp_id : sX.reservFP = s.reservFP := by
            funext j
            rw [hrf j, if_neg (fun hc => hI.rsint_rsfp m ⟨j0, hj0⟩ ⟨j, hc⟩)]
          have hcf : cntRSFP sX = cntRSFP s := by
            unfold cntRSFP
            rw [hfp_id]
          omega
        · have hupd : sX.reservFP = Function.update s.reservFP j0 none := by
            funext j
            rw [hrf j, Function.update_apply]
            by_cases hj : j = j0
            · subst hj
              rw [if_pos hj0, if_pos rfl]
            · rw [if_neg (fun hc => hj (hI.rsFpDup j j0 m hc hj0)), if_neg hj]
          have hcnt : cntRSFP sX + 1 = cntRSFP s := by
            unfold cntRSFP
            rw [hupd]
            exact cnt_filter_update_none s.reservFP j0 (by rw [hj0]; rfl)
          have hint_id : sX.reservINT = s.reservINT := by
            funext j
            rw [hri j, if_neg (fun hc => hI.rsint_rsfp m ⟨j, hc⟩ ⟨j0, hj0⟩)]
          have hci : cntRSINT sX = cntRSINT s := by
            unfold cntRSINT
            rw [hint_id]
          omega
      rcases hkind with ⟨hbX, hdcX, -⟩ | ⟨hbX, hdcX⟩
      · have hb0 : busCnt sX = 0 := by
          unfold busCnt
          rw [hbX]
          rfl
        have hsz2 := hsz
        have hfx2 := hfx
        omega
      · have hb1 : busCnt sX = 1 := by
          unfold busCnt
          rw [hbX]
          rfl
        have hsz2 := hsz
        have hfx2 := hfx
        omega
  have hpotm : pot trace cyc sX m + 1 ≤ pot trace cyc s m := by
    have hnfm : ¬s.fetch_index < m := by omega
    have hs4 : 4 ≤ pot trace cyc s m := by
      rw [pot_of_exec trace cyc s m hnfm hnqm hmRS hexne]
      omega
    have hnf : ¬sX.fetch_index < m := by
      rw [hfx]
      omega
    have hnq2 : ¬inQueue sX m := fun hqm => hnqm ((hQi m).mp hqm)
    have hnr : ¬inRS sX m := fun hr => ((hRSiff m).mp hr).2 rfl
    rcases hbus_or with hbX | hbX
    · have h0 : pot trace cyc sX m = 0 :=
        pot_of_dead trace cyc sX m hnf hnq2 hnr (fun hb => by
          unfold onBus at hb
          rw [hbX] at hb
          exact Option.noConfusion hb)
      omega
    · have h3 : pot trace cyc sX m = 3 :=
        pot_of_bus trace cyc sX m hnf hnq2 hnr (by unfold onBus; rw [hbX])
      omega
  refine ⟨hS, hMM, ?_, hpotm⟩
  intro k
  rcases eq_or_ne k m with rfl | hne
  · omega
  · refine le_of_eq (pot_congr trace cyc s sX k hfx (hQi k) ?_ (by rw [hex]) ?_)
    · constructor
      · intro hr
        exact ((hRSiff k).mp hr).1
      · intro hr
        exact (hRSiff k).mpr ⟨hr, hne⟩
    · constructor
      · intro hb
        exact absurd (hBiX k hb) hne
      · intro hb
        exact absurd hb (hBs k)

/-- One completed store in the `fuINT` scan: freeing its station and unit
slots and counting it retired preserves the invariants and strictly lowers
its potential. -/
theorem exec_free_store_invSM (trace : Nat → InstrStatic) (N c2 cyc : Nat) (s : State)
    (m : Nat) (i : Fin 2)
    (hWF : WFb trace N = true) (hI : InvS trace N c2 s) (hM : InvM trace N s)
    (hbus : s.commonDataBus = none) (hfu : s.fuINT i = some m)
    (hstore : (trace m).op.isStore = true) :
    InvS trace N c2
      { s with fuINT := freeFirst s.fuINT m [0, 1],
               reservINT := freeFirst s.reservINT m [0, 1, 2, 3],
               doneCount := s.doneCount + 1 } ∧
    InvM trace N
      { s with fuINT := freeFirst s.fuINT m [0, 1],
               reservINT := freeFirst s.reservINT m [0, 1, 2, 3],
               doneCount := s.doneCount + 1 } ∧
    (∀ k, pot trace cyc
      { s with fuINT := freeFirst s.fuINT m [0, 1],
               reservINT := freeFirst s.reservINT m [0, 1, 2, 3],
               doneCount := s.doneCount + 1 } k ≤ pot trace cyc s k) ∧
    pot trace cyc
      { s with fuINT := freeFirst s.fuINT m [0, 1],
               reservINT := freeFirst s.reservINT m [0, 1, 2, 3],
               doneCount := s.doneCount + 1 } m + 1 ≤ pot trace cyc s m := by
  have hmRSI : inRSINT s m := hI.fuInt_rs m i hfu
  have hexne : s.tom_execute_cycle m ≠ 0 := (hI.exec_iff_int m hmRSI).mpr ⟨i, hfu⟩
  exact invSM_remove trace N c2 cyc s _ m hWF hI hM (Or.inl hmRSI) hexne hbus
    rfl rfl rfl rfl rfl rfl rfl rfl
    (freeFirst_eval s.reservINT m [0, 1, 2, 3] allFin4_mem
      (fun j1 j2 h1 h2 => hI.rsIntDup j1 j2 m h1 h2))
    (fun j => by
      rw [if_neg (fun hc => hI.rsint_rsfp m hmRSI ⟨j, hc⟩)])
    (freeFirst_eval s.fuINT m [0, 1] allFin2_mem
      (fun j1 j2 h1 h2 => hI.fuIntDup j1 j2 m h1 h2))
    (fun j => by
      rw [if_neg (fun hc => hI.rsint_rsfp m hmRSI (hI.fuFp_rs m j hc))])
    (Or.inl ⟨hbus, rfl, hstore⟩)

/-- The broadcast winner: stamping its CDB cycle, freeing its station and
unit slots and placing it on the empty bus preserves the invariants and
strictly lowers its potential. -/
theorem exec_winner_invSM (trace : Nat → InstrStatic) (N c2 cyc cycle : Nat) (s1 : State)
    (w : Nat)
    (hWF : WFb trace N = true) (hI1 : InvS trace N c2 s1) (hM1 : InvM trace N s1)
    (hbus : s1.commonDataBus = none)
    (hwRS : inRS s1 w) (hexne : s1.tom_execute_cycle w ≠ 0) :
    ∃ s2w, free_stations trace w
        { s1 with tom_cdb_cycle := Function.update s1.tom_cdb_cycle w cycle } = some s2w ∧
      InvS trace N c2 { s2w with commonDataBus := some w } ∧
      InvM trace N { s2w with commonDataBus := some w } ∧
      (∀ k, pot trace cyc { s2w with commonDataBus := some w } k ≤ pot trace cyc s1 k) ∧
      (pot trace cyc { s2w with commonDataBus := some w } w + 1 ≤ pot trace cyc s1 w) ∧
      ({ s2w with commonDataBus := some w } : State).instr_queue = s1.instr_queue ∧
      ({ s2w with commonDataBus := some w } : State).ifq_head = s1.ifq_head ∧
      ({ s2w with commonDataBus := some w } : State).instr_queue_size =
        s1.instr_queue_size ∧
      ({ s2w with commonDataBus := some w } : State).fetch_index = s1.fetch_index ∧
      ({ s2w with commonDataBus := some w } : State).tom_execute_cycle =
        s1.tom_execute_cycle ∧
      ({ s2w with commonDataBus := some w } : State).doneCount = s1.doneCount := by
  rcases hwRS with ⟨j0, hj0⟩ | ⟨j0, hj0⟩
  · have hint : USES_INT_FU (trace w).op = true := (hI1.rsIntClass w ⟨j0, hj0⟩).1
    have hfs : free_stations trace w
        { s1 with tom_cdb_cycle := Function.update s1.tom_cdb_cycle w cycle } = some
        { s1 with tom_cdb_cycle := Function.update s1.tom_cdb_cycle w cycle,
                  fuINT := freeFirst s1.fuINT w [0, 1],
                  reservINT := freeFirst s1.reservINT w [0, 1, 2, 3] } := by
      unfold free_stations
      rw [if_pos hint]
    refine ⟨_, hfs, ?_⟩
    have hrem := invSM_remove trace N c2 cyc s1
      { s1 with tom_cdb_cycle := Function.update s1.tom_cdb_cycle w cycle,
                fuINT := freeFirst s1.fuINT w [0, 1],
                reservINT := freeFirst s1.reservINT w [0, 1, 2, 3],
                commonDataBus := some w }
      w hWF hI1 hM1 (Or.inl ⟨j0, hj0⟩) hexne hbus
      rfl rfl rfl rfl rfl rfl rfl rfl
      (freeFirst_eval s1.reservINT w [0, 1, 2, 3] allFin4_mem
        (fun j1 j2 h1 h2 => hI1.rsIntDup j1 j2 w h1 h2))
      (fun j => by
        rw [if_neg (fun hc => hI1.rsint_rsfp w ⟨j0, hj0⟩ ⟨j, hc⟩)])
      (freeFirst_eval s1.fuINT w [0, 1] allFin2_mem
        (fun j1 j2 h1 h2 => hI1.fuIntDup j1 j2 w h1 h2))
      (fun j => by
        rw [if_neg (fun hc => hI1.rsint_rsfp w ⟨j0, hj0⟩ (hI1.fuFp_rs w j hc))])
      (Or.inr ⟨rfl, rfl⟩)
    exact ⟨hrem.1, hrem.2.1, hrem.2.2.1, hrem.2.2.2, rfl, rfl, rfl, rfl, rfl, rfl⟩
  · have hfp : USES_FP_FU (trace w).op = true := (hI1.rsFpClass w ⟨j0, hj0⟩).1
    have hrange : 1 ≤ w ∧ w ≤ s1.fetch_index := by
      have hc := hI1.rsFpClass w ⟨j0, hj0⟩
      exact ⟨hc.2.2.2.2.1, hc.2.2.2.2.2⟩
    have hOkw := WFb_instrOk trace N hWF w hrange.1 (Nat.le_trans hrange.2 hI1.fi_le)
    have hnint : USES_INT_FU (trace w).op = false := by
      rcases Bool.eq_false_or_eq_true (USES_INT_FU (trace w).op) with ht | hf
      · exact absurd ⟨hfp, ht⟩ (instrOk_class _ hOkw).2.1
      · exact hf
    have hall1 : ∀ jj : Fin 1, jj ∈ ([0] : List (Fin 1)) := by decide
    have hfs : free_stations trace w
        { s1 with tom_cdb_cycle := Function.update s1.tom_cdb_cycle w cycle } = some
        { s1 with tom_cdb_cycle := Function.update s1.tom_cdb_cycle w cycle,
                  fuFP := freeFirst s1.fuFP w [0],
                  reservFP := freeFirst s1.reservFP w [0, 1] } := by
      unfold free_stations
      rw [if_neg (by rw [hnint]; exact fun hc => Bool.noConfusion hc), if_pos hfp]
    refine ⟨_, hfs, ?_⟩
    have hrem := invSM_remove trace N c2 cyc s1
      { s1 with tom_cdb_cycle := Function.update s1.tom_cdb_cycle w cycle,
                fuFP := freeFirst s1.fuFP w [0],
                reservFP := freeFirst s1.reservFP w [0, 1],
                commonDataBus := some w }
      w hWF hI1 hM1 (Or.inr ⟨j0, hj0⟩) hexne hbus
      rfl rfl rfl rfl rfl rfl rfl rfl
      (fun j => by
        rw [if_neg (fun hc => hI1.rsint_rsfp w ⟨j, hc⟩ ⟨j0, hj0⟩)])
      (freeFirst_eval s1.reservFP w [0, 1] allFin2_mem
        (fun j1 j2 h1 h2 => hI1.rsFpDup j1 j2 w h1 h2))
      (fun j => by
        rw [if_neg (fun hc => hI1.rsint_rsfp w (hI1.fuInt_rs w j hc) ⟨j0, hj0⟩)])
      (freeFirst_eval s1.fuFP w [0] hall1
        (fun j1 j2 h1 h2 => Fin.ext (by omega)))
      (Or.inr ⟨rfl, rfl⟩)
    exact ⟨hrem.1, hrem.2.1, hrem.2.2.1, hrem.2.2.2, rfl, rfl, rfl, rfl, rfl, rfl⟩

theorem execScanINT_cons_none (trace : Nat → InstrStatic) (cycle : Nat) (i : Fin 2)
    (rest : List (Fin 2)) (s : State) (best : Option Nat) (hfu : s.fuINT i = none) :
    execScanINT trace cycle (i :: rest) s best = execScanINT trace cycle rest s best := by
  conv_lhs => unfold execScanINT
  rw [hfu]

theorem execScanINT_cons_some (trace : Nat → InstrStatic) (cycle : Nat) (i : Fin 2)
    (rest : List (Fin 2)) (s : State) (best : Option Nat) (m : Nat)
    (hfu : s.fuINT i = some m) :
    execScanINT trace cycle (i :: rest) s best =
      if s.tom_execute_cycle m + FU_INT_LATENCY ≤ cycle then
        if (trace m).op.isStore then
          match free_stations trace m s with
          | none => none
          | some s2 =>
            execScanINT trace cycle rest { s2 with doneCount := s2.doneCount + 1 } best
        else
          match best with
          | none => execScanINT trace cycle rest s (some m)
          | some b =>
            if m < b then execScanINT trace cycle rest s (some m)
            else execScanINT trace cycle rest s best
      else execScanINT trace cycle rest s best := by
  conv_lhs => unfold execScanINT
  rw [hfu]

/-- Invariant preservation, frames, potential facts and progress markers for
the `fuINT` scan of `execute_To_CDB`. -/
theorem execScanINT_invSM (trace : Nat → InstrStatic) (N c2 cycle : Nat)
    (hWF : WFb trace N = true) :
    ∀ (L : List (Fin 2)) (s : State) (best : Option Nat),
      L.Nodup →
      InvS trace N c2 s → InvM trace N s → s.commonDataBus = none →
      (∀ b, best = some b → ∃ i, s.fuINT i = some b ∧
        s.tom_execute_cycle b + FU_INT_LATENCY ≤ cycle ∧ (trace b).op.isStore = false) →
      ∃ s2 best2, execScanINT trace cycle L s best = some (s2, best2) ∧
        InvS trace N c2 s2 ∧ InvM trace N s2 ∧ s2.commonDataBus = none ∧
        s2.tom_execute_cycle = s.tom_execute_cycle ∧
        s2.instr_queue = s.instr_queue ∧ s2.ifq_head = s.ifq_head ∧
        s2.instr_queue_size = s.instr_queue_size ∧ s2.fetch_index = s.fetch_index ∧
        s2.fuFP = s.fuFP ∧
        (∀ k, pot trace cycle s2 k ≤ pot trace cycle s k) ∧
        (∀ b, best2 = some b → ∃ i, s2.fuINT i = some b ∧
          s2.tom_execute_cycle b + FU_INT_LATENCY ≤ cycle ∧
          (trace b).op.isStore = false) ∧
        (∀ b, best = some b → ∃ b2, best2 = some b2) ∧
        (∀ i m, i ∈ L → s.fuINT i = some m →
          s.tom_execute_cycle m + FU_INT_LATENCY ≤ cycle →
          (∃ m2, pot trace cycle s2 m2 + 1 ≤ pot trace cycle s m2) ∨
            ∃ b2, best2 = some b2) := by
  intro L
  induction L with
  | nil =>
    intro s best hND hI hM hbus hbest
    refine ⟨s, best, rfl, hI, hM, hbus, rfl, rfl, rfl, rfl, rfl, rfl,
      fun k => Nat.le_refl _, hbest, fun b hb => ⟨b, hb⟩, ?_⟩
    intro i m hi
    cases hi
  | cons i rest ih =>
    intro s best hND hI hM hbus hbest
    have hNDr : rest.Nodup := (List.nodup_cons.mp hND).2
    have hinr : i ∉ rest := (List.nodup_cons.mp hND).1
    cases hfu : s.fuINT i with
    | none =>
      rw [execScanINT_cons_none trace cycle i rest s best hfu]
      obtain ⟨s2, best2, heq, hS2, hM2, hb2, hex2, hq2, hh2, hsz2, hfx2, hfp2, hpot2,
        hgood2, hprop2, hstrict2⟩ := ih s best hNDr hI hM hbus hbest
      refine ⟨s2, best2, heq, hS2, hM2, hb2, hex2, hq2, hh2, hsz2, hfx2, hfp2, hpot2,
        hgood2, hprop2, ?_⟩
      intro i2 m2 hi2 hocc2 hdone2
      rcases List.mem_cons.mp hi2 with rfl | hmem
      · rw [hfu] at hocc2
        exact Option.noConfusion hocc2
      · exact hstrict2 i2 m2 hmem hocc2 hdone2
    | some m =>
      rw [execScanINT_cons_some trace cycle i rest s best m hfu]
      by_cases hdone : s.tom_execute_cycle m + FU_INT_LATENCY ≤ cycle
      · rw [if_pos hdone]
        by_cases hst : (trace m).op.isStore = true
        · rw [if_pos hst]
          have hint := store_uses_int (trace m).op hst
          have hfseq : free_stations trace m s = some
              { s with fuINT := freeFirst s.fuINT m [0, 1],
                       reservINT := freeFirst s.reservINT m [0, 1, 2, 3] } := by
            unfold free_stations
            rw [if_pos hint]
          rw [hfseq]
          obtain ⟨hS', hM', hpot', hpotm'⟩ :=
            exec_free_store_invSM trace N c2 cycle s m i hWF hI hM hbus hfu hst
          have hfuI' : ∀ j, freeFirst s.fuINT m [0, 1] j =
              if s.fuINT j = some m then none else s.fuINT j :=
            freeFirst_eval s.fuINT m [0, 1] allFin2_mem
              (fun j1 j2 h1 h2 => hI.fuIntDup j1 j2 m h1 h2)
          have hbest' : ∀ b, best = some b →
              ∃ i2, freeFirst s.fuINT m [0, 1] i2 = some b ∧
                s.tom_execute_cycle b + FU_INT_LATENCY ≤ cycle ∧
                (trace b).op.isStore = false := by
            intro b hb
            obtain ⟨i2, hi2, hd2, hns2⟩ := hbest b hb
            refine ⟨i2, ?_, hd2, hns2⟩
            have hcond : ¬(s.fuINT i2 = some m) := by
              intro hc
              rw [hi2] at hc
              have hbm := Option.some.inj hc
              subst hbm
              rw [hst] at hns2
              exact Bool.noConfusion hns2
            rw [hfuI' i2, if_neg hcond]
            exact hi2
          obtain ⟨s2, best2, heq, hS2, hM2, hb2, hex2, hq2, hh2, hsz2, hfx2, hfp2, hpot2,
            hgood2, hprop2, hstrict2⟩ := ih _ best hNDr hS' hM' hbus hbest'
          refine ⟨s2, best2, heq, hS2, hM2, hb2, hex2, hq2, hh2, hsz2, hfx2, hfp2,
            ?_, hgood2, hprop2, ?_⟩
          · intro k
            exact Nat.le_trans (hpot2 k) (hpot' k)
          · intro i2 m2 hi2 hocc2 hdone2
            rcases List.mem_cons.mp hi2 with rfl | hmem
            · rw [hfu] at hocc2
              have hm2 := Option.some.inj hocc2
              subst hm2
              refine Or.inl ⟨m, ?_⟩
              have h1 := hpot2 m
              omega
            · have hne2 : m2 ≠ m := by
                intro he
                subst he
                have := hI.fuIntDup i2 i m2 hocc2 hfu
                subst this
                exact hinr hmem
              have hocc3 : freeFirst s.fuINT m [0, 1] i2 = some m2 := by
                have hcond : ¬(s.fuINT i2 = some m) := by
                  intro hc
                  rw [hocc2] at hc
                  exact hne2 (Option.some.inj hc)
                rw [hfuI' i2, if_neg hcond]
                exact hocc2
              rcases hstrict2 i2 m2 hmem hocc3 hdone2 with ⟨m3, hm3⟩ | hb3
              · refine Or.inl ⟨m3, ?_⟩
                have h1 := hpot' m3
                omega
              · exact Or.inr hb3
        · rw [if_neg hst]
          have hnst : (trace m).op.isStore = false := by
            rcases Bool.eq_false_or_eq_true (trace m).op.isStore with ht | hf
            · exact absurd ht hst
            · exact hf
          have hbestm : ∀ b, (some m : Option Nat) = some b →
              ∃ i2, s.fuINT i2 = some b ∧
                s.tom_execute_cycle b + FU_INT_LATENCY ≤ cycle ∧
                (trace b).op.isStore = false := by
            intro b hb
            cases Option.some.inj hb
            exact ⟨i, hfu, hdone, hnst⟩
          cases best with
          | none =>
            obtain ⟨s2, best2, heq, hS2, hM2, hb2, hex2, hq2, hh2, hsz2, hfx2, hfp2,
              hpot2, hgood2, hprop2, hstrict2⟩ := ih s (some m) hNDr hI hM hbus hbestm
            refine ⟨s2, best2, heq, hS2, hM2, hb2, hex2, hq2, hh2, hsz2, hfx2, hfp2,
              hpot2, hgood2, fun b hb => Option.noConfusion hb, ?_⟩
            intro i2 m2 hi2 hocc2 hdone2
            exact Or.inr (hprop2 m rfl)
          | some b =>
            by_cases hlt : m < b
            · obtain ⟨s2, best2, heq, hS2, hM2, hb2, hex2, hq2, hh2, hsz2, hfx2, hfp2,
                hpot2, hgood2, hprop2, hstrict2⟩ := ih s (some m) hNDr hI hM hbus hbestm
              have hgoal1 : (if m < b then execScanINT trace cycle rest s (some m)
                  else execScanINT trace cycle rest s (some b)) = some (s2, best2) := by
                rw [if_pos hlt]
                exact heq
              refine ⟨s2, best2, hgoal1, hS2, hM2, hb2, hex2, hq2, hh2, hsz2, hfx2, hfp2,
                hpot2, hgood2, fun b0 hb0 => hprop2 m rfl, ?_⟩
              intro i2 m2 hi2 hocc2 hdone2
              exact Or.inr (hprop2 m rfl)
            · obtain ⟨s2, best2, heq, hS2, hM2, hb2, hex2, hq2, hh2, hsz2, hfx2, hfp2,
                hpot2, hgood2, hprop2, hstrict2⟩ := ih s (some b) hNDr hI hM hbus hbest
              have hgoal1 : (if m < b then execScanINT trace cycle rest s (some m)
                  else execScanINT trace cycle rest s (some b)) = some (s2, best2) := by
                rw [if_neg hlt]
                exact heq
              refine ⟨s2, best2, hgoal1, hS2, hM2, hb2, hex2, hq2, hh2, hsz2, hfx2, hfp2,
                hpot2, hgood2, hprop2, ?_⟩
              intro i2 m2 hi2 hocc2 hdone2
              exact Or.inr (hprop2 b rfl)
      · rw [if_neg hdone]
        obtain ⟨s2, best2, heq, hS2, hM2, hb2, hex2, hq2, hh2, hsz2, hfx2, hfp2, hpot2,
          hgood2, hprop2, hstrict2⟩ := ih s best hNDr hI hM hbus hbest
        refine ⟨s2, best2, heq, hS2, hM2, hb2, hex2, hq2, hh2, hsz2, hfx2, hfp2, hpot2,
          hgood2, hprop2, ?_⟩
        intro i2 m2 hi2 hocc2 hdone2
        rcases List.mem_cons.mp hi2 with rfl | hmem
        · rw [hfu] at hocc2
          have hm2 := Option.some.inj hocc2
          subst hm2
          exact absurd hdone2 hdone
        · exact hstrict2 i2 m2 hmem hocc2 hdone2

/-- The execute stage on a post-retire (empty-bus) state: always succeeds,
preserves both invariants, never raises a potential, and strictly lowers one
whenever some functional-unit occupant has completed its latency. -/
theorem execute_To_CDB_invSM (trace : Nat → InstrStatic) (N c2 cycle : Nat) (s : State)
    (hWF : WFb trace N = true) (hI : InvS trace N c2 s) (hM : InvM trace N s)
    (hbus : s.commonDataBus = none) :
    ∃ s2, execute_To_CDB trace cycle s = some s2 ∧
      InvS trace N c2 s2 ∧ InvM trace N s2 ∧
      s2.tom_execute_cycle = s.tom_execute_cycle ∧
      s2.instr_queue = s.instr_queue ∧ s2.ifq_head = s.ifq_head ∧
      s2.instr_queue_size = s.instr_queue_size ∧ s2.fetch_index = s.fetch_index ∧
      (∀ k, pot trace cycle s2 k ≤ pot trace cycle s k) ∧
      (((∃ i m, s.fuINT i = some m ∧ s.tom_execute_cycle m + FU_INT_LATENCY ≤ cycle) ∨
        (∃ m, s.fuFP 0 = some m ∧ s.tom_execute_cycle m + FU_FP_LATENCY ≤ cycle)) →
        ∃ m2, pot trace cycle s2 m2 + 1 ≤ pot trace cycle s m2) := by
  obtain ⟨s1, best1, heq, hS1, hM1, hb1, hex1, hq1, hh1, hsz1, hfx1, hfp1, hpot1,
    hgood1, hprop1, hstrict1⟩ :=
    execScanINT_invSM trace N c2 cycle hWF [0, 1] s none (by decide) hI hM hbus
      (fun b hb => Option.noConfusion hb)
  unfold execute_To_CDB
  split
  · rename_i hnone
    rw [heq] at hnone
    exact Option.noConfusion hnone
  · rename_i s1v best1v heqv
    rw [heq] at heqv
    injection heqv with hp
    injection hp with h1 h2
    subst h1
    subst h2
    cases hmg : mergeFP cycle s1 best1 with
    | none =>
      refine ⟨s1, rfl, hS1, hM1, hex1, hq1, hh1, hsz1, hfx1, hpot1, ?_⟩
      rintro (⟨i, m, hocc, hdone⟩ | ⟨m, hocc, hdone⟩)
      · rcases hstrict1 i m (allFin2_mem i) hocc hdone with hstr | ⟨b2, hb2⟩
        · exact hstr
        · obtain ⟨w, hw⟩ := (mergeFP_spec cycle s1 best1).2.2.2.1 b2 hb2
          rw [hmg] at hw
          exact Option.noConfusion hw
      · have hfpd : fpDone cycle s1 m := by
          refine ⟨?_, ?_⟩
          · rw [hfp1]
            exact hocc
          · rw [hex1]
            exact hdone
        obtain ⟨w, hw⟩ := (mergeFP_spec cycle s1 best1).2.2.2.2 m hfpd
        rw [hmg] at hw
        exact Option.noConfusion hw
    | some w =>
      have hwfacts : inRS s1 w ∧ s1.tom_execute_cycle w ≠ 0 := by
        rcases (mergeFP_spec cycle s1 best1).1 with hmb | ⟨mf, hmf, hfpd⟩
        · rw [hmg] at hmb
          obtain ⟨i, hocc, hdone, hns⟩ := hgood1 w hmb.symm
          have hwRSI : inRSINT s1 w := hS1.fuInt_rs w i hocc
          exact ⟨Or.inl hwRSI, (hS1.exec_iff_int w hwRSI).mpr ⟨i, hocc⟩⟩
        · rw [hmg] at hmf
          have hmfw := Option.some.inj hmf
          subst hmfw
          obtain ⟨hocc, hdone⟩ := hfpd
          have hwRSF : inRSFP s1 w := hS1.fuFp_rs w 0 hocc
          exact ⟨Or.inr hwRSF, (hS1.exec_iff_fp w hwRSF).mpr ⟨0, hocc⟩⟩
      obtain ⟨s2w, hfs, hS3, hM3, hpot3, hpotw3, hfq3, hfh3, hfsz3, hffx3, hfex3,
        hfdc3⟩ :=
        exec_winner_invSM trace N c2 cycle cycle s1 w hWF hS1 hM1 hb1 hwfacts.1 hwfacts.2
      have hgoalEq :
          (match free_stations trace w
              { s1 with tom_cdb_cycle := Function.update s1.tom_cdb_cycle w cycle } with
            | none => (none : Option State)
            | some s2 => some { s2 with commonDataBus := some w }) =
            some { s2w with commonDataBus := some w } := by
        rw [hfs]
      refine ⟨_, hgoalEq, hS3, hM3, hfex3.trans hex1, hfq3.trans hq1, hfh3.trans hh1,
        hfsz3.trans hsz1, hffx3.trans hfx1, ?_, ?_⟩
      · intro k
        exact Nat.le_trans (hpot3 k) (hpot1 k)
      · intro hc
        refine ⟨w, ?_⟩
        have h1 := hpot1 w
        omega

/-! ## Cycle-step composition: identity on drained structures, minimal-element
readiness, and the per-cycle measure decrease -/

theorem CDB_To_retire_id (trace : Nat → InstrStatic) (s : State)
    (hb : s.commonDataBus = none) : CDB_To_retire trace s = s := by
  unfold CDB_To_retire
  rw [hb]

theorem execScanINT_empty (trace : Nat → InstrStatic) (cycle : Nat) (s : State)
    (best : Option Nat) :
    ∀ L : List (Fin 2), (∀ i ∈ L, s.fuINT i = none) →
      execScanINT trace cycle L s best = some (s, best) := by
  intro L
  induction L with
  | nil => intro _; rfl
  | cons i rest ih =>
    intro h
    rw [execScanINT_cons_none trace cycle i rest s best (h i (List.mem_cons_self i rest))]
    exact ih fun j hj => h j (List.mem_cons_of_mem i hj)

theorem mergeFP_empty (cycle : Nat) (s1 : State) (best1 : Option Nat)
    (hf : s1.fuFP 0 = none) : mergeFP cycle s1 best1 = best1 := by
  unfold mergeFP
  rw [hf]

theorem execute_To_CDB_id (trace : Nat → InstrStatic) (cycle : Nat) (s : State)
    (h0 : s.fuINT 0 = none) (h1 : s.fuINT 1 = none) (hf : s.fuFP 0 = none) :
    execute_To_CDB trace cycle s = some s := by
  have hscan : execScanINT trace cycle [0, 1] s none = some (s, none) := by
    refine execScanINT_empty trace cycle s none [0, 1] ?_
    intro i hi
    rcases List.mem_cons.mp hi with h | h
    · rw [h]; exact h0
    · rw [List.mem_singleton.mp h]; exact h1
  unfold execute_To_CDB
  rw [hscan]
  show (match mergeFP cycle s none with
    | none => some s
    | some w =>
      match free_stations trace w
          { s with tom_cdb_cycle := Function.update s.tom_cdb_cycle w cycle } with
      | none => none
      | some s2 => some { s2 with commonDataBus := some w }) = some s
  rw [mergeFP_empty cycle s none hf]

theorem scanReadyINT_empty (s : State) :
    ∀ L : List (Fin 4), (∀ j ∈ L, s.reservINT j = none) →
      ∀ best, scanReadyINT s L best = best := by
  intro L
  induction L with
  | nil => intro _ _; rfl
  | cons j rest ih =>
    intro h best
    rw [scanReadyINT_cons_none s j rest best (h j (List.mem_cons_self j rest))]
    exact ih (fun j2 hj2 => h j2 (List.mem_cons_of_mem j hj2)) best

theorem scanReadyFP_empty (s : State) :
    ∀ L : List (Fin 2), (∀ j ∈ L, s.reservFP j = none) →
      ∀ best, scanReadyFP s L best = best := by
  intro L
  induction L with
  | nil => intro _ _; rfl
  | cons j rest ih =>
    intro h best
    rw [scanReadyFP_cons_none s j rest best (h j (List.mem_cons_self j rest))]
    exact ih (fun j2 hj2 => h j2 (List.mem_cons_of_mem j hj2)) best

theorem issueSlotINT_id (cycle : Nat) (s : State) (i : Fin 2)
    (h : scanReadyINT s [0, 1, 2, 3] none = none) : issueSlotINT cycle s i = s := by
  unfold issueSlotINT
  cases hfu : s.fuINT i with
  | none => rw [h]
  | some m => rfl

theorem issueSlotFP_id (cycle : Nat) (s : State) (i : Fin 1)
    (h : scanReadyFP s [0, 1] none = none) : issueSlotFP cycle s i = s := by
  unfold issueSlotFP
  cases hfu : s.fuFP i with
  | none => rw [h]
  | some m => rfl

theorem issue_To_execute_id (cycle : Nat) (s : State)
    (hInt : ∀ j, s.reservINT j = none) (hFp : ∀ j, s.reservFP j = none) :
    issue_To_execute cycle s = s := by
  have hsi : scanReadyINT s [0, 1, 2, 3] none = none :=
    scanReadyINT_empty s [0, 1, 2, 3] (fun j _ => hInt j) none
  have hsf : scanReadyFP s [0, 1] none = none :=
    scanReadyFP_empty s [0, 1] (fun j _ => hFp j) none
  unfold issue_To_execute
  rw [issueSlotINT_id cycle s 0 hsi, issueSlotINT_id cycle s 1 hsi,
    issueSlotFP_id cycle s 0 hsf]

theorem dispatch_To_issue_id (trace : Nat → InstrStatic) (cycle : Nat) (s : State)
    (h : s.instr_queue_size = 0) : dispatch_To_issue trace cycle s = some s := by
  unfold dispatch_To_issue
  rw [h, if_neg (Nat.lt_irrefl 0)]

theorem fetch_To_dispatch_id (trace : Nat → InstrStatic) (N ffuel cycle : Nat) (s : State)
    (h : ¬s.fetch_index < N) : fetch_To_dispatch trace N ffuel cycle s = some s := by
  unfold fetch_To_dispatch
  rw [if_neg fun hc => h hc.2]

theorem cntRSINT_zero (s : State) (h : cntRSINT s = 0) : ∀ j, s.reservINT j = none := by
  intro j
  cases hv : s.reservINT j with
  | none => rfl
  | some v =>
    exfalso
    have hmem : j ∈ Finset.univ.filter fun j2 : Fin 4 => (s.reservINT j2).isSome :=
      Finset.mem_filter.mpr ⟨Finset.mem_univ j, by rw [hv]; rfl⟩
    rw [Finset.card_eq_zero.mp h] at hmem
    exact Finset.not_mem_empty j hmem

theorem cntRSFP_zero (s : State) (h : cntRSFP s = 0) : ∀ j, s.reservFP j = none := by
  intro j
  cases hv : s.reservFP j with
  | none => rfl
  | some v =>
    exfalso
    have hmem : j ∈ Finset.univ.filter fun j2 : Fin 2 => (s.reservFP j2).isSome :=
      Finset.mem_filter.mpr ⟨Finset.mem_univ j, by rw [hv]; rfl⟩
    rw [Finset.card_eq_zero.mp h] at hmem
    exact Finset.not_mem_empty j hmem

theorem busCnt_zero (s : State) (h : busCnt s = 0) : s.commonDataBus = none := by
  cases hb : s.commonDataBus with
  | none => rfl
  | some b =>
    exfalso
    unfold busCnt at h
    rw [hb] at h
    exact Nat.noConfusion h

theorem cntRSINT_of_empty (s : State) (h : ∀ j, s.reservINT j = none) : cntRSINT s = 0 := by
  unfold cntRSINT
  rw [Finset.card_eq_zero]
  refine Finset.filter_eq_empty_iff.mpr ?_
  intro j _
  rw [h j]
  exact fun hc => Bool.noConfusion hc

theorem cntRSFP_of_empty (s : State) (h : ∀ j, s.reservFP j = none) : cntRSFP s = 0 := by
  unfold cntRSFP
  rw [Finset.card_eq_zero]
  refine Finset.filter_eq_empty_iff.mpr ?_
  intro j _
  rw [h j]
  exact fun hc => Bool.noConfusion hc

theorem busCnt_of_none (s : State) (h : s.commonDataBus = none) : busCnt s = 0 := by
  unfold busCnt
  rw [h]
  rfl

theorem exists_min_nat (P : Nat → Prop) : ∀ k, P k → ∃ m, P m ∧ ∀ p, P p → m ≤ p := by
  intro k
  induction k using Nat.strong_induction_on with
  | _ k ih =>
    intro hk
    by_cases hlow : ∀ p, P p → k ≤ p
    · exact ⟨k, hk, hlow⟩
    · push_neg at hlow
      obtain ⟨p, hp, hpk⟩ := hlow
      exact ih p hpk hp

/-- A strict potential drop can only happen at an instruction within the trace
window of one of the two states. -/
theorem pot_strict_le (trace : Nat → InstrStatic) (N cyc : Nat) (s s2 : State) (m : Nat)
    (h : pot trace cyc s2 m + 1 ≤ pot trace cyc s m)
    (h1 : s.fetch_index ≤ N) (h2 : s2.fetch_index ≤ N) : m ≤ N := by
  by_cases hf : s.fetch_index < m
  · by_cases hf2 : s2.fetch_index < m
    · rw [pot_of_unfetched trace cyc s m hf, pot_of_unfetched trace cyc s2 m hf2] at h
      omega
    · omega
  · omega

/-- With an empty bus and idle functional units, the least reservation-station
occupant is a ready issue candidate: all of its await-slots must point at
strictly older in-flight occupants, and there are none. -/
theorem ready_candidate_of_min (trace : Nat → InstrStatic) (N c2 : Nat) (s : State)
    (hI : InvS trace N c2 s) (hM : InvM trace N s)
    (hb : s.commonDataBus = none)
    (hfu0 : s.fuINT 0 = none) (hfu1 : s.fuINT 1 = none) (hff : s.fuFP 0 = none)
    (m0 : Nat) (hm0 : inRS s m0) :
    ∃ m, candINT s [0, 1, 2, 3] m ∨ candFP s [0, 1] m := by
  obtain ⟨m, hm, hmin⟩ := exists_min_nat (inRS s) m0 hm0
  have hfuI : ∀ i : Fin 2, s.fuINT i = none := by
    intro i
    match i with
    | 0 => exact hfu0
    | 1 => exact hfu1
  have hexec0 : s.tom_execute_cycle m = 0 := by
    by_contra hne
    rcases hm with hmi | hmf
    · obtain ⟨i, hi⟩ := (hI.exec_iff_int m hmi).mp hne
      rw [hfuI i] at hi
      exact Option.noConfusion hi
    · obtain ⟨i, hi⟩ := (hI.exec_iff_fp m hmf).mp hne
      match i with
      | 0 =>
        rw [hff] at hi
        exact Option.noConfusion hi
  have hQ : ∀ j : Fin 3, s.Q m j = none := by
    intro j
    cases hv : s.Q m j with
    | none => rfl
    | some p =>
      exfalso
      obtain ⟨_, _, hps, hpm, _⟩ := hM.qwf m j p hv
      rcases hps with hps | hps
      · exact absurd (hmin p hps) (by omega)
      · rw [show onBus s p = (s.commonDataBus = some p) from rfl, hb] at hps
        exact Option.noConfusion hps
  have hready : rsReady s m := ⟨hexec0, hQ 0, hQ 1, hQ 2⟩
  rcases hm with hmi | hmf
  · obtain ⟨j, hj⟩ := hmi
    exact ⟨m, Or.inl ⟨j, allFin4_mem j, hj, hready⟩⟩
  · obtain ⟨j, hj⟩ := hmf
    exact ⟨m, Or.inr ⟨j, allFin2_mem j, hj, hready⟩⟩

/-- A functional-unit occupant mid-latency loses exactly one unit of potential
as the cycle counter ticks. -/
theorem pot_tick_strict (trace : Nat → InstrStatic) (N c2 cycle : Nat) (s : State)
    (hI : InvS trace N c2 s) (hcyc : 1 ≤ cycle) (m : Nat)
    (hm : inRS s m) (hne : s.tom_execute_cycle m ≠ 0)
    (hmid : cycle < s.tom_execute_cycle m + latOf trace m) :
    pot trace cycle s m + 1 ≤ pot trace (cycle - 1) s m := by
  have hle : m ≤ s.fetch_index := by
    rcases hm with hmi | hmf
    · exact (hI.rsIntClass m hmi).2.2.2.2.2.2
    · exact (hI.rsFpClass m hmf).2.2.2.2.2
  have hnf : ¬s.fetch_index < m := by omega
  have hnq : ¬inQueue s m := fun hq => hI.q_rs m hq hm
  rw [pot_of_exec trace cycle s m hnf hnq hm hne,
    pot_of_exec trace (cycle - 1) s m hnf hnq hm hne]
  omega

/-- One full cycle of the five stage transitions: success, preservation of both
invariant layers, pointwise potential non-increase, and — while work remains —
either a strict potential drop across the step or a strict drop of some
executing instruction's potential under the cycle tick. -/
theorem cycleStep_invSM (trace : Nat → InstrStatic) (N cycle : Nat) (s : State)
    (hWF : WFb trace N = true) (hI : InvS trace N cycle s) (hM : InvM trace N s)
    (hcyc : 1 ≤ cycle) :
    ∃ s2, cycleStep trace N cycle s = some s2 ∧ InvS trace N cycle s2 ∧ InvM trace N s2 ∧
      (∀ k, pot trace cycle s2 k ≤ pot trace cycle s k) ∧
      (s.doneCount < N →
        (∃ m, m ≤ N ∧ pot trace cycle s2 m + 1 ≤ pot trace cycle s m) ∨
        (∃ m, m ≤ N ∧ pot trace cycle s m + 1 ≤ pot trace (cycle - 1) s m)) := by
  have hSA : InvS trace N cycle (CDB_To_retire trace s) := CDB_To_retire_invS trace N cycle s hI
  have hMA : InvM trace N (CDB_To_retire trace s) := CDB_To_retire_invM trace N cycle s hI hM
  obtain ⟨e1, e2, e3, e4, e5, e6, e7, e8, e9, e10, e11, e12⟩ := CDB_To_retire_effects trace s
  obtain ⟨hpotA, hbusPotA⟩ := CDB_To_retire_pot trace N cycle cycle s hI
  obtain ⟨sB, hB, hSB, hMB, hexB, hqB, hhB, hszB, hfxB, hpotB, hstrictB⟩ :=
    execute_To_CDB_invSM trace N cycle cycle (CDB_To_retire trace s) hWF hSA hMA e11
  have hSC : InvS trace N cycle (issue_To_execute cycle sB) :=
    issue_To_execute_invS trace N cycle cycle sB hSB hcyc (Nat.le_refl cycle)
  have hMC : InvM trace N (issue_To_execute cycle sB) :=
    issue_To_execute_invM trace N cycle sB hMB
  have hpotC : ∀ k, pot trace cycle (issue_To_execute cycle sB) k ≤ pot trace cycle sB k :=
    fun k => issue_To_execute_pot trace N cycle cycle sB hSB hcyc (Nat.le_refl cycle) k
  obtain ⟨sD, hD, hSD, hMD, hpotD, hfuID, hfuFD, hcdbD, hfxD, hexD, hstrictD⟩ :=
    dispatch_To_issue_invSM trace N cycle cycle (issue_To_execute cycle sB) hWF hSC hMC
  obtain ⟨sE, hE, hSE, hME, hpotE, hstrictE⟩ :=
    fetch_To_dispatch_invSM trace N cycle cycle cycle sD hWF hSD hMD
  refine ⟨sE, ?_, hSE, hME, ?_, ?_⟩
  · unfold cycleStep
    rw [hB]
    show (match dispatch_To_issue trace cycle (issue_To_execute cycle sB) with
      | none => none
      | some s4 => fetch_To_dispatch trace N (N + 1) cycle s4) = some sE
    rw [hD]
    exact hE
  · intro k
    have h1 := hpotE k
    have h2 := hpotD k
    have h3 := hpotC k
    have h4 := hpotB k
    have h5 := hpotA k
    omega
  · intro hdc
    cases hb : s.commonDataBus with
    | some b =>
      left
      refine ⟨b, Nat.le_trans (hI.bus_range b hb).2 hI.fi_le, ?_⟩
      obtain ⟨hz, ht⟩ := hbusPotA b hb
      have h1 := hpotE b
      have h2 := hpotD b
      have h3 := hpotC b
      have h4 := hpotB b
      omega
    | none =>
      have hAid : CDB_To_retire trace s = s := CDB_To_retire_id trace s hb
      rw [hAid] at hB hpotB hstrictB
      by_cases hdone :
          (∃ i m, s.fuINT i = some m ∧ s.tom_execute_cycle m + FU_INT_LATENCY ≤ cycle) ∨
          (∃ m, s.fuFP 0 = some m ∧ s.tom_execute_cycle m + FU_FP_LATENCY ≤ cycle)
      · left
        obtain ⟨m2, hm2⟩ := hstrictB hdone
        have hstr : pot trace cycle sE m2 + 1 ≤ pot trace cycle s m2 := by
          have h1 := hpotE m2
          have h2 := hpotD m2
          have h3 := hpotC m2
          omega
        exact ⟨m2, pot_strict_le trace N cycle s sE m2 hstr hI.fi_le hSE.fi_le, hstr⟩
      · by_cases hOcc : (∃ i : Fin 2, ∃ m, s.fuINT i = some m) ∨ (∃ m, s.fuFP 0 = some m)
        · right
          push_neg at hdone
          obtain ⟨hdoneI, hdoneF⟩ := hdone
          rcases hOcc with ⟨i, m, hi⟩ | ⟨m, hi⟩
          · obtain ⟨j, hj⟩ := hI.fuInt_rs m i hi
            have hrsi : inRSINT s m := ⟨j, hj⟩
            have hrs : inRS s m := Or.inl hrsi
            have hne : s.tom_execute_cycle m ≠ 0 := (hI.exec_iff_int m hrsi).mpr ⟨i, hi⟩
            have hfp : USES_FP_FU (trace m).op = false := (hI.rsIntClass m hrsi).2.1
            have hlm : latOf trace m = FU_INT_LATENCY := by
              unfold latOf
              rw [hfp]
              rfl
            have hmid : cycle < s.tom_execute_cycle m + latOf trace m := by
              have := hdoneI i m hi
              rw [hlm]
              omega
            refine ⟨m, Nat.le_trans (hI.rsIntClass m hrsi).2.2.2.2.2.2 hI.fi_le, ?_⟩
            exact pot_tick_strict trace N cycle cycle s hI hcyc m hrs hne hmid
          · obtain ⟨j, hj⟩ := hI.fuFp_rs m 0 hi
            have hrsf : inRSFP s m := ⟨j, hj⟩
            have hrs : inRS s m := Or.inr hrsf
            have hne : s.tom_execute_cycle m ≠ 0 := (hI.exec_iff_fp m hrsf).mpr ⟨0, hi⟩
            have hfp : USES_FP_FU (trace m).op = true := (hI.rsFpClass m hrsf).1
            have hlm : latOf trace m = FU_FP_LATENCY := by
              unfold latOf
              rw [hfp]
              rfl
            have hmid : cycle < s.tom_execute_cycle m + latOf trace m := by
              have := hdoneF m hi
              rw [hlm]
              omega
            refine ⟨m, Nat.le_trans (hI.rsFpClass m hrsf).2.2.2.2.2 hI.fi_le, ?_⟩
            exact pot_tick_strict trace N cycle cycle s hI hcyc m hrs hne hmid
        · push_neg at hOcc
          obtain ⟨hOccI, hOccF⟩ := hOcc
          have hfu0 : s.fuINT 0 = none := by
            cases hv : s.fuINT 0 with
            | none => rfl
            | some v => exact absurd hv (hOccI 0 v)
          have hfu1 : s.fuINT 1 = none := by
            cases hv : s.fuINT 1 with
            | none => rfl
            | some v => exact absurd hv (hOccI 1 v)
          have hff : s.fuFP 0 = none := by
            cases hv : s.fuFP 0 with
            | none => rfl
            | some v => exact absurd hv (hOccF v)
          have hBid : execute_To_CDB trace cycle s = some s :=
            execute_To_CDB_id trace cycle s hfu0 hfu1 hff
          have hsB : s = sB := Option.some.inj (hBid.symm.trans hB)
          subst hsB
          by_cases hRS : ∃ m1, inRS s m1
          · left
            obtain ⟨m1, hm1⟩ := hRS
            obtain ⟨m, hcand⟩ := ready_candidate_of_min trace N cycle s hI hM hb
              hfu0 hfu1 hff m1 hm1
            obtain ⟨m2, hm2⟩ := issue_To_execute_strict trace N cycle cycle s hI hcyc
              (Nat.le_refl cycle) hfu0 hff m hcand
            have hstr : pot trace cycle sE m2 + 1 ≤ pot trace cycle s m2 := by
              have h1 := hpotE m2
              have h2 := hpotD m2
              omega
            exact ⟨m2, pot_strict_le trace N cycle s sE m2 hstr hI.fi_le hSE.fi_le, hstr⟩
          · have hIntE : ∀ j, s.reservINT j = none := by
              intro j
              cases hv : s.reservINT j with
              | none => rfl
              | some v => exact absurd ⟨v, Or.inl ⟨j, hv⟩⟩ hRS
            have hFpE : ∀ j, s.reservFP j = none := by
              intro j
              cases hv : s.reservFP j with
              | none => rfl
              | some v => exact absurd ⟨v, Or.inr ⟨j, hv⟩⟩ hRS
            have hCid : issue_To_execute cycle s = s :=
              issue_To_execute_id cycle s hIntE hFpE
            rw [hCid] at hD hpotD hstrictD
            by_cases hq1 : 0 < s.instr_queue_size
            · left
              obtain ⟨m, hm⟩ := hstrictD hq1 ⟨0, hIntE 0⟩ ⟨0, hFpE 0⟩
              have hstr : pot trace cycle sE m + 1 ≤ pot trace cycle s m := by
                have h1 := hpotE m
                omega
              exact ⟨m, pot_strict_le trace N cycle s sE m hstr hI.fi_le hSE.fi_le, hstr⟩
            · have hq0 : s.instr_queue_size = 0 := by omega
              have hDid : dispatch_To_issue trace cycle s = some s :=
                dispatch_To_issue_id trace cycle s hq0
              have hsD : s = sD := Option.some.inj (hDid.symm.trans hD)
              subst hsD
              have hacct := hM.acct
              rw [hq0, cntRSINT_of_empty s hIntE, cntRSFP_of_empty s hFpE,
                busCnt_of_none s hb] at hacct
              have hfiN : s.fetch_index < N := by omega
              left
              obtain ⟨m, hm⟩ := hstrictE (by omega) hfiN
              exact ⟨m, pot_strict_le trace N cycle s sE m hm hI.fi_le hSE.fi_le, hm⟩

/-- While instructions remain to be completed, each cycle strictly decreases
the total potential (evaluated at the respective cycle numbers). -/
theorem cycleStep_measure (trace : Nat → InstrStatic) (N cycle : Nat) (s : State)
    (hWF : WFb trace N = true) (hI : InvS trace N (cycle - 1) s) (hM : InvM trace N s)
    (hcyc : 1 ≤ cycle) (hdc : s.doneCount < N) :
    ∃ s2, cycleStep trace N cycle s = some s2 ∧ InvS trace N cycle s2 ∧ InvM trace N s2 ∧
      measureM trace N cycle s2 < measureM trace N (cycle - 1) s := by
  have hI2 : InvS trace N cycle s := invS_mono trace N (cycle - 1) cycle s (by omega) hI
  obtain ⟨s2, hstep, hS2, hM2, hle, hprog⟩ := cycleStep_invSM trace N cycle s hWF hI2 hM hcyc
  refine ⟨s2, hstep, hS2, hM2, ?_⟩
  rcases hprog hdc with ⟨m, hmN, hm⟩ | ⟨m, hmN, hm⟩
  · have h1 : measureM trace N cycle s2 < measureM trace N cycle s := by
      unfold measureM
      exact Finset.sum_lt_sum (fun k _ => hle k)
        ⟨m, Finset.mem_range.mpr (by omega), by omega⟩
    have h2 : measureM trace N cycle s ≤ measureM trace N (cycle - 1) s := by
      unfold measureM
      exact Finset.sum_le_sum fun k _ => pot_mono_cyc trace (cycle - 1) cycle s k (by omega)
    omega
  · have h1 : measureM trace N cycle s2 ≤ measureM trace N cycle s := by
      unfold measureM
      exact Finset.sum_le_sum fun k _ => hle k
    have h2 : measureM trace N cycle s < measureM trace N (cycle - 1) s := by
      unfold measureM
      exact Finset.sum_lt_sum
        (fun k _ => pot_mono_cyc trace (cycle - 1) cycle s k (by omega))
        ⟨m, Finset.mem_range.mpr (by omega), by omega⟩
    omega

/-- Once `doneCount` has caught up with the instruction count, the accounting
invariant forces every pipeline structure empty and the cycle step is the
identity. -/
theorem cycleStep_done_id (trace : Nat → InstrStatic) (N c2 cycle : Nat) (s : State)
    (hI : InvS trace N c2 s) (hM : InvM trace N s) (hdc : N ≤ s.doneCount) :
    cycleStep trace N cycle s = some s := by
  have hacct := hM.acct
  have hfi := hI.fi_le
  have hq0 : s.instr_queue_size = 0 := by omega
  have hcI : cntRSINT s = 0 := by omega
  have hcF : cntRSFP s = 0 := by omega
  have hbc : busCnt s = 0 := by omega
  have hb : s.commonDataBus = none := busCnt_zero s hbc
  have hIntE := cntRSINT_zero s hcI
  have hFpE := cntRSFP_zero s hcF
  have hfu0 : s.fuINT 0 = none := by
    cases hv : s.fuINT 0 with
    | none => rfl
    | some v =>
      obtain ⟨j, hj⟩ := hI.fuInt_rs v 0 hv
      rw [hIntE j] at hj
      exact Option.noConfusion hj
  have hfu1 : s.fuINT 1 = none := by
    cases hv : s.fuINT 1 with
    | none => rfl
    | some v =>
      obtain ⟨j, hj⟩ := hI.fuInt_rs v 1 hv
      rw [hIntE j] at hj
      exact Option.noConfusion hj
  have hff : s.fuFP 0 = none := by
    cases hv : s.fuFP 0 with
    | none => rfl
    | some v =>
      obtain ⟨j, hj⟩ := hI.fuFp_rs v 0 hv
      rw [hFpE j] at hj
      exact Option.noConfusion hj
  unfold cycleStep
  rw [CDB_To_retire_id trace s hb, execute_To_CDB_id trace cycle s hfu0 hfu1 hff]
  show (match dispatch_To_issue trace cycle (issue_To_execute cycle s) with
    | none => none
    | some s4 => fetch_To_dispatch trace N (N + 1) cycle s4) = some s
  rw [issue_To_execute_id cycle s hIntE hFpE, dispatch_To_issue_id trace cycle s hq0]
  show fetch_To_dispatch trace N (N + 1) cycle s = some s
  exact fetch_To_dispatch_id trace N (N + 1) cycle s (by omega)

theorem runLoopS_succ (trace : Nat → InstrStatic) (N fuel cycle : Nat) (s : State) :
    runLoopS trace N (fuel + 1) cycle s =
      match cycleStep trace N cycle s with
      | none => none
      | some s2 =>
        if is_simulation_done N s2 then some (cycle + 1, s2)
        else runLoopS trace N fuel (cycle + 1) s2 := rfl

/-- The loop never exits early: whenever `runLoopS` returns, the final state's
completed count is exactly `N`. -/
theorem runLoopS_done_count (trace : Nat → InstrStatic) (N : Nat) :
    ∀ fuel cycle s c sF, runLoopS trace N fuel cycle s = some (c, sF) →
      sF.doneCount = N := by
  intro fuel
  induction fuel with
  | zero =>
    intro cycle s c sF h
    exact Option.noConfusion h
  | succ fuel ih =>
    intro cycle s c sF h
    rw [runLoopS_succ] at h
    cases hcs : cycleStep trace N cycle s with
    | none =>
      rw [hcs] at h
      exact Option.noConfusion h
    | some s2 =>
      rw [hcs] at h
      have h2 : (if is_simulation_done N s2 then some (cycle + 1, s2)
          else runLoopS trace N fuel (cycle + 1) s2) = some (c, sF) := h
      by_cases hd : is_simulation_done N s2 = true
      · rw [if_pos hd] at h2
        obtain ⟨hc, hs⟩ := Prod.mk.inj (Option.some.inj h2)
        subst hs
        have hd3 : (s2.doneCount == N) = true := hd
        exact eq_of_beq hd3
      · rw [if_neg hd] at h2
        exact ih (cycle + 1) s2 c sF h2

/-- With all structures drained, one more unit of fuel exits the loop at
once. -/
theorem runLoopS_exit_now (trace : Nat → InstrStatic) (N c2 cycle : Nat) (s : State)
    (hI : InvS trace N c2 s) (hM : InvM trace N s) (hdc : N ≤ s.doneCount) :
    runLoopS trace N 1 cycle s = some (cycle + 1, s) := by
  have hdceq : s.doneCount = N := by
    have h1 := hM.acct
    have h2 := hI.fi_le
    omega
  have hsd : is_simulation_done N s = true := by
    show (s.doneCount == N) = true
    rw [hdceq]
    exact beq_self_eq_true N
  rw [runLoopS_succ, cycleStep_done_id trace N c2 cycle s hI hM hdc]
  show (if is_simulation_done N s then some (cycle + 1, s)
    else runLoopS trace N 0 (cycle + 1) s) = some (cycle + 1, s)
  rw [if_pos hsd]

/-- Strong induction on the total potential: from any invariant state the loop
exits for some fuel. -/
theorem runLoopS_terminates (trace : Nat → InstrStatic) (N : Nat)
    (hWF : WFb trace N = true) :
    ∀ M cycle s, 1 ≤ cycle → InvS trace N (cycle - 1) s → InvM trace N s →
      measureM trace N (cycle - 1) s ≤ M →
      ∃ fuel c sF, runLoopS trace N fuel cycle s = some (c, sF) := by
  intro M
  induction M with
  | zero =>
    intro cycle s hcyc hI hM hmeas
    by_cases hdc : N ≤ s.doneCount
    · exact ⟨1, cycle + 1, s, runLoopS_exit_now trace N (cycle - 1) cycle s hI hM hdc⟩
    · push_neg at hdc
      obtain ⟨s2, _, hS2, _, hlt⟩ :=
        cycleStep_measure trace N cycle s hWF hI hM hcyc hdc
      omega
  | succ M ih =>
    intro cycle s hcyc hI hM hmeas
    by_cases hdc : N ≤ s.doneCount
    · exact ⟨1, cycle + 1, s, runLoopS_exit_now trace N (cycle - 1) cycle s hI hM hdc⟩
    · push_neg at hdc
      obtain ⟨s2, hstep, hS2, hM2, hlt⟩ :=
        cycleStep_measure trace N cycle s hWF hI hM hcyc hdc
      by_cases hd : is_simulation_done N s2 = true
      · refine ⟨1, cycle + 1, s2, ?_⟩
        rw [runLoopS_succ, hstep]
        show (if is_simulation_done N s2 then some (cycle + 1, s2)
          else runLoopS trace N 0 (cycle + 1) s2) = some (cycle + 1, s2)
        rw [if_pos hd]
      · have hI2 : InvS trace N ((cycle + 1) - 1) s2 := by
          rw [Nat.add_sub_cancel]
          exact hS2
        have hmeas2 : measureM trace N ((cycle + 1) - 1) s2 ≤ M := by
          rw [Nat.add_sub_cancel]
          omega
        obtain ⟨fuel, c, sF, hrun⟩ := ih (cycle + 1) s2 (by omega) hI2 hM2 hmeas2
        refine ⟨fuel + 1, c, sF, ?_⟩
        rw [runLoopS_succ, hstep]
        show (if is_simulation_done N s2 then some (cycle + 1, s2)
          else runLoopS trace N fuel (cycle + 1) s2) = some (c, sF)
        rw [if_neg hd]
        exact hrun

/-- Both invariant layers hold in every reachable state. -/
theorem runCycles_invSM (trace : Nat → InstrStatic) (N : Nat)
    (hWF : WFb trace N = true) :
    ∀ c s, runCycles trace N c = some s → InvS trace N c s ∧ InvM trace N s := by
  intro c
  induction c with
  | zero =>
    intro s h
    have hs : initState = s := Option.some.inj h
    rw [← hs]
    exact ⟨invS_init trace N, invM_init trace N⟩
  | succ c ih =>
    intro s h
    cases hrc : runCycles trace N c with
    | none =>
      have hnone : runCycles trace N (c + 1) = none := by
        unfold runCycles
        rw [hrc]
      rw [hnone] at h
      exact Option.noConfusion h
    | some s1 =>
      rw [runCycles_succ trace N c s1 hrc] at h
      obtain ⟨hS1, hM1⟩ := ih s1 hrc
      have hS1b : InvS trace N (c + 1) s1 :=
        invS_mono trace N c (c + 1) s1 (by omega) hS1
      obtain ⟨s2, hstep, hS2, hM2, _, _⟩ :=
        cycleStep_invSM trace N (c + 1) s1 hWF hS1b hM1 (by omega)
      rw [hstep] at h
      have hs : s2 = s := Option.some.inj h
      rw [← hs]
      exact ⟨hS2, hM2⟩

/-- C2: for every finite, well-formed instruction stream of count `N`, the
`runTomasulo` loop terminates (some fuel makes `runLoopS` — and with it
`runTomasulo` — return), and every exit of the loop, in particular the one
taken, happens with the completed-instruction count `doneCount` exactly `N`:
the loop neither exits early nor runs forever. -/
theorem c2_loop_terminates_all_retired (trace : Nat → InstrStatic) (N : Nat)
    (hWF : WFb trace N = true) :
    (∃ fuel cycles sF, runLoopS trace N fuel 1 initState = some (cycles, sF) ∧
      sF.doneCount = N ∧ runTomasulo trace N fuel = some cycles) ∧
    (∀ fuel cycles sF, runLoopS trace N fuel 1 initState = some (cycles, sF) →
      sF.doneCount = N) := by
  obtain ⟨fuel, c, sF, hrun⟩ :=
    runLoopS_terminates trace N hWF (measureM trace N 0 initState) 1 initState
      (by omega) (invS_init trace N) (invM_init trace N) (Nat.le_refl _)
  refine ⟨⟨fuel, c, sF, hrun,
    runLoopS_done_count trace N fuel 1 initState c sF hrun, ?_⟩,
    fun fuel2 c2 sF2 h => runLoopS_done_count trace N fuel2 1 initState c2 sF2 h⟩
  unfold runTomasulo
  rw [hrun]
  rfl

theorem c2_witness :
    WFb traceIcomp1 1 = true ∧
    ((∃ fuel cycles sF, runLoopS traceIcomp1 1 fuel 1 initState = some (cycles, sF) ∧
        sF.doneCount = 1 ∧ runTomasulo traceIcomp1 1 fuel = some cycles) ∧
      (∀ fuel cycles sF, runLoopS traceIcomp1 1 fuel 1 initState = some (cycles, sF) →
        sF.doneCount = 1)) :=
  ⟨by decide, c2_loop_terminates_all_retired traceIcomp1 1 (by decide)⟩

/-- C3 (amended): in every reachable state, the instruction queue, the
reservation stations and the common data bus are mutually exclusive, but an
occupant of a functional unit always also occupies a reservation station of
its class — functional-unit occupancy is not exclusive of
reservation-station occupancy. -/
theorem c3_queue_rs_bus_exclusive_fu_implies_rs (trace : Nat → InstrStatic)
    (N c : Nat) (s : State) (hWF : WFb trace N = true)
    (hrun : runCycles trace N c = some s) :
    (∀ k, inQueue s k → ¬inRS s k ∧ ¬onBus s k) ∧
    (∀ k, inRS s k → ¬onBus s k) ∧
    (∀ k, inFU s k → inRS s k) := by
  obtain ⟨hS, _⟩ := runCycles_invSM trace N hWF c s hrun
  refine ⟨fun k hk => ⟨hS.q_rs k hk, hS.q_bus k hk⟩, fun k hk => hS.rs_bus k hk, ?_⟩
  intro k hk
  rcases hk with ⟨i, hi⟩ | ⟨i, hi⟩
  · exact Or.inl (hS.fuInt_rs k i hi)
  · exact Or.inr (hS.fuFp_rs k i hi)

theorem c3_amended_witness :
    WFb traceIcomp1 1 = true ∧ runCycles traceIcomp1 1 0 = some initState ∧
    ((∀ k, inQueue initState k → ¬inRS initState k ∧ ¬onBus initState k) ∧
      (∀ k, inRS initState k → ¬onBus initState k) ∧
      (∀ k, inFU initState k → inRS initState k)) :=
  ⟨by decide, rfl,
    c3_queue_rs_bus_exclusive_fu_implies_rs traceIcomp1 1 0 initState (by decide) rfl⟩

end Tomasulo
